import Mathlib

/-!
Verification of the Huffman compression module `huffman_optimized.py`.

The Python source is shallowly embedded: Python strings become `List Char`,
Python dicts become insertion-ordered association lists, the `heapq` module
is modelled by the exact CPython list-based sift algorithms, and fallible
operations (struct packing, decoding walks that would dereference `None`)
return `Option`.
-/

namespace Huffman

/-- Python dict lookup `m[k]` (as `Option`): first binding wins, matching a
dict in which each key occurs once. -/
def dictGet {β : Type} : List (Char × β) → Char → Option β
  | [], _ => none
  | (k', v') :: rest, k => if k' = k then some v' else dictGet rest k

/-- Python dict assignment `m[k] = v`: replace in place if the key is
present, otherwise append the new binding at the end (insertion order). -/
def dictSet {β : Type} : List (Char × β) → Char → β → List (Char × β)
  | [], k, v => [(k, v)]
  | (k', v') :: rest, k, v =>
    if k' = k then (k', v) :: rest else (k', v') :: dictSet rest k v

/-- CPython `heapq._siftdown` main loop: `newitem` was conceptually removed
from index `pos`; walk toward the root moving larger parents down, then
place `newitem`. -/
def siftdownLoop {α : Type} (lt : α → α → Bool) (heap : List α)
    (startpos : Nat) (newitem : α) (pos : Nat) : List α :=
  if _h : startpos < pos then
    if lt newitem (heap.getD ((pos - 1) / 2) newitem) then
      siftdownLoop lt (heap.set pos (heap.getD ((pos - 1) / 2) newitem))
        startpos newitem ((pos - 1) / 2)
    else heap.set pos newitem
  else heap.set pos newitem
termination_by pos
decreasing_by
  omega

/-- CPython `heapq._siftdown(heap, startpos, pos)`. Reading `heap[pos]` out
of bounds would raise `IndexError`; that never happens at the call sites and
is modelled as the identity. -/
def siftdown {α : Type} (lt : α → α → Bool) (heap : List α)
    (startpos pos : Nat) : List α :=
  match heap.get? pos with
  | none => heap
  | some newitem => siftdownLoop lt heap startpos newitem pos

/-- CPython `heapq._siftup` main loop: bubble the hole at `pos` down to a
leaf, always moving the smaller child up; returns the final hole position. -/
def siftupLoop {α : Type} (lt : α → α → Bool) (heap : List α)
    (newitem : α) (pos : Nat) : List α × Nat :=
  if h : 2 * pos + 1 < heap.length then
    if h2 : 2 * pos + 2 < heap.length ∧
        lt (heap.getD (2 * pos + 1) newitem) (heap.getD (2 * pos + 2) newitem) = false then
      siftupLoop lt (heap.set pos (heap.getD (2 * pos + 2) newitem)) newitem (2 * pos + 2)
    else
      siftupLoop lt (heap.set pos (heap.getD (2 * pos + 1) newitem)) newitem (2 * pos + 1)
  else (heap, pos)
termination_by heap.length - pos
decreasing_by
  · simp only [List.length_set]
    omega
  · simp only [List.length_set]
    omega

/-- CPython `heapq._siftup(heap, pos)`: move the item at `pos` down to a
leaf, then sift it back toward the root. -/
def siftup {α : Type} (lt : α → α → Bool) (heap : List α) (pos : Nat) : List α :=
  match heap.get? pos with
  | none => heap
  | some newitem =>
    match siftupLoop lt heap newitem pos with
    | (heap1, finalpos) => siftdown lt (heap1.set finalpos newitem) pos finalpos

/-- CPython `heapq.heappush`: append then sift toward the root. -/
def heappush {α : Type} (lt : α → α → Bool) (heap : List α) (item : α) : List α :=
  siftdown lt (heap ++ [item]) 0 heap.length

/-- CPython `heapq.heappop`: pop the last element; if the heap is still
non-empty, move the last element to the root and sift it down. `none`
models the `IndexError` on an empty heap. -/
def heappop {α : Type} (lt : α → α → Bool) (heap : List α) : Option (α × List α) :=
  match heap.getLast? with
  | none => none
  | some lastelt =>
    let rest := heap.dropLast
    match rest.get? 0 with
    | none => some (lastelt, rest)
    | some returnitem => some (returnitem, siftup lt (rest.set 0 lastelt) 0)

/-- CPython `heapq.heapify`: sift up every index below `n / 2`, in
decreasing order. -/
def heapify {α : Type} (lt : α → α → Bool) (heap : List α) : List α :=
  (List.range (heap.length / 2)).reverse.foldl (fun h i => siftup lt h i) heap

/-- The node class `HuffmanNode(char, freq, left, right)`. -/
inductive HuffmanNode : Type where
  | mk : Option Char → Nat → Option HuffmanNode → Option HuffmanNode → HuffmanNode

/-- Field `char`. -/
def HuffmanNode.char : HuffmanNode → Option Char
  | .mk c _ _ _ => c

/-- Field `freq`. -/
def HuffmanNode.freq : HuffmanNode → Nat
  | .mk _ f _ _ => f

/-- Field `left`. -/
def HuffmanNode.left : HuffmanNode → Option HuffmanNode
  | .mk _ _ l _ => l

/-- Field `right`. -/
def HuffmanNode.right : HuffmanNode → Option HuffmanNode
  | .mk _ _ _ r => r

/-- `HuffmanNode.__lt__`: comparison by frequency only. -/
def hnodeLt (a b : HuffmanNode) : Bool := a.freq < b.freq

theorem siftdownLoop_length {α : Type} (lt : α → α → Bool) :
    ∀ (pos : Nat) (heap : List α) (startpos : Nat) (newitem : α),
      (siftdownLoop lt heap startpos newitem pos).length = heap.length := by
  intro pos
  induction pos using Nat.strong_induction_on with
  | _ pos ih =>
    intro heap startpos newitem
    rw [siftdownLoop]
    split
    · split
      · rw [ih ((pos - 1) / 2) (by omega)]
        simp
      · simp
    · simp

theorem siftdown_length {α : Type} (lt : α → α → Bool) (heap : List α)
    (startpos pos : Nat) : (siftdown lt heap startpos pos).length = heap.length := by
  rw [siftdown]
  cases heap.get? pos with
  | none => rfl
  | some newitem => exact siftdownLoop_length lt pos heap startpos newitem

theorem siftupLoop_spec {α : Type} (lt : α → α → Bool) :
    ∀ (n : Nat) (heap : List α) (newitem : α) (pos : Nat),
      heap.length - pos = n → pos < heap.length →
      (siftupLoop lt heap newitem pos).1.length = heap.length ∧
        (siftupLoop lt heap newitem pos).2 < heap.length := by
  intro n
  induction n using Nat.strong_induction_on with
  | _ n ih =>
    intro heap newitem pos hn hpos
    rw [siftupLoop]
    split
    · rename_i h1
      split
      · rename_i h2
        have := ih ((heap.set pos (heap.getD (2 * pos + 2) newitem)).length - (2 * pos + 2))
          (by simp; omega)
          (heap.set pos (heap.getD (2 * pos + 2) newitem)) newitem (2 * pos + 2)
          rfl (by simp; omega)
        simpa using this
      · have := ih ((heap.set pos (heap.getD (2 * pos + 1) newitem)).length - (2 * pos + 1))
          (by simp; omega)
          (heap.set pos (heap.getD (2 * pos + 1) newitem)) newitem (2 * pos + 1)
          rfl (by simp; omega)
        simpa using this
    · exact ⟨rfl, hpos⟩

theorem siftup_length {α : Type} (lt : α → α → Bool) (heap : List α) (pos : Nat) :
    (siftup lt heap pos).length = heap.length := by
  rw [siftup]
  cases hg : heap.get? pos with
  | none => rfl
  | some newitem =>
    have hpos : pos < heap.length := by
      by_contra hc
      rw [List.get?_eq_none.2 (by omega)] at hg
      exact Option.noConfusion hg
    have hs := siftupLoop_spec lt (heap.length - pos) heap newitem pos rfl hpos
    simp only []
    rw [siftdown_length]
    simp [hs.1]

theorem heappush_length {α : Type} (lt : α → α → Bool) (heap : List α) (item : α) :
    (heappush lt heap item).length = heap.length + 1 := by
  rw [heappush, siftdown_length]
  simp

theorem heappop_length {α : Type} (lt : α → α → Bool) (heap : List α)
    (x : α) (rest : List α) (h : heappop lt heap = some (x, rest)) :
    rest.length + 1 = heap.length := by
  rw [heappop] at h
  cases hl : heap.getLast? with
  | none => rw [hl] at h; exact Option.noConfusion h
  | some lastelt =>
    rw [hl] at h
    have hne : heap ≠ [] := by
      intro hc; rw [hc] at hl; exact Option.noConfusion hl
    have hlen : heap.dropLast.length + 1 = heap.length := by
      rw [List.length_dropLast]
      have := List.length_pos.2 hne
      omega
    simp only [] at h
    cases hg : heap.dropLast.get? 0 with
    | none =>
      rw [hg] at h
      injection h with h'
      injection h' with h1 h2
      rw [← h2]
      exact hlen
    | some returnitem =>
      rw [hg] at h
      injection h with h'
      injection h' with h1 h2
      rw [← h2, siftup_length]
      simpa using hlen

theorem heapify_length {α : Type} (lt : α → α → Bool) (heap : List α) :
    (heapify lt heap).length = heap.length := by
  rw [heapify]
  generalize (List.range (heap.length / 2)).reverse = idxs
  induction idxs generalizing heap with
  | nil => rfl
  | cons i rest ih =>
    simp only [List.foldl_cons]
    rw [ih (siftup lt heap i), siftup_length]

/-- The `while len(nodes) > 1` merge loop of `_build_huffman_tree`. -/
def buildLoop (nodes : List HuffmanNode) : List HuffmanNode :=
  if h : 1 < nodes.length then
    match hp : heappop hnodeLt nodes with
    | none => nodes
    | some (left, rest) =>
      match hp2 : heappop hnodeLt rest with
      | none => rest
      | some (right, rest2) =>
        buildLoop (heappush hnodeLt rest2
          (HuffmanNode.mk none (left.freq + right.freq) (some left) (some right)))
  else nodes
termination_by nodes.length
decreasing_by
  have e1 := heappop_length hnodeLt nodes left rest hp
  have e2 := heappop_length hnodeLt rest right rest2 hp2
  rw [heappush_length]
  omega

/-- `HuffmanCoder._build_huffman_tree`: leaves from the frequency table,
`heapify`, greedy merge, and `nodes[0] if nodes else HuffmanNode()`. -/
def build_huffman_tree (frequency : List (Char × Nat)) : HuffmanNode :=
  let nodes := frequency.map (fun cf => HuffmanNode.mk (some cf.1) cf.2 none none)
  (buildLoop (heapify hnodeLt nodes)).headD (HuffmanNode.mk none 0 none none)

/-- Node size, the termination measure for the explicit-stack traversal. -/
def HuffmanNode.size : HuffmanNode → Nat
  | .mk _ _ none none => 1
  | .mk _ _ none (some r) => 1 + r.size
  | .mk _ _ (some l) none => 1 + l.size
  | .mk _ _ (some l) (some r) => 1 + l.size + r.size

theorem HuffmanNode.size_pos : ∀ t : HuffmanNode, 0 < t.size := by
  intro t
  match t with
  | .mk c f none none => simp [size]
  | .mk c f none (some r) => simp [size]
  | .mk c f (some l) none => simp [size]
  | .mk c f (some l) (some r) => simp [size]

/-- Total size of the nodes on the traversal stack. -/
def stackWeight (stack : List (HuffmanNode × List Char)) : Nat :=
  (stack.map (fun p => p.1.size)).sum

/-- The explicit-stack loop of `HuffmanCoder._build_codebook`: pop a node;
record leaf codes; push the right child with bit `'1'` then the left child
with bit `'0'` (so the left is processed first). -/
def build_codebook_loop : List (HuffmanNode × List Char) → List (Char × List Char) →
    List (Char × List Char)
  | [], cb => cb
  | (HuffmanNode.mk (some c) _ _ _, code) :: stack, cb =>
    build_codebook_loop stack (dictSet cb c code)
  | (HuffmanNode.mk none _ none none, _) :: stack, cb =>
    build_codebook_loop stack cb
  | (HuffmanNode.mk none _ none (some rn), code) :: stack, cb =>
    build_codebook_loop ((rn, code ++ ['1']) :: stack) cb
  | (HuffmanNode.mk none _ (some ln) none, code) :: stack, cb =>
    build_codebook_loop ((ln, code ++ ['0']) :: stack) cb
  | (HuffmanNode.mk none _ (some ln) (some rn), code) :: stack, cb =>
    build_codebook_loop ((ln, code ++ ['0']) :: (rn, code ++ ['1']) :: stack) cb
termination_by stack _ => stackWeight stack
decreasing_by
  all_goals simp only [stackWeight, List.map_cons, List.sum_cons, HuffmanNode.size]
  all_goals try omega
  all_goals exact Nat.lt_add_of_pos_left (HuffmanNode.size_pos _)

/-- `HuffmanCoder._build_codebook`, as a function of the tree and the
codebook it starts from (`encode` resets the codebook to `{}` first). -/
def build_codebook (tree : Option HuffmanNode) (cb : List (Char × List Char)) :
    List (Char × List Char) :=
  match tree with
  | none => cb
  | some t => build_codebook_loop [(t, [])] cb

/-- `HuffmanCoder._build_frequency_table`: a `defaultdict(int)` tally pass. -/
def build_frequency_table (data : List Char) : List (Char × Nat) :=
  data.foldl (fun freq c => dictSet freq c ((dictGet freq c).getD 0 + 1)) []

/-- The mutable state of a `HuffmanCoder` instance. -/
structure HuffmanCoder where
  _codebook : List (Char × List Char)
  _tree : Option HuffmanNode

/-- `HuffmanCoder.__init__`: empty codebook, no tree. -/
def initCoder : HuffmanCoder := ⟨[], none⟩

/-- `HuffmanCoder.encode`: returns the bit string and the frequency table,
together with the updated instance state; `none` models the `KeyError`
path of the codebook lookup (which in fact cannot occur). -/
def HuffmanCoder.encode (self : HuffmanCoder) (data : List Char) :
    Option ((List Char × List (Char × Nat)) × HuffmanCoder) :=
  if data.isEmpty then some (([], []), self)
  else
    let frequency := build_frequency_table data
    let tree := build_huffman_tree frequency
    let cb := build_codebook (some tree) []
    match data.mapM (fun c => dictGet cb c) with
    | none => none
    | some codes => some ((codes.join, frequency), ⟨cb, some tree⟩)

/-- The bit-consuming walk of `HuffmanCoder.decode`; `none` models the
`AttributeError` raised when a step lands on a missing child. -/
def decodeLoop (root : HuffmanNode) : HuffmanNode → List Char → List Char →
    Option (List Char)
  | _, [], acc => some acc
  | current, bit :: rest, acc =>
    match (if bit = '0' then current.left else current.right) with
    | none => none
    | some nxt =>
      match nxt.char with
      | some c => decodeLoop root root rest (acc ++ [c])
      | none => decodeLoop root nxt rest acc

/-- `HuffmanCoder.decode`: empty input or an unset tree give `""`. -/
def HuffmanCoder.decode (self : HuffmanCoder) (encoded_data : List Char) :
    Option (List Char) :=
  if encoded_data.isEmpty then some []
  else
    match self._tree with
    | none => some []
    | some root => decodeLoop root root encoded_data []

/-- The in-memory composition used by `compress_file`/`decompress_file`:
encode on a fresh coder, rebuild the tree from the returned frequency
table on a fresh coder, decode. -/
def encodeDecode (data : List Char) : Option (List Char) :=
  match HuffmanCoder.encode initCoder data with
  | none => none
  | some ((bits, frequency), _) =>
    HuffmanCoder.decode ⟨[], some (build_huffman_tree frequency)⟩ bits

theorem siftdownLoop_stop {α : Type} (lt : α → α → Bool) (heap : List α)
    (startpos : Nat) (newitem : α) (pos : Nat) (h : ¬ startpos < pos) :
    siftdownLoop lt heap startpos newitem pos = heap.set pos newitem := by
  rw [siftdownLoop]
  simp [h]

theorem siftdownLoop_noswap {α : Type} (lt : α → α → Bool) (heap : List α)
    (startpos : Nat) (newitem : α) (pos : Nat) (h : startpos < pos)
    (h2 : lt newitem (heap.getD ((pos - 1) / 2) newitem) = false) :
    siftdownLoop lt heap startpos newitem pos = heap.set pos newitem := by
  rw [siftdownLoop, dif_pos h, if_neg (by simpa using h2)]

theorem siftdownLoop_swap {α : Type} (lt : α → α → Bool) (heap : List α)
    (startpos : Nat) (newitem : α) (pos : Nat) (h : startpos < pos)
    (h2 : lt newitem (heap.getD ((pos - 1) / 2) newitem) = true) :
    siftdownLoop lt heap startpos newitem pos =
      siftdownLoop lt (heap.set pos (heap.getD ((pos - 1) / 2) newitem))
        startpos newitem ((pos - 1) / 2) := by
  rw [siftdownLoop, dif_pos h, if_pos h2]

theorem siftupLoop_stop {α : Type} (lt : α → α → Bool) (heap : List α)
    (newitem : α) (pos : Nat) (h : ¬ 2 * pos + 1 < heap.length) :
    siftupLoop lt heap newitem pos = (heap, pos) := by
  rw [siftupLoop, dif_neg h]

theorem siftupLoop_right {α : Type} (lt : α → α → Bool) (heap : List α)
    (newitem : α) (pos : Nat) (h : 2 * pos + 1 < heap.length)
    (h2 : 2 * pos + 2 < heap.length ∧
      lt (heap.getD (2 * pos + 1) newitem) (heap.getD (2 * pos + 2) newitem) = false) :
    siftupLoop lt heap newitem pos =
      siftupLoop lt (heap.set pos (heap.getD (2 * pos + 2) newitem)) newitem (2 * pos + 2) := by
  rw [siftupLoop, dif_pos h, dif_pos h2]

theorem siftupLoop_left {α : Type} (lt : α → α → Bool) (heap : List α)
    (newitem : α) (pos : Nat) (h : 2 * pos + 1 < heap.length)
    (h2 : ¬ (2 * pos + 2 < heap.length ∧
      lt (heap.getD (2 * pos + 1) newitem) (heap.getD (2 * pos + 2) newitem) = false)) :
    siftupLoop lt heap newitem pos =
      siftupLoop lt (heap.set pos (heap.getD (2 * pos + 1) newitem)) newitem (2 * pos + 1) := by
  rw [siftupLoop, dif_pos h, dif_neg h2]

theorem buildLoop_stop (nodes : List HuffmanNode) (h : ¬ 1 < nodes.length) :
    buildLoop nodes = nodes := by
  rw [buildLoop, dif_neg h]

theorem buildLoop_unfold (nodes : List HuffmanNode) (h : 1 < nodes.length) :
    buildLoop nodes = match heappop hnodeLt nodes with
      | none => nodes
      | some (l, rest) =>
        match heappop hnodeLt rest with
        | none => rest
        | some (r, rest2) => buildLoop (heappush hnodeLt rest2
            (HuffmanNode.mk none (l.freq + r.freq) (some l) (some r))) := by
  rw [buildLoop, dif_pos h]
  split
  · rename_i heq
    simp only [heq]
  · rename_i l rest heq
    simp only [heq]
    split
    · rename_i heq2
      simp only [heq2]
    · rename_i r rest2 heq2
      simp only [heq2]

theorem buildLoop_step (nodes : List HuffmanNode) (h : 1 < nodes.length)
    (l r : HuffmanNode) (rest rest2 : List HuffmanNode)
    (hp : heappop hnodeLt nodes = some (l, rest))
    (hp2 : heappop hnodeLt rest = some (r, rest2)) :
    buildLoop nodes = buildLoop (heappush hnodeLt rest2
      (HuffmanNode.mk none (l.freq + r.freq) (some l) (some r))) := by
  rw [buildLoop, dif_pos h]
  split
  · rename_i heq
    rw [hp] at heq
    exact Option.noConfusion heq
  · rename_i left rest1 heq
    rw [hp] at heq
    injection heq with heq'
    injection heq' with e1 e2
    subst e1
    subst e2
    split
    · rename_i heq2
      rw [hp2] at heq2
      exact Option.noConfusion heq2
    · rename_i right rest3 heq2
      rw [hp2] at heq2
      injection heq2 with heq2'
      injection heq2' with f1 f2
      subst f1
      subst f2
      rfl

end Huffman

namespace Huffman

/-- Evaluation of `encode` on the single-symbol input `"zzzz"`: the tree is
a bare leaf and the codebook maps `'z'` to the empty bit string, so the
produced bit stream is empty. -/
theorem encode_zzzz : HuffmanCoder.encode initCoder ("zzzz".toList) =
    some ((([] : List Char), [('z', 4)]),
      ⟨[('z', [])], some (HuffmanNode.mk (some 'z') 4 none none)⟩) := by
  simp [HuffmanCoder.encode, initCoder, build_frequency_table, dictSet, dictGet,
    build_huffman_tree, heapify, siftup, siftdown, heappop, heappush,
    siftupLoop_stop, siftupLoop_left, siftupLoop_right,
    siftdownLoop_stop, siftdownLoop_swap, siftdownLoop_noswap,
    buildLoop_unfold, buildLoop_stop, build_codebook, build_codebook_loop,
    hnodeLt, HuffmanNode.freq, HuffmanNode.char, HuffmanNode.left, HuffmanNode.right,
    List.mapM, List.mapM.loop, List.range_succ, List.range_zero]

/-- The full encode/rebuild/decode pipeline on `"zzzz"` returns `""`. -/
theorem encodeDecode_zzzz : encodeDecode ("zzzz".toList) = some [] := by
  unfold encodeDecode
  rw [encode_zzzz]
  rfl

end Huffman

namespace Huffman

/-- C1: the claim that `decode(encode(T)) == T` for every finite text,
including one-repeated-character texts, fails on the code: for
`T = "zzzz"` the pipeline returns `""`, not `"zzzz"`. The single-leaf tree
gets the empty codeword, so the encoded stream is empty and decoding
yields the empty string. -/
theorem c1_roundtrip_fails_on_repeated_char :
    encodeDecode ("zzzz".toList) = some [] ∧
      encodeDecode ("zzzz".toList) ≠ some ("zzzz".toList) := by
  refine ⟨encodeDecode_zzzz, ?_⟩
  rw [encodeDecode_zzzz]
  decide

/-- C2: on the single-symbol input `"zzzz"` the codebook has exactly one
entry, but its codeword is the empty bit string, not a non-empty one-bit
string, and the pipeline returns `""` instead of `"zzzz"`. -/
theorem c2_single_symbol_codeword_is_empty :
    (HuffmanCoder.encode initCoder ("zzzz".toList)).map (fun r => r.2._codebook) =
        some [('z', ([] : List Char))] ∧
      encodeDecode ("zzzz".toList) = some [] := by
  refine ⟨?_, encodeDecode_zzzz⟩
  rw [encode_zzzz]
  rfl

/-- C6: encoding is deterministic: the `(EncodedStream, FrequencyTable)`
pair returned by `encode` does not depend on the coder instance's prior
state, so any two runs on the same text agree. -/
theorem c6_encode_deterministic (s1 s2 : HuffmanCoder) (data : List Char) :
    (HuffmanCoder.encode s1 data).map Prod.fst =
      (HuffmanCoder.encode s2 data).map Prod.fst := by
  rw [HuffmanCoder.encode, HuffmanCoder.encode]
  by_cases h : data.isEmpty
  · rw [if_pos h, if_pos h]
    rfl
  · rw [if_neg h, if_neg h]

/-- C10: `decode` on a coder whose tree was never assigned returns the
empty string, and `decode` of the empty bit string returns the empty
string on any coder; neither raises. -/
theorem c10_decode_untrained_or_empty (cb : List (Char × List Char))
    (bits : List Char) (s : HuffmanCoder) :
    HuffmanCoder.decode ⟨cb, none⟩ bits = some [] ∧
      HuffmanCoder.decode s [] = some [] := by
  constructor
  · rw [HuffmanCoder.decode]
    by_cases h : bits.isEmpty
    · rw [if_pos h]
    · rw [if_neg h]
  · rfl

end Huffman

namespace Huffman

/-- Python `format(n, 'b')` without the zero case: big-endian binary
digits, empty for 0. -/
def natToBinCore : Nat → List Char
  | 0 => []
  | n + 1 => natToBinCore ((n + 1) / 2) ++ [if (n + 1) % 2 = 1 then '1' else '0']
termination_by n => n
decreasing_by
  omega

/-- Python `format(n, 'b')`: minimal binary digits, `"0"` for 0. -/
def natToBin (n : Nat) : List Char :=
  if n = 0 then ['0'] else natToBinCore n

/-- Python `format(byte, '08b')`: binary digits left-padded with `'0'` to
at least width 8. -/
def byteToBits8 (b : Nat) : List Char :=
  List.replicate (8 - (natToBin b).length) '0' ++ natToBin b

/-- Python `int(s, 2)` restricted to the shapes that occur here: `none`
models the `ValueError` on an empty string or a non-binary digit. -/
def bitsToNat (bits : List Char) : Option Nat :=
  if bits.isEmpty then none
  else bits.foldlM
    (fun acc c => if c = '0' then some (2 * acc)
      else if c = '1' then some (2 * acc + 1) else none) 0

/-- `bytes(int(padded[i:i+8], 2) for i in range(0, len(padded), 8))`. -/
def bitsToBytes (bits : List Char) : Option (List Nat) :=
  if bits.isEmpty then some []
  else
    match bitsToNat (bits.take 8) with
    | none => none
    | some b =>
      match bitsToBytes (bits.drop 8) with
      | none => none
      | some rest => some (b :: rest)
termination_by bits.length
decreasing_by
  rename_i hne
  simp [List.isEmpty_iff] at hne
  have : 0 < bits.length := List.length_pos.2 hne
  simp
  omega

/-- `struct.pack('B', n)`: one byte; `none` models `struct.error`. -/
def packU8 (n : Nat) : Option (List Nat) :=
  if n < 256 then some [n] else none

/-- `struct.pack('>H', n)`: two big-endian bytes; `none` models
`struct.error` for values above 0xFFFF. -/
def packU16 (n : Nat) : Option (List Nat) :=
  if n < 65536 then some [n / 256, n % 256] else none

/-- `struct.pack('>I', n)`: four big-endian bytes; `none` models
`struct.error`. -/
def packU32 (n : Nat) : Option (List Nat) :=
  if n < 4294967296 then some [n / 16777216 % 256, n / 65536 % 256, n / 256 % 256, n % 256]
  else none

/-- The padding count computed by `save_compressed`:
`8 - len(encoded_data) % 8 if len(encoded_data) % 8 != 0 else 0`. -/
def savePadding (n : Nat) : Nat :=
  if n % 8 ≠ 0 then 8 - n % 8 else 0

/-- `save_compressed`, returning the byte content written to the output
file: 4-byte symbol count, 1-byte padding, `(2-byte symbol, 4-byte
frequency)` pairs in table order, then the packed payload. -/
def save_compressed (encoded_data : List Char) (frequency : List (Char × Nat)) :
    Option (List Nat) :=
  let padding := savePadding encoded_data.length
  let padded_data := encoded_data ++ List.replicate padding '0'
  match bitsToBytes padded_data with
  | none => none
  | some bytes_data =>
    match packU32 frequency.length with
    | none => none
    | some countBytes =>
      match packU8 padding with
      | none => none
      | some padBytes =>
        match frequency.mapM (fun cf =>
            match packU16 cf.1.toNat, packU32 cf.2 with
            | some symBytes, some freqBytes => some (symBytes ++ freqBytes)
            | _, _ => none) with
        | none => none
        | some pairBytes => some (countBytes ++ padBytes ++ pairBytes.join ++ bytes_data)

/-- `struct.unpack('B', file.read(1))`: `none` models the `struct.error`
on a short read. -/
def unpackU8 : List Nat → Option (Nat × List Nat)
  | b :: rest => some (b, rest)
  | _ => none

/-- `struct.unpack('>H', file.read(2))`. -/
def unpackU16 : List Nat → Option (Nat × List Nat)
  | b0 :: b1 :: rest => some (b0 * 256 + b1, rest)
  | _ => none

/-- `struct.unpack('>I', file.read(4))`. -/
def unpackU32 : List Nat → Option (Nat × List Nat)
  | b0 :: b1 :: b2 :: b3 :: rest => some (((b0 * 256 + b1) * 256 + b2) * 256 + b3, rest)
  | _ => none

/-- The `for _ in range(num_symbols)` loop of `load_compressed`: read a
2-byte code point (`chr`) and a 4-byte count, assign into the dict. -/
def readFreqPairs : Nat → List Nat → List (Char × Nat) →
    Option (List (Char × Nat) × List Nat)
  | 0, data, acc => some (acc, data)
  | n + 1, data, acc =>
    match unpackU16 data with
    | none => none
    | some (cn, r1) =>
      match unpackU32 r1 with
      | none => none
      | some (f, r2) => readFreqPairs n r2 (dictSet acc (Char.ofNat cn) f)

/-- `load_compressed`, on the byte content of the input file. -/
def load_compressed (data : List Nat) : Option (List Char × List (Char × Nat)) :=
  match unpackU32 data with
  | none => none
  | some (num_symbols, r1) =>
    match unpackU8 r1 with
    | none => none
    | some (padding, r2) =>
      match readFreqPairs num_symbols r2 [] with
      | none => none
      | some (frequency, bytes_data) =>
        let bit_string := (bytes_data.map byteToBits8).join
        let stripped := if padding > 0 then bit_string.take (bit_string.length - padding)
          else bit_string
        some (stripped, frequency)

end Huffman

namespace Huffman

theorem mapM_eq_none_of_mem {α β : Type} (f : α → Option β) :
    ∀ (l : List α) (x : α), x ∈ l → f x = none → l.mapM f = none := by
  intro l
  induction l with
  | nil => intro x hx; exact absurd hx (List.not_mem_nil x)
  | cons a t ih =>
    intro x hx hf
    rw [List.mapM_cons]
    rcases List.mem_cons.1 hx with h | h
    · subst h
      rw [hf]
      rfl
    · cases ha : f a with
      | none => rfl
      | some b =>
        rw [ih x h hf]
        rfl

/-- C7: if any symbol in the frequency table has a code point above
0xFFFF, `save_compressed` fails (the `struct.pack('>H', ...)` raises)
rather than truncating or wrapping. -/
theorem c7_symbol_out_of_range_fails (e : List Char) (freq : List (Char × Nat))
    (c : Char) (f : Nat) (hmem : (c, f) ∈ freq) (hc : 65535 < c.toNat) :
    save_compressed e freq = none := by
  rw [save_compressed]
  cases h1 : bitsToBytes (e ++ List.replicate (savePadding e.length) '0') with
  | none => rfl
  | some bytes_data =>
    cases h2 : packU32 freq.length with
    | none => rfl
    | some countBytes =>
      cases h3 : packU8 (savePadding e.length) with
      | none => rfl
      | some padBytes =>
        have hnone : freq.mapM (fun cf =>
            match packU16 cf.1.toNat, packU32 cf.2 with
            | some symBytes, some freqBytes => some (symBytes ++ freqBytes)
            | _, _ => none) = none := by
          apply mapM_eq_none_of_mem _ freq (c, f) hmem
          have : packU16 c.toNat = none := by
            rw [packU16, if_neg (by omega)]
          rw [this]
        rw [hnone]

/-- C7 witness: the symbol U+1D11E does not fit in 16 bits and makes
serialization fail on a concrete table. -/
theorem c7_symbol_out_of_range_fails_witness :
    save_compressed [] [('𝄞', 1)] = none :=
  c7_symbol_out_of_range_fails [] [('𝄞', 1)] '𝄞' 1 (by simp) (by decide)

end Huffman

namespace Huffman

/-- Binary digits of `v` left-padded with zeros to width `w`, with no
special case at 0 (used to relate `format(b, '08b')` to bit values). -/
def binPad (w v : Nat) : List Char :=
  List.replicate (w - (natToBinCore v).length) '0' ++ natToBinCore v

/-- The numeric value of a binary digit string, most significant first. -/
def bitsVal (bits : List Char) : Nat :=
  bits.foldl (fun acc c => 2 * acc + (if c = '1' then 1 else 0)) 0

theorem natToBinCore_zero : natToBinCore 0 = [] := by
  rw [natToBinCore]

theorem natToBinCore_succ (v : Nat) (hv : v ≠ 0) :
    natToBinCore v = natToBinCore (v / 2) ++ [if v % 2 = 1 then '1' else '0'] := by
  cases v with
  | zero => exact absurd rfl hv
  | succ n => rw [natToBinCore]

theorem byteToBits8_eq_binPad (b : Nat) : byteToBits8 b = binPad 8 b := by
  rw [byteToBits8, binPad, natToBin]
  by_cases hb : b = 0
  · subst hb
    rw [if_pos rfl, natToBinCore_zero]
    simp [List.replicate_succ']
  · rw [if_neg hb]

theorem binPad_succ (w v : Nat) :
    binPad (w + 1) v = binPad w (v / 2) ++ [if v % 2 = 1 then '1' else '0'] := by
  by_cases hv : v = 0
  · subst hv
    rw [binPad, binPad, natToBinCore_zero]
    simp [List.replicate_succ']
  · rw [binPad, binPad, natToBinCore_succ v hv]
    rw [List.length_append, List.length_singleton]
    rw [show w + 1 - ((natToBinCore (v / 2)).length + 1) = w - (natToBinCore (v / 2)).length
      from by omega]
    rw [← List.append_assoc]

theorem bitsVal_append (bits : List Char) (b : Char) :
    bitsVal (bits ++ [b]) = 2 * bitsVal bits + (if b = '1' then 1 else 0) := by
  rw [bitsVal, List.foldl_append]
  rfl

theorem binPad_bitsVal : ∀ (bits : List Char), (∀ c ∈ bits, c = '0' ∨ c = '1') →
    binPad bits.length (bitsVal bits) = bits := by
  intro bits
  induction bits using List.reverseRecOn with
  | nil =>
    intro _
    simp [binPad, bitsVal, natToBinCore_zero]
  | append_singleton t b ih =>
    intro hbin
    have hb : b = '0' ∨ b = '1' := hbin b (by simp)
    have ht : ∀ c ∈ t, c = '0' ∨ c = '1' := fun c hc => hbin c (by simp [hc])
    rw [List.length_append, List.length_singleton, binPad_succ, bitsVal_append]
    have hdiv : (2 * bitsVal t + (if b = '1' then 1 else 0)) / 2 = bitsVal t := by
      rcases hb with hb | hb <;> simp [hb] <;> omega
    have hmod : [if (2 * bitsVal t + (if b = '1' then 1 else 0)) % 2 = 1 then '1' else '0'] = [b] := by
      rcases hb with hb | hb <;> simp [hb] <;> omega
    rw [hdiv, hmod, ih ht]

theorem bitsToNat_eq (bits : List Char) (hne : bits ≠ [])
    (hbin : ∀ c ∈ bits, c = '0' ∨ c = '1') :
    bitsToNat bits = some (bitsVal bits) := by
  rw [bitsToNat, if_neg (by simpa [List.isEmpty_iff] using hne), bitsVal]
  suffices h : ∀ (l : List Char) (acc : Nat), (∀ c ∈ l, c = '0' ∨ c = '1') →
      l.foldlM (fun acc c => if c = '0' then some (2 * acc)
        else if c = '1' then some (2 * acc + 1) else none) acc =
      some (l.foldl (fun acc c => 2 * acc + (if c = '1' then 1 else 0)) acc) by
    exact h bits 0 hbin
  intro l
  induction l with
  | nil => intro acc _; rfl
  | cons a t ih =>
    intro acc hl
    have ha : a = '0' ∨ a = '1' := hl a (by simp)
    have ht : ∀ c ∈ t, c = '0' ∨ c = '1' := fun c hc => hl c (by simp [hc])
    rcases ha with ha | ha <;> subst ha <;>
      simp [List.foldlM, ih _ ht]

theorem bitsToBytes_spec : ∀ (n : Nat) (bits : List Char), bits.length ≤ n →
    (∀ c ∈ bits, c = '0' ∨ c = '1') → bits.length % 8 = 0 →
    ∃ bytes, bitsToBytes bits = some bytes ∧ (bytes.map byteToBits8).join = bits := by
  intro n
  induction n with
  | zero =>
    intro bits hlen _ _
    have : bits = [] := List.length_eq_zero.1 (by omega)
    subst this
    refine ⟨[], ?_, rfl⟩
    rw [bitsToBytes]
    rfl
  | succ n ih =>
    intro bits hlen hbin hmod
    by_cases hempty : bits = []
    · subst hempty
      refine ⟨[], ?_, rfl⟩
      rw [bitsToBytes]
      rfl
    · have hpos : 0 < bits.length := List.length_pos.2 hempty
      have hge : 8 ≤ bits.length := by omega
      have htake : (bits.take 8).length = 8 := by
        rw [List.length_take]
        omega
      have htne : bits.take 8 ≠ [] := by
        intro hc
        rw [hc] at htake
        simp at htake
      have htbin : ∀ c ∈ bits.take 8, c = '0' ∨ c = '1' :=
        fun c hc => hbin c (List.take_subset 8 bits hc)
      have hdbin : ∀ c ∈ bits.drop 8, c = '0' ∨ c = '1' :=
        fun c hc => hbin c (List.drop_subset 8 bits hc)
      have hdlen : (bits.drop 8).length ≤ n := by
        rw [List.length_drop]
        omega
      have hdmod : (bits.drop 8).length % 8 = 0 := by
        rw [List.length_drop]
        omega
      obtain ⟨bytes', hb1, hb2⟩ := ih (bits.drop 8) hdlen hdbin hdmod
      refine ⟨bitsVal (bits.take 8) :: bytes', ?_, ?_⟩
      · rw [bitsToBytes, if_neg (by simpa [List.isEmpty_iff] using hempty),
          bitsToNat_eq _ htne htbin, hb1]
      · rw [List.map_cons]
        simp only [List.join] at hb2 ⊢
        rw [List.flatten_cons, byteToBits8_eq_binPad]
        have : binPad 8 (bitsVal (bits.take 8)) = bits.take 8 := by
          have := binPad_bitsVal (bits.take 8) htbin
          rwa [htake] at this
        rw [this, hb2, List.take_append_drop]

end Huffman

namespace Huffman

theorem unpackU8_cons (b : Nat) (rest : List Nat) :
    unpackU8 (b :: rest) = some (b, rest) := rfl

theorem unpackU16_pack (n : Nat) (h : n < 65536) (rest : List Nat) :
    ∀ bs, packU16 n = some bs → unpackU16 (bs ++ rest) = some (n, rest) := by
  intro bs hbs
  rw [packU16, if_pos h] at hbs
  injection hbs with hbs
  subst hbs
  show unpackU16 (n / 256 :: n % 256 :: rest) = some (n, rest)
  rw [unpackU16]
  have : n / 256 * 256 + n % 256 = n := by omega
  rw [this]

theorem unpackU32_pack (n : Nat) (h : n < 4294967296) (rest : List Nat) :
    ∀ bs, packU32 n = some bs → unpackU32 (bs ++ rest) = some (n, rest) := by
  intro bs hbs
  rw [packU32, if_pos h] at hbs
  injection hbs with hbs
  subst hbs
  show unpackU32 (n / 16777216 % 256 :: n / 65536 % 256 :: n / 256 % 256 :: n % 256 :: rest) =
    some (n, rest)
  rw [unpackU32]
  have : ((n / 16777216 % 256 * 256 + n / 65536 % 256) * 256 + n / 256 % 256) * 256 + n % 256 = n := by
    omega
  rw [this]

theorem savePadding_lt (n : Nat) : savePadding n < 8 := by
  rw [savePadding]
  split <;> omega

theorem savePadding_mod (n : Nat) : (n + savePadding n) % 8 = 0 := by
  rw [savePadding]
  split <;> omega

theorem dictSet_not_mem {β : Type} : ∀ (l : List (Char × β)) (k : Char) (v : β),
    k ∉ l.map Prod.fst → dictSet l k v = l ++ [(k, v)] := by
  intro l
  induction l with
  | nil => intro k v _; rfl
  | cons a t ih =>
    intro k v hk
    rw [List.map_cons, List.mem_cons] at hk
    push_neg at hk
    rw [dictSet, if_neg (fun hc => hk.1 hc.symm), ih k v hk.2]
    rfl

/-- The byte block that `save_compressed` writes for one table entry. -/
def pairBytesOf (cf : Char × Nat) : List Nat :=
  [cf.1.toNat / 256, cf.1.toNat % 256,
    cf.2 / 16777216 % 256, cf.2 / 65536 % 256, cf.2 / 256 % 256, cf.2 % 256]

theorem save_pairs (freq : List (Char × Nat))
    (h : ∀ p ∈ freq, p.1.toNat < 65536 ∧ p.2 < 4294967296) :
    freq.mapM (fun cf => match packU16 cf.1.toNat, packU32 cf.2 with
      | some symBytes, some freqBytes => some (symBytes ++ freqBytes)
      | _, _ => none) = some (freq.map pairBytesOf) := by
  induction freq with
  | nil => rfl
  | cons a t ih =>
    have ha := h a (by simp)
    rw [List.mapM_cons, packU16, if_pos ha.1, packU32, if_pos ha.2,
      ih (fun p hp => h p (by simp [hp]))]
    rfl

theorem readFreqPairs_append : ∀ (freq acc : List (Char × Nat)) (rest : List Nat),
    (∀ p ∈ freq, p.1.toNat < 65536 ∧ p.2 < 4294967296) →
    (acc.map Prod.fst ++ freq.map Prod.fst).Nodup →
    readFreqPairs freq.length ((freq.map pairBytesOf).join ++ rest) acc =
      some (acc ++ freq, rest) := by
  intro freq
  induction freq with
  | nil =>
    intro acc rest _ _
    simp [readFreqPairs]
  | cons a t ih =>
    intro acc rest hrange hnd
    obtain ⟨c, f⟩ := a
    have hc : c.toNat < 65536 := (hrange (c, f) (by simp)).1
    have hf : f < 4294967296 := (hrange (c, f) (by simp)).2
    rw [List.length_cons, List.map_cons]
    simp only [List.join] at *
    rw [List.flatten_cons, List.append_assoc]
    rw [readFreqPairs]
    have h16 : unpackU16 (pairBytesOf (c, f) ++ ((t.map pairBytesOf).flatten ++ rest)) =
        some (c.toNat, [f / 16777216 % 256, f / 65536 % 256, f / 256 % 256, f % 256] ++
          ((t.map pairBytesOf).flatten ++ rest)) := by
      show unpackU16 (c.toNat / 256 :: c.toNat % 256 :: _) = _
      rw [unpackU16]
      have : c.toNat / 256 * 256 + c.toNat % 256 = c.toNat := by omega
      rw [this]
      rfl
    simp only [h16]
    have h32 : unpackU32 ([f / 16777216 % 256, f / 65536 % 256, f / 256 % 256, f % 256] ++
        ((t.map pairBytesOf).flatten ++ rest)) =
        some (f, (t.map pairBytesOf).flatten ++ rest) := by
      show unpackU32 (f / 16777216 % 256 :: f / 65536 % 256 :: f / 256 % 256 :: f % 256 :: _) = _
      rw [unpackU32]
      have : ((f / 16777216 % 256 * 256 + f / 65536 % 256) * 256 + f / 256 % 256) * 256 + f % 256 = f := by
        omega
      rw [this]
      rfl
    simp only [h32]
    
    rw [Char.ofNat_toNat]
    have hnotmem : c ∉ acc.map Prod.fst := by
      rw [List.map_cons, List.nodup_append] at hnd
      intro hc2
      exact hnd.2.2 hc2 (by simp)
    rw [dictSet_not_mem acc c f hnotmem]
    have hnd' : ((acc ++ [(c, f)]).map Prod.fst ++ t.map Prod.fst).Nodup := by
      rw [List.map_append]
      rw [List.append_assoc]
      simpa using hnd
    have := ih (acc ++ [(c, f)]) rest (fun p hp => hrange p (by simp [hp])) hnd'
    simp only [List.join] at this
    rw [this]
    simp

end Huffman

namespace Huffman

theorem freq_length_lt (freq : List (Char × Nat))
    (hnd : (freq.map Prod.fst).Nodup)
    (h16 : ∀ p ∈ freq, p.1.toNat < 65536) : freq.length < 4294967296 := by
  have hinj : Function.Injective Char.toNat := by
    intro a b hab
    rw [← Char.ofNat_toNat a, hab, Char.ofNat_toNat]
  have hnd2 : ((freq.map Prod.fst).map Char.toNat).Nodup := hnd.map hinj
  have hsub : ((freq.map Prod.fst).map Char.toNat).toFinset ⊆ Finset.range 65536 := by
    intro x hx
    rw [List.mem_toFinset] at hx
    rw [Finset.mem_range]
    obtain ⟨c, hc, hcx⟩ := List.mem_map.1 hx
    obtain ⟨p, hp, hpc⟩ := List.mem_map.1 hc
    subst hcx
    subst hpc
    exact h16 p hp
  have hcard := Finset.card_le_card hsub
  rw [List.toFinset_card_of_nodup hnd2, Finset.card_range] at hcard
  simp only [List.length_map] at hcard
  omega

theorem save_load_master (e : List Char) (freq : List (Char × Nat))
    (hbin : ∀ c ∈ e, c = '0' ∨ c = '1')
    (hnd : (freq.map Prod.fst).Nodup)
    (hrange : ∀ p ∈ freq, p.1.toNat < 65536 ∧ p.2 < 4294967296) :
    ∃ header payload,
      save_compressed e freq = some (header ++ payload) ∧
      bitsToBytes (e ++ List.replicate (savePadding e.length) '0') = some payload ∧
      (payload.map byteToBits8).join = e ++ List.replicate (savePadding e.length) '0' ∧
      load_compressed (header ++ payload) = some (e, freq) := by
  have hlen : freq.length < 4294967296 :=
    freq_length_lt freq hnd (fun p hp => (hrange p hp).1)
  have hpadlt : savePadding e.length < 8 := savePadding_lt e.length
  have hpadbin : ∀ c ∈ e ++ List.replicate (savePadding e.length) '0', c = '0' ∨ c = '1' := by
    intro c hc
    rcases List.mem_append.1 hc with h | h
    · exact hbin c h
    · exact Or.inl (List.eq_of_mem_replicate h)
  have hpadmod : (e ++ List.replicate (savePadding e.length) '0').length % 8 = 0 := by
    rw [List.length_append, List.length_replicate]
    exact savePadding_mod e.length
  obtain ⟨payload, hpay, hjoin⟩ := bitsToBytes_spec
    (e ++ List.replicate (savePadding e.length) '0').length
    (e ++ List.replicate (savePadding e.length) '0') le_rfl hpadbin hpadmod
  refine ⟨((packU32 freq.length).getD []) ++ [savePadding e.length] ++
    (freq.map pairBytesOf).join, payload, ?_, hpay, hjoin, ?_⟩
  · rw [save_compressed]
    rw [hpay]
    rw [packU32, if_pos hlen]
    rw [packU8, if_pos (by omega)]
    rw [save_pairs freq hrange]
    simp only [packU32, if_pos hlen, Option.getD_some]
  · have hu32 : unpackU32 (((packU32 freq.length).getD []) ++ [savePadding e.length] ++
        (freq.map pairBytesOf).join ++ payload) =
        some (freq.length, [savePadding e.length] ++ ((freq.map pairBytesOf).join ++ payload)) := by
      rw [List.append_assoc, List.append_assoc]
      apply unpackU32_pack freq.length hlen _ _
      rw [packU32, if_pos hlen]
      rfl
    have hread := readFreqPairs_append freq [] payload hrange (by simpa using hnd)
    simp only [List.nil_append] at hread
    rw [load_compressed]
    simp only [← List.append_assoc] at hu32 ⊢
    simp only [hu32]
    simp only [List.singleton_append, List.cons_append, List.nil_append, unpackU8_cons]
    simp only [hread]
    rw [hjoin]
    by_cases hp : savePadding e.length > 0
    · rw [if_pos hp]
      rw [List.length_append, List.length_replicate]
      rw [show e.length + savePadding e.length - savePadding e.length = e.length from by omega]
      rw [List.take_left]
    · rw [if_neg hp]
      have : savePadding e.length = 0 := by omega
      rw [this]
      simp

end Huffman

namespace Huffman

/-- C4: saving an encoded bit string together with a frequency table whose
symbols fit in 16 bits and counts in 32 bits, then loading the written
bytes, returns exactly the original bit string and table. -/
theorem c4_container_roundtrip (e : List Char) (freq : List (Char × Nat))
    (hbin : ∀ c ∈ e, c = '0' ∨ c = '1')
    (hnd : (freq.map Prod.fst).Nodup)
    (hrange : ∀ p ∈ freq, p.1.toNat < 65536 ∧ p.2 < 4294967296) :
    (save_compressed e freq).bind load_compressed = some (e, freq) := by
  obtain ⟨header, payload, hsave, _, _, hload⟩ := save_load_master e freq hbin hnd hrange
  rw [hsave]
  exact hload

/-- C4 witness at a concrete container. -/
theorem c4_container_roundtrip_witness :
    (save_compressed ['1'] [('a', 2)]).bind load_compressed = some (['1'], [('a', 2)]) :=
  c4_container_roundtrip ['1'] [('a', 2)] (by decide) (by decide) (by decide)

/-- C5: the padding count is 0 for bit strings whose length is a multiple
of 8 and `8 - length % 8` otherwise (hence at most 7); exactly that many
zero bits are appended before byte-grouping, and loading strips exactly
that many trailing bits, recovering the original bit string. -/
theorem c5_padding_spec (e : List Char) (freq : List (Char × Nat))
    (hbin : ∀ c ∈ e, c = '0' ∨ c = '1')
    (hnd : (freq.map Prod.fst).Nodup)
    (hrange : ∀ p ∈ freq, p.1.toNat < 65536 ∧ p.2 < 4294967296) :
    (e.length % 8 = 0 → savePadding e.length = 0) ∧
    (e.length % 8 ≠ 0 → savePadding e.length = 8 - e.length % 8) ∧
    savePadding e.length ≤ 7 ∧
    ∃ header payload,
      save_compressed e freq = some (header ++ payload) ∧
      bitsToBytes (e ++ List.replicate (savePadding e.length) '0') = some payload ∧
      (payload.map byteToBits8).join = e ++ List.replicate (savePadding e.length) '0' ∧
      (load_compressed (header ++ payload)).map Prod.fst = some e := by
  refine ⟨?_, ?_, ?_, ?_⟩
  · intro h
    simp [savePadding, h]
  · intro h
    rw [savePadding, if_pos h]
  · have := savePadding_lt e.length
    omega
  · obtain ⟨header, payload, h1, h2, h3, h4⟩ := save_load_master e freq hbin hnd hrange
    refine ⟨header, payload, h1, h2, h3, ?_⟩
    rw [h4]
    rfl

/-- C5 witness at a concrete container whose bit length is not a multiple
of 8. -/
theorem c5_padding_spec_witness :
    (['1', '0', '1'].length % 8 = 0 → savePadding ['1', '0', '1'].length = 0) ∧
    (['1', '0', '1'].length % 8 ≠ 0 →
      savePadding ['1', '0', '1'].length = 8 - ['1', '0', '1'].length % 8) ∧
    savePadding ['1', '0', '1'].length ≤ 7 ∧
    ∃ header payload,
      save_compressed ['1', '0', '1'] [('a', 2), ('b', 1)] = some (header ++ payload) ∧
      bitsToBytes (['1', '0', '1'] ++
        List.replicate (savePadding ['1', '0', '1'].length) '0') = some payload ∧
      (payload.map byteToBits8).join = ['1', '0', '1'] ++
        List.replicate (savePadding ['1', '0', '1'].length) '0' ∧
      (load_compressed (header ++ payload)).map Prod.fst = some ['1', '0', '1'] :=
  c5_padding_spec ['1', '0', '1'] [('a', 2), ('b', 1)] (by decide) (by decide) (by decide)

end Huffman

namespace Huffman

/-- Two bit strings are incomparable when neither is a prefix of the
other (in particular they are distinct). -/
def Incomp (a b : List Char) : Prop := ¬ a <+: b ∧ ¬ b <+: a

theorem incomp_symm : ∀ {a b : List Char}, Incomp a b → Incomp b a :=
  fun h => ⟨h.2, h.1⟩

theorem incomp_append_left (a b x : List Char) (h : Incomp a b) :
    Incomp (a ++ x) b := by
  constructor
  · intro hc
    exact h.1 ((List.prefix_append a x).trans hc)
  · intro hc
    rcases le_or_lt b.length a.length with hl | hl
    · exact h.2 (List.prefix_of_prefix_length_le hc (List.prefix_append a x) hl)
    · exact h.1 (List.prefix_of_prefix_length_le (List.prefix_append a x) hc (by omega))

theorem incomp_siblings (c : List Char) : Incomp (c ++ ['0']) (c ++ ['1']) := by
  constructor
  · intro hc
    have := hc.eq_of_length (by simp)
    simp at this
  · intro hc
    have := hc.eq_of_length (by simp)
    simp at this

theorem dictGet_mem_snd {β : Type} : ∀ (cb : List (Char × β)) (k : Char) (v : β),
    dictGet cb k = some v → v ∈ cb.map Prod.snd := by
  intro cb
  induction cb with
  | nil => intro k v h; exact Option.noConfusion h
  | cons a t ih =>
    intro k v h
    rw [dictGet] at h
    by_cases hk : a.1 = k
    · rw [if_pos hk] at h
      injection h with h
      simp [h]
    · rw [if_neg hk] at h
      simp [ih k v h]

theorem dictGet_pairwise {β : Type} (R : β → β → Prop)
    (hsymm : ∀ a b, R a b → R b a) :
    ∀ (cb : List (Char × β)), (cb.map Prod.snd).Pairwise R →
    ∀ (k1 k2 : Char) (v1 v2 : β), k1 ≠ k2 →
      dictGet cb k1 = some v1 → dictGet cb k2 = some v2 → R v1 v2 := by
  intro cb
  induction cb with
  | nil => intro _ k1 k2 v1 v2 _ h1; exact Option.noConfusion h1
  | cons a t ih =>
    intro hpw k1 k2 v1 v2 hk h1 h2
    rw [List.map_cons, List.pairwise_cons] at hpw
    rw [dictGet] at h1 h2
    by_cases ha1 : a.1 = k1
    · rw [if_pos ha1] at h1
      injection h1 with h1
      have ha2 : ¬ a.1 = k2 := by rw [ha1]; exact hk
      rw [if_neg ha2] at h2
      subst h1
      exact hpw.1 v2 (dictGet_mem_snd t k2 v2 h2)
    · rw [if_neg ha1] at h1
      by_cases ha2 : a.1 = k2
      · rw [if_pos ha2] at h2
        injection h2 with h2
        subst h2
        exact hsymm _ _ (hpw.1 v1 (dictGet_mem_snd t k1 v1 h1))
      · rw [if_neg ha2] at h2
        exact ih hpw.2 k1 k2 v1 v2 hk h1 h2

theorem dictSet_snd_perm {β : Type} : ∀ (cb : List (Char × β)) (k : Char) (v : β),
    ∃ mid, ((dictSet cb k v).map Prod.snd).Perm (v :: mid) ∧
      mid.Sublist (cb.map Prod.snd) := by
  intro cb
  induction cb with
  | nil =>
    intro k v
    exact ⟨[], by simp [dictSet], List.nil_sublist []⟩
  | cons a t ih =>
    intro k v
    rw [dictSet]
    by_cases hk : a.1 = k
    · rw [if_pos hk]
      exact ⟨t.map Prod.snd, by simp, by simp [List.Sublist.cons]⟩
    · rw [if_neg hk]
      obtain ⟨mid, hperm, hsub⟩ := ih k v
      refine ⟨a.2 :: mid, ?_, ?_⟩
      · rw [List.map_cons]
        exact (hperm.cons a.2).trans (List.Perm.swap v a.2 mid)
      · rw [List.map_cons]
        exact hsub.cons₂ a.2

end Huffman

namespace Huffman

theorem incomp_symmetric : Symmetric Incomp := fun _ _ h => incomp_symm h

theorem pairwise_cons_ext (code x : List Char) (X : List (List Char))
    (hpw : (code :: X).Pairwise Incomp) : ((code ++ x) :: X).Pairwise Incomp := by
  rw [List.pairwise_cons] at hpw ⊢
  exact ⟨fun y hy => incomp_append_left code y x (hpw.1 y hy), hpw.2⟩

theorem pairwise_cons2_ext (code : List Char) (X : List (List Char))
    (hpw : (code :: X).Pairwise Incomp) :
    ((code ++ ['0']) :: (code ++ ['1']) :: X).Pairwise Incomp := by
  rw [List.pairwise_cons] at hpw
  rw [List.pairwise_cons, List.pairwise_cons]
  refine ⟨?_, ?_, hpw.2⟩
  · intro y hy
    rcases List.mem_cons.1 hy with hy | hy
    · subst hy
      exact incomp_siblings code
    · exact incomp_append_left code y ['0'] (hpw.1 y hy)
  · intro y hy
    exact incomp_append_left code y ['1'] (hpw.1 y hy)

theorem build_codebook_loop_pairwise :
    ∀ (n : Nat) (stack : List (HuffmanNode × List Char)) (cb : List (Char × List Char)),
      stackWeight stack ≤ n →
      (stack.map Prod.snd ++ cb.map Prod.snd).Pairwise Incomp →
      ((build_codebook_loop stack cb).map Prod.snd).Pairwise Incomp := by
  intro n
  induction n with
  | zero =>
    intro stack cb hw hpw
    cases stack with
    | nil => simpa [build_codebook_loop] using hpw
    | cons head rest =>
      exfalso
      have := HuffmanNode.size_pos head.1
      simp [stackWeight] at hw
      omega
  | succ n ih =>
    intro stack cb hw hpw
    cases stack with
    | nil => simpa [build_codebook_loop] using hpw
    | cons head rest =>
      obtain ⟨node, code⟩ := head
      obtain ⟨oc, f, l, r⟩ := node
      simp only [List.map_cons, List.cons_append] at hpw
      cases oc with
      | some c =>
        simp only [build_codebook_loop]
        apply ih rest (dictSet cb c code)
        · have := HuffmanNode.size_pos (HuffmanNode.mk (some c) f l r)
          simp only [stackWeight, List.map_cons, List.sum_cons] at hw ⊢
          omega
        · obtain ⟨mid, hperm, hsub⟩ := dictSet_snd_perm cb c code
          have hchain : (rest.map Prod.snd ++ (dictSet cb c code).map Prod.snd).Perm
              (code :: (rest.map Prod.snd ++ mid)) :=
            (List.Perm.append_left _ hperm).trans (List.perm_middle)
          rw [hchain.pairwise_iff (fun h => incomp_symm h)]
          apply List.Pairwise.sublist _ hpw
          exact ((hsub.append_left _).cons₂ code)
      | none =>
        cases l with
        | none =>
          cases r with
          | none =>
            simp only [build_codebook_loop]
            apply ih rest cb
            · simp only [stackWeight, List.map_cons, List.sum_cons, HuffmanNode.size] at hw ⊢
              omega
            · exact (List.pairwise_cons.1 hpw).2
          | some rn =>
            simp only [build_codebook_loop]
            apply ih ((rn, code ++ ['1']) :: rest) cb
            · simp only [stackWeight, List.map_cons, List.sum_cons, HuffmanNode.size] at hw ⊢
              omega
            · simp only [List.map_cons, List.cons_append]
              exact pairwise_cons_ext code ['1'] _ hpw
        | some ln =>
          cases r with
          | none =>
            simp only [build_codebook_loop]
            apply ih ((ln, code ++ ['0']) :: rest) cb
            · simp only [stackWeight, List.map_cons, List.sum_cons, HuffmanNode.size] at hw ⊢
              omega
            · simp only [List.map_cons, List.cons_append]
              exact pairwise_cons_ext code ['0'] _ hpw
          | some rn =>
            simp only [build_codebook_loop]
            apply ih ((ln, code ++ ['0']) :: (rn, code ++ ['1']) :: rest) cb
            · simp only [stackWeight, List.map_cons, List.sum_cons, HuffmanNode.size] at hw ⊢
              omega
            · simp only [List.map_cons, List.cons_append]
              exact pairwise_cons2_ext code _ hpw

theorem build_codebook_pairwise (t : HuffmanNode) :
    ((build_codebook (some t) []).map Prod.snd).Pairwise Incomp := by
  rw [build_codebook]
  apply build_codebook_loop_pairwise (stackWeight [(t, [])]) [(t, [])] [] le_rfl
  simp

end Huffman

namespace Huffman

theorem encode_codebook_eq (s : HuffmanCoder) (data : List Char) (hne : data ≠ [])
    (out : (List Char × List (Char × Nat)) × HuffmanCoder)
    (henc : HuffmanCoder.encode s data = some out) :
    out.2._codebook =
      build_codebook (some (build_huffman_tree (build_frequency_table data))) [] := by
  rw [HuffmanCoder.encode, if_neg (by simpa [List.isEmpty_iff] using hne)] at henc
  cases hm : data.mapM (fun c => dictGet
      (build_codebook (some (build_huffman_tree (build_frequency_table data))) []) c) with
  | none =>
    simp only [hm] at henc
    exact Option.noConfusion henc
  | some codes =>
    simp only [hm] at henc
    injection henc with henc
    rw [← henc]

/-- C3: for every non-empty input text, the codebook produced by `encode`
is prefix-free: the codewords of two distinct symbols are never prefixes
of one another. -/
theorem c3_codebook_prefix_free (s : HuffmanCoder) (data : List Char)
    (hne : data ≠ []) (out : (List Char × List (Char × Nat)) × HuffmanCoder)
    (henc : HuffmanCoder.encode s data = some out)
    (c1 c2 : Char) (v1 v2 : List Char) (hcc : c1 ≠ c2)
    (h1 : dictGet out.2._codebook c1 = some v1)
    (h2 : dictGet out.2._codebook c2 = some v2) :
    ¬ v1 <+: v2 ∧ ¬ v2 <+: v1 := by
  rw [encode_codebook_eq s data hne out henc] at h1 h2
  exact dictGet_pairwise Incomp (fun a b h => incomp_symm h) _
    (build_codebook_pairwise (build_huffman_tree (build_frequency_table data)))
    c1 c2 v1 v2 hcc h1 h2

set_option maxRecDepth 8000 in
/-- Evaluation of `encode` on `"ab"`. -/
theorem encode_ab : HuffmanCoder.encode initCoder ("ab".toList) =
    some ((['1', '0'], [('a', 1), ('b', 1)]),
      ⟨[('b', ['0']), ('a', ['1'])],
        some (HuffmanNode.mk none 2 (some (HuffmanNode.mk (some 'b') 1 none none))
          (some (HuffmanNode.mk (some 'a') 1 none none)))⟩) := by
  simp [HuffmanCoder.encode, initCoder, build_frequency_table, dictSet, dictGet,
    build_huffman_tree, heapify, siftup, siftdown, heappop, heappush,
    siftupLoop_stop, siftupLoop_left, siftupLoop_right,
    siftdownLoop_stop, siftdownLoop_swap, siftdownLoop_noswap,
    buildLoop_unfold, buildLoop_stop, build_codebook, build_codebook_loop,
    hnodeLt, HuffmanNode.freq, HuffmanNode.char, HuffmanNode.left, HuffmanNode.right,
    List.mapM, List.mapM.loop, List.range_succ, List.range_zero]

/-- C3 witness: on the concrete text `"ab"`, the codewords of `'a'` and
`'b'` are mutually prefix-incomparable. -/
theorem c3_codebook_prefix_free_witness :
    ¬ ['1'] <+: ['0'] ∧ ¬ ['0'] <+: ['1'] :=
  c3_codebook_prefix_free initCoder ("ab".toList) (by decide)
    ((['1', '0'], [('a', 1), ('b', 1)]),
      ⟨[('b', ['0']), ('a', ['1'])],
        some (HuffmanNode.mk none 2 (some (HuffmanNode.mk (some 'b') 1 none none))
          (some (HuffmanNode.mk (some 'a') 1 none none)))⟩)
    encode_ab 'a' 'b' ['1'] ['0'] (by decide) (by rfl) (by rfl)

end Huffman

namespace Huffman

theorem set_own {α : Type} : ∀ (l : List α) (i : Nat) (v : α),
    l.get? i = some v → l.set i v = l := by
  intro l
  induction l with
  | nil => intro i v h; exact Option.noConfusion h
  | cons a t ih =>
    intro i v h
    cases i with
    | zero =>
      injection h with h
      rw [List.set_cons_zero, h]
    | succ j =>
      rw [List.set_cons_succ, ih j v h]

theorem getD_set_ne {α : Type} (l : List α) (i j : Nat) (a d : α) (h : i ≠ j) :
    (l.set i a).getD j d = l.getD j d := by
  simp [List.getD, List.getElem?_set_ne h]

theorem set_perm_cons {α : Type} : ∀ (t : List α) (j : Nat) (a d : α),
    j < t.length → (t.getD j d :: t.set j a).Perm (a :: t) := by
  intro t
  induction t with
  | nil => intro j a d h; simp at h
  | cons b s ih =>
    intro j a d h
    cases j with
    | zero =>
      simp only [List.getD_cons_zero, List.set_cons_zero]
      exact List.Perm.swap a b s
    | succ k =>
      simp only [List.getD_cons_succ, List.set_cons_succ]
      have hk : k < s.length := by simpa using h
      exact (List.Perm.swap b (s.getD k d) (s.set k a)).trans
        (((ih k a d hk).cons b).trans (List.Perm.swap a b s))

theorem set_set_perm {α : Type} : ∀ (l : List α) (i j : Nat) (d : α),
    i < l.length → j < l.length →
    ((l.set i (l.getD j d)).set j (l.getD i d)).Perm l := by
  intro l
  induction l with
  | nil => intro i j d h; simp at h
  | cons b s ih =>
    intro i j d hi hj
    cases i with
    | zero =>
      cases j with
      | zero => simp
      | succ k =>
        simp only [List.getD_cons_zero, List.getD_cons_succ, List.set_cons_zero,
          List.set_cons_succ]
        exact set_perm_cons s k b d (by simpa using hj)
    | succ m =>
      cases j with
      | zero =>
        simp only [List.getD_cons_zero, List.getD_cons_succ, List.set_cons_zero,
          List.set_cons_succ]
        exact set_perm_cons s m b d (by simpa using hi)
      | succ k =>
        simp only [List.getD_cons_succ, List.set_cons_succ]
        exact (ih m k d (by simpa using hi) (by simpa using hj)).cons b

theorem siftdownLoop_perm {α : Type} (lt : α → α → Bool) :
    ∀ (pos : Nat) (heap : List α) (startpos : Nat) (newitem : α),
      pos < heap.length →
      (siftdownLoop lt heap startpos newitem pos).Perm (heap.set pos newitem) := by
  intro pos
  induction pos using Nat.strong_induction_on with
  | _ pos ih =>
    intro heap startpos newitem hpos
    by_cases h : startpos < pos
    · by_cases h2 : lt newitem (heap.getD ((pos - 1) / 2) newitem) = true
      · rw [siftdownLoop_swap lt heap startpos newitem pos h h2]
        have hpp : (pos - 1) / 2 < pos := by omega
        have hperm := ih ((pos - 1) / 2) hpp
          (heap.set pos (heap.getD ((pos - 1) / 2) newitem)) startpos newitem
          (by simpa using Nat.lt_of_lt_of_le hpp (Nat.le_of_lt hpos))
        apply hperm.trans
        have hppne : (pos - 1) / 2 ≠ pos := by omega
        have e1 : (heap.set pos newitem).getD ((pos - 1) / 2) newitem =
            heap.getD ((pos - 1) / 2) newitem :=
          getD_set_ne heap pos ((pos - 1) / 2) newitem newitem (fun hc => hppne hc.symm)
        have e2 : (heap.set pos newitem).getD pos newitem = newitem := by
          simp [List.getD, List.getElem?_set_self', List.getElem?_eq_getElem hpos]
        have := set_set_perm (heap.set pos newitem) pos ((pos - 1) / 2) newitem
          (by simpa using hpos) (by simpa using Nat.lt_of_lt_of_le hpp (Nat.le_of_lt hpos))
        rw [e1, e2, List.set_set] at this
        exact this
      · rw [siftdownLoop_noswap lt heap startpos newitem pos h
          (by simpa using h2)]
    · rw [siftdownLoop_stop lt heap startpos newitem pos h]

end Huffman

namespace Huffman

theorem siftdown_perm {α : Type} (lt : α → α → Bool) (heap : List α)
    (startpos pos : Nat) : (siftdown lt heap startpos pos).Perm heap := by
  rw [siftdown]
  cases hg : heap.get? pos with
  | none => exact List.Perm.refl heap
  | some newitem =>
    have hpos : pos < heap.length := by
      by_contra hc
      rw [List.get?_eq_none.2 (by omega)] at hg
      exact Option.noConfusion hg
    have := siftdownLoop_perm lt pos heap startpos newitem hpos
    rwa [set_own heap pos newitem hg] at this

theorem siftupLoop_perm {α : Type} (lt : α → α → Bool) :
    ∀ (n : Nat) (heap : List α) (newitem : α) (pos : Nat),
      heap.length - pos = n → pos < heap.length →
      ((siftupLoop lt heap newitem pos).1.set (siftupLoop lt heap newitem pos).2
        newitem).Perm (heap.set pos newitem) := by
  intro n
  induction n using Nat.strong_induction_on with
  | _ n ih =>
    intro heap newitem pos hn hpos
    by_cases h : 2 * pos + 1 < heap.length
    · have hstep : ∀ (childpos : Nat), pos < childpos → childpos < heap.length →
          ((heap.set pos (heap.getD childpos newitem)).set childpos newitem).Perm
            (heap.set pos newitem) := by
        intro childpos hc1 hc2
        have e1 : (heap.set pos newitem).getD childpos newitem =
            heap.getD childpos newitem :=
          getD_set_ne heap pos childpos newitem newitem (by omega)
        have e2 : (heap.set pos newitem).getD pos newitem = newitem := by
          simp [List.getD, List.getElem?_set_self', List.getElem?_eq_getElem hpos]
        have := set_set_perm (heap.set pos newitem) pos childpos newitem
          (by simpa using hpos) (by simpa using hc2)
        rwa [e1, e2, List.set_set] at this
      by_cases h2 : 2 * pos + 2 < heap.length ∧
          lt (heap.getD (2 * pos + 1) newitem) (heap.getD (2 * pos + 2) newitem) = false
      · rw [siftupLoop_right lt heap newitem pos h h2]
        have hperm := ih ((heap.set pos (heap.getD (2 * pos + 2) newitem)).length - (2 * pos + 2))
          (by simp; omega)
          (heap.set pos (heap.getD (2 * pos + 2) newitem)) newitem (2 * pos + 2)
          rfl (by simp; omega)
        exact hperm.trans (hstep (2 * pos + 2) (by omega) h2.1)
      · rw [siftupLoop_left lt heap newitem pos h h2]
        have hperm := ih ((heap.set pos (heap.getD (2 * pos + 1) newitem)).length - (2 * pos + 1))
          (by simp; omega)
          (heap.set pos (heap.getD (2 * pos + 1) newitem)) newitem (2 * pos + 1)
          rfl (by simp; omega)
        exact hperm.trans (hstep (2 * pos + 1) (by omega) h)
    · rw [siftupLoop_stop lt heap newitem pos h]

theorem siftup_perm {α : Type} (lt : α → α → Bool) (heap : List α) (pos : Nat) :
    (siftup lt heap pos).Perm heap := by
  rw [siftup]
  cases hg : heap.get? pos with
  | none => exact List.Perm.refl heap
  | some newitem =>
    have hpos : pos < heap.length := by
      by_contra hc
      rw [List.get?_eq_none.2 (by omega)] at hg
      exact Option.noConfusion hg
    have hspec := siftupLoop_spec lt (heap.length - pos) heap newitem pos rfl hpos
    have hperm := siftupLoop_perm lt (heap.length - pos) heap newitem pos rfl hpos
    simp only []
    have hsd := siftdown_perm lt
      ((siftupLoop lt heap newitem pos).1.set (siftupLoop lt heap newitem pos).2 newitem)
      pos (siftupLoop lt heap newitem pos).2
    apply hsd.trans
    apply hperm.trans
    rw [set_own heap pos newitem hg]

theorem heappush_perm {α : Type} (lt : α → α → Bool) (heap : List α) (item : α) :
    (heappush lt heap item).Perm (item :: heap) := by
  rw [heappush]
  exact (siftdown_perm lt (heap ++ [item]) 0 heap.length).trans
    (List.perm_append_singleton item heap)

theorem heappop_perm {α : Type} (lt : α → α → Bool) (heap : List α)
    (x : α) (rest : List α) (h : heappop lt heap = some (x, rest)) :
    (x :: rest).Perm heap := by
  rw [heappop] at h
  cases hl : heap.getLast? with
  | none => rw [hl] at h; exact Option.noConfusion h
  | some lastelt =>
    rw [hl] at h
    have hne : heap ≠ [] := by
      intro hc; rw [hc] at hl; exact Option.noConfusion hl
    have hlast : heap.dropLast ++ [lastelt] = heap := by
      have := List.getLast?_eq_getLast heap hne
      rw [this] at hl
      injection hl with hl
      rw [← hl]
      exact List.dropLast_append_getLast hne
    simp only [] at h
    cases hg : heap.dropLast.get? 0 with
    | none =>
      rw [hg] at h
      injection h with h'
      injection h' with h1 h2
      subst h1
      subst h2
      have hnil : heap.dropLast = [] := by
        cases hd : heap.dropLast with
        | nil => rfl
        | cons a t => rw [hd] at hg; exact Option.noConfusion hg
      rw [hnil] at hlast
      rw [hnil]
      rw [← hlast]
      exact List.Perm.refl _
    | some returnitem =>
      rw [hg] at h
      injection h with h'
      injection h' with h1 h2
      subst h1
      subst h2
      obtain ⟨rest', hrest'⟩ : ∃ rest', heap.dropLast = returnitem :: rest' := by
        cases hd : heap.dropLast with
        | nil => rw [hd] at hg; exact Option.noConfusion hg
        | cons a t =>
          rw [hd] at hg
          injection hg with hg
          exact ⟨t, by rw [hg]⟩
      have hsp := siftup_perm lt ((heap.dropLast.set 0 lastelt)) 0
      rw [hrest'] at hsp ⊢
      simp only [List.set_cons_zero] at hsp ⊢
      apply (hsp.cons returnitem).trans
      rw [← hlast, hrest']
      exact ((List.perm_append_singleton lastelt rest').symm).cons returnitem

theorem heapify_perm {α : Type} (lt : α → α → Bool) (heap : List α) :
    (heapify lt heap).Perm heap := by
  rw [heapify]
  generalize (List.range (heap.length / 2)).reverse = idxs
  induction idxs generalizing heap with
  | nil => exact List.Perm.refl heap
  | cons i rest ih =>
    simp only [List.foldl_cons]
    exact (ih (siftup lt heap i)).trans (siftup_perm lt heap i)

end Huffman

namespace Huffman

/-- Frequencies of the descendant leaves of a node (a childless node is a
leaf carrying its own frequency). -/
def leafFreqs : HuffmanNode → List Nat
  | .mk _ f none none => [f]
  | .mk _ _ none (some r) => leafFreqs r
  | .mk _ _ (some l) none => leafFreqs l
  | .mk _ _ (some l) (some r) => leafFreqs l ++ leafFreqs r

/-- All nodes of a tree: the node itself and the nodes of its children. -/
def subtrees : HuffmanNode → List HuffmanNode
  | .mk c f none none => [.mk c f none none]
  | .mk c f none (some r) => .mk c f none (some r) :: subtrees r
  | .mk c f (some l) none => .mk c f (some l) none :: subtrees l
  | .mk c f (some l) (some r) => .mk c f (some l) (some r) :: (subtrees l ++ subtrees r)

/-- Every node's stored weight is the sum of its descendant leaves'
frequencies. -/
def weightOk (t : HuffmanNode) : Prop :=
  ∀ s ∈ subtrees t, s.freq = (leafFreqs s).sum

theorem self_mem_subtrees : ∀ t : HuffmanNode, t ∈ subtrees t := by
  intro t
  match t with
  | .mk c f none none => simp [subtrees]
  | .mk c f none (some r) => simp [subtrees]
  | .mk c f (some l) none => simp [subtrees]
  | .mk c f (some l) (some r) => simp [subtrees]

theorem weightOk_merge (l r : HuffmanNode) (hl : weightOk l) (hr : weightOk r) :
    weightOk (HuffmanNode.mk none (l.freq + r.freq) (some l) (some r)) := by
  intro s hs
  rw [subtrees] at hs
  rcases List.mem_cons.1 hs with hs | hs
  · subst hs
    rw [HuffmanNode.freq, leafFreqs, List.sum_append]
    rw [hl l (self_mem_subtrees l), hr r (self_mem_subtrees r)]
  · rcases List.mem_append.1 hs with hs | hs
    · exact hl s hs
    · exact hr s hs

theorem buildLoop_spec : ∀ (n : Nat) (nodes : List HuffmanNode),
    nodes.length ≤ n → nodes ≠ [] → (∀ x ∈ nodes, weightOk x) →
    ∃ root, buildLoop nodes = [root] ∧ weightOk root ∧
      root.freq = (nodes.map HuffmanNode.freq).sum := by
  intro n
  induction n with
  | zero =>
    intro nodes hlen hne _
    exact absurd (List.length_eq_zero.1 (by omega)) hne
  | succ n ih =>
    intro nodes hlen hne hok
    by_cases hone : nodes.length ≤ 1
    · obtain ⟨root, hroot⟩ : ∃ root, nodes = [root] := by
        cases nodes with
        | nil => exact absurd rfl hne
        | cons a t =>
          cases t with
          | nil => exact ⟨a, rfl⟩
          | cons b u => simp at hone
      subst hroot
      refine ⟨root, buildLoop_stop _ (by simp), hok root (by simp), by simp⟩
    · push_neg at hone
      cases hp : heappop hnodeLt nodes with
      | none =>
        exfalso
        rw [heappop] at hp
        cases hl : nodes.getLast? with
        | none =>
          rw [List.getLast?_eq_none_iff] at hl
          exact hne hl
        | some lastelt =>
          rw [hl] at hp
          simp only [] at hp
          cases hg : nodes.dropLast.get? 0 <;> simp only [hg] at hp <;>
            exact Option.noConfusion hp
      | some pair =>
        obtain ⟨x1, rest⟩ := pair
        have hperm1 := heappop_perm hnodeLt nodes x1 rest hp
        have hlen1 := heappop_length hnodeLt nodes x1 rest hp
        cases hp2 : heappop hnodeLt rest with
        | none =>
          exfalso
          rw [heappop] at hp2
          cases hl : rest.getLast? with
          | none =>
            rw [List.getLast?_eq_none_iff] at hl
            rw [hl] at hlen1
            simp at hlen1
            omega
          | some lastelt =>
            rw [hl] at hp2
            simp only [] at hp2
            cases hg : rest.dropLast.get? 0 <;> simp only [hg] at hp2 <;>
              exact Option.noConfusion hp2
        | some pair2 =>
          obtain ⟨x2, rest2⟩ := pair2
          have hperm2 := heappop_perm hnodeLt rest x2 rest2 hp2
          have hlen2 := heappop_length hnodeLt rest x2 rest2 hp2
          rw [buildLoop_step nodes hone x1 x2 rest rest2 hp hp2]
          have hpushperm := heappush_perm hnodeLt rest2
            (HuffmanNode.mk none (x1.freq + x2.freq) (some x1) (some x2))
          have hmem : ∀ y ∈ rest, y ∈ nodes := fun y hy =>
            hperm1.mem_iff.1 (by simp [hy])
          have hmem2 : ∀ y ∈ rest2, y ∈ rest := fun y hy =>
            hperm2.mem_iff.1 (by simp [hy])
          have hok1 : weightOk x1 := hok x1 (hperm1.mem_iff.1 (by simp))
          have hok2 : weightOk x2 := hok x2 (hmem x2 (hperm2.mem_iff.1 (by simp)))
          have hoknew : ∀ y ∈ heappush hnodeLt rest2
              (HuffmanNode.mk none (x1.freq + x2.freq) (some x1) (some x2)), weightOk y := by
            intro y hy
            rcases List.mem_cons.1 (hpushperm.mem_iff.1 hy) with hy2 | hy2
            · subst hy2
              exact weightOk_merge x1 x2 hok1 hok2
            · exact hok y (hmem y (hmem2 y hy2))
          have hlennew : (heappush hnodeLt rest2
              (HuffmanNode.mk none (x1.freq + x2.freq) (some x1) (some x2))).length ≤ n := by
            rw [heappush_length]
            omega
          have hnenew : heappush hnodeLt rest2
              (HuffmanNode.mk none (x1.freq + x2.freq) (some x1) (some x2)) ≠ [] := by
            intro hc
            have := heappush_length hnodeLt rest2
              (HuffmanNode.mk none (x1.freq + x2.freq) (some x1) (some x2))
            rw [hc] at this
            simp at this
          obtain ⟨root, h1, h2, h3⟩ := ih _ hlennew hnenew hoknew
          refine ⟨root, h1, h2, ?_⟩
          rw [h3]
          rw [List.Perm.sum_eq (hpushperm.map HuffmanNode.freq)]
          rw [List.map_cons, List.sum_cons, HuffmanNode.freq]
          have e1 : ((x2 :: rest2).map HuffmanNode.freq).sum =
              (rest.map HuffmanNode.freq).sum := List.Perm.sum_eq (hperm2.map _)
          have e2 : ((x1 :: rest).map HuffmanNode.freq).sum =
              (nodes.map HuffmanNode.freq).sum := List.Perm.sum_eq (hperm1.map _)
          simp only [List.map_cons, List.sum_cons] at e1 e2
          omega

/-- C9: for a non-empty frequency table, every node of the built Huffman
tree stores as `freq` the sum of its descendant leaves' frequencies, and
the root's weight is the total of all table frequencies. -/
theorem c9_tree_weights (freq : List (Char × Nat)) (hne : freq ≠ []) :
    (∀ s ∈ subtrees (build_huffman_tree freq), s.freq = (leafFreqs s).sum) ∧
      (build_huffman_tree freq).freq = (freq.map Prod.snd).sum := by
  rw [build_huffman_tree]
  have hperm := heapify_perm hnodeLt
    (freq.map (fun cf => HuffmanNode.mk (some cf.1) cf.2 none none))
  have hne2 : heapify hnodeLt
      (freq.map (fun cf => HuffmanNode.mk (some cf.1) cf.2 none none)) ≠ [] := by
    intro hc
    rw [hc] at hperm
    have := hperm.symm.eq_nil
    simp only [List.map_eq_nil] at this
    exact hne this
  have hok : ∀ x ∈ heapify hnodeLt
      (freq.map (fun cf => HuffmanNode.mk (some cf.1) cf.2 none none)), weightOk x := by
    intro x hx
    have := hperm.mem_iff.1 hx
    obtain ⟨cf, _, hcf⟩ := List.mem_map.1 this
    subst hcf
    intro s hs
    rw [subtrees] at hs
    rcases List.mem_cons.1 hs with hs | hs
    · subst hs
      rfl
    · exact absurd hs (List.not_mem_nil s)
  obtain ⟨root, h1, h2, h3⟩ := buildLoop_spec
    (heapify hnodeLt (freq.map (fun cf => HuffmanNode.mk (some cf.1) cf.2 none none))).length
    _ le_rfl hne2 hok
  rw [h1]
  simp only [List.headD_cons]
  refine ⟨h2, ?_⟩
  rw [h3, List.Perm.sum_eq (hperm.map HuffmanNode.freq)]
  rw [List.map_map]
  rfl

/-- C9 witness at a concrete two-symbol table. -/
theorem c9_tree_weights_witness :
    (∀ s ∈ subtrees (build_huffman_tree [('a', 1), ('b', 2)]),
      s.freq = (leafFreqs s).sum) ∧
      (build_huffman_tree [('a', 1), ('b', 2)]).freq =
        (([('a', 1), ('b', 2)] : List (Char × Nat)).map Prod.snd).sum :=
  c9_tree_weights [('a', 1), ('b', 2)] (by decide)

end Huffman

namespace Huffman

/-- Abstract binary merge tree over leaf weights, used to state the
optimality of the greedy merge order performed by `buildLoop`. -/
inductive WTree : Type where
  | leaf : Nat → WTree
  | node : WTree → WTree → WTree

/-- Total leaf weight of a merge tree. -/
def wsum : WTree → Nat
  | .leaf w => w
  | .node l r => wsum l + wsum r

/-- Total merge cost of a merge tree: each internal node costs the weight
of its subtree, i.e. each leaf weight is counted once per ancestor. -/
def wcost : WTree → Nat
  | .leaf _ => 0
  | .node l r => wcost l + wcost r + wsum l + wsum r

/-- Leaf weights, left to right. -/
def wleaves : WTree → List Nat
  | .leaf w => [w]
  | .node l r => wleaves l ++ wleaves r

/-- Leaf weights with their depths, starting from depth `d`. -/
def wdepths : WTree → Nat → List (Nat × Nat)
  | .leaf w, d => [(w, d)]
  | .node l r, d => wdepths l (d + 1) ++ wdepths r (d + 1)

/-- The cost of the greedy (Huffman) merge order on a multiset of
weights: repeatedly merge the two smallest weights. -/
def hufCost (W : List Nat) : Nat :=
  if _h : W.length ≤ 1 then 0
  else
    match hm : W.min? with
    | none => 0
    | some a =>
      match hm2 : (W.erase a).min? with
      | none => 0
      | some b => (a + b) + hufCost ((a + b) :: ((W.erase a).erase b))
termination_by W.length
decreasing_by
  have ha : a ∈ W := List.min?_mem min_choice hm
  have hb : b ∈ W.erase a := List.min?_mem min_choice hm2
  have e1 : (W.erase a).length + 1 = W.length := by
    rw [List.length_erase_of_mem ha]
    have := List.length_pos.2 (List.ne_nil_of_mem ha)
    omega
  have e2 : ((W.erase a).erase b).length + 1 = (W.erase a).length := by
    rw [List.length_erase_of_mem hb]
    have := List.length_pos.2 (List.ne_nil_of_mem hb)
    omega
  simp only [List.length_cons]
  omega

theorem min?_eq_some_iff_nat (l : List Nat) (a : Nat) :
    l.min? = some a ↔ a ∈ l ∧ ∀ b ∈ l, a ≤ b :=
  List.min?_eq_some_iff le_refl min_choice (fun _ _ _ => le_min_iff)

theorem min?_perm (l l' : List Nat) (h : l.Perm l') : l.min? = l'.min? := by
  cases hm : l.min? with
  | none =>
    rw [List.min?_eq_none_iff] at hm
    subst hm
    have := h.nil_eq
    rw [← this]
    rfl
  | some a =>
    rw [min?_eq_some_iff_nat] at hm
    symm
    rw [min?_eq_some_iff_nat]
    exact ⟨h.mem_iff.1 hm.1, fun b hb => hm.2 b (h.mem_iff.2 hb)⟩

theorem hufCost_stop (W : List Nat) (h : W.length ≤ 1) : hufCost W = 0 := by
  rw [hufCost, dif_pos h]

theorem hufCost_step (W : List Nat) (h : ¬ W.length ≤ 1) (a b : Nat)
    (hm : W.min? = some a) (hm2 : (W.erase a).min? = some b) :
    hufCost W = (a + b) + hufCost ((a + b) :: ((W.erase a).erase b)) := by
  rw [hufCost, dif_neg h]
  split
  · rename_i heq
    rw [hm] at heq
    exact Option.noConfusion heq
  · rename_i a' heq
    rw [hm] at heq
    injection heq with heq
    subst heq
    split
    · rename_i heq2
      rw [hm2] at heq2
      exact Option.noConfusion heq2
    · rename_i b' heq2
      rw [hm2] at heq2
      injection heq2 with heq2
      subst heq2
      rfl

theorem hufCost_perm : ∀ (n : Nat) (W W' : List Nat), W.length ≤ n → W.Perm W' →
    hufCost W = hufCost W' := by
  intro n
  induction n with
  | zero =>
    intro W W' hl hp
    have : W = [] := List.length_eq_zero.1 (by omega)
    subst this
    rw [hp.nil_eq.symm]
  | succ n ih =>
    intro W W' hl hp
    by_cases h1 : W.length ≤ 1
    · rw [hufCost_stop W h1, hufCost_stop W' (by rw [← hp.length_eq]; omega)]
    · have h1' : ¬ W'.length ≤ 1 := by rw [← hp.length_eq]; omega
      have hne : W ≠ [] := by
        intro hc
        rw [hc] at h1
        simp at h1
      obtain ⟨a, hm⟩ : ∃ a, W.min? = some a := by
        cases W with
        | nil => exact absurd rfl hne
        | cons b t => exact ⟨_, List.min?_cons'⟩
      have hm' : W'.min? = some a := by rw [← min?_perm W W' hp, hm]
      have ha : a ∈ W := List.min?_mem min_choice hm
      have hpe : (W.erase a).Perm (W'.erase a) := hp.erase a
      have hne2 : W.erase a ≠ [] := by
        intro hc
        have := List.length_erase_of_mem ha
        rw [hc] at this
        simp at this
        omega
      obtain ⟨b, hm2⟩ : ∃ b, (W.erase a).min? = some b := by
        cases he : W.erase a with
        | nil => exact absurd he hne2
        | cons c t => exact ⟨_, List.min?_cons'⟩
      have hm2' : (W'.erase a).min? = some b := by rw [← min?_perm _ _ hpe, hm2]
      rw [hufCost_step W h1 a b hm hm2, hufCost_step W' h1' a b hm' hm2']
      congr 1
      apply ih
      · have e1 : (W.erase a).length + 1 = W.length := by
          rw [List.length_erase_of_mem ha]
          have := List.length_pos.2 (List.ne_nil_of_mem ha)
          omega
        have hb : b ∈ W.erase a := List.min?_mem min_choice hm2
        have e2 : ((W.erase a).erase b).length + 1 = (W.erase a).length := by
          rw [List.length_erase_of_mem hb]
          have := List.length_pos.2 (List.ne_nil_of_mem hb)
          omega
        simp only [List.length_cons]
        omega
      · exact (hpe.erase b).cons (a + b)

end Huffman

namespace Huffman

/-- Height of a merge tree. -/
def wheight : WTree → Nat
  | .leaf _ => 0
  | .node l r => max (wheight l) (wheight r) + 1

theorem wdepths_map_fst (T : WTree) : ∀ d0, (wdepths T d0).map Prod.fst = wleaves T := by
  induction T with
  | leaf w => intro d0; rfl
  | node l r ihl ihr =>
    intro d0
    rw [wdepths, wleaves, List.map_append, ihl, ihr]

theorem wdepths_cost (T : WTree) : ∀ d0,
    ((wdepths T d0).map (fun p => p.1 * p.2)).sum = wcost T + d0 * wsum T := by
  induction T with
  | leaf w =>
    intro d0
    simp [wdepths, wcost, wsum]
    ring
  | node l r ihl ihr =>
    intro d0
    rw [wdepths, wcost, wsum, List.map_append, List.sum_append, ihl, ihr]
    ring

theorem wdepths_le (T : WTree) : ∀ d0 p, p ∈ wdepths T d0 → p.2 ≤ d0 + wheight T := by
  induction T with
  | leaf w =>
    intro d0 p hp
    rw [wdepths, List.mem_singleton] at hp
    subst hp
    simp [wheight]
  | node l r ihl ihr =>
    intro d0 p hp
    rw [wdepths, List.mem_append] at hp
    rw [wheight]
    rcases hp with hp | hp
    · have := ihl (d0 + 1) p hp
      omega
    · have := ihr (d0 + 1) p hp
      omega

theorem wdepths_length_pos (T : WTree) (d0 : Nat) : 0 < (wdepths T d0).length := by
  cases T with
  | leaf w => simp [wdepths]
  | node l r =>
    rw [wdepths, List.length_append]
    have := wdepths_length_pos l (d0 + 1)
    omega

/-- Contract the deepest sibling leaf pair, returning the contracted tree
and the pair of removed weights. -/
def contractDeep : WTree → WTree × Nat × Nat
  | .leaf w => (.leaf w, w, w)
  | .node (.leaf x) (.leaf y) => (.leaf (x + y), x, y)
  | .node (.leaf x) (.node rl rr) =>
    (WTree.node (WTree.leaf x) (contractDeep (WTree.node rl rr)).1,
      (contractDeep (WTree.node rl rr)).2)
  | .node (.node ll lr) r =>
    if wheight r ≤ wheight (WTree.node ll lr) then
      (WTree.node (contractDeep (WTree.node ll lr)).1 r,
        (contractDeep (WTree.node ll lr)).2)
    else
      (WTree.node (WTree.node ll lr) (contractDeep r).1, (contractDeep r).2)

theorem contractDeep_spec : ∀ (T : WTree), 1 ≤ wheight T → ∀ (d0 : Nat),
    ∃ M, (wdepths T d0).Perm (((contractDeep T).2.1, d0 + wheight T) ::
        ((contractDeep T).2.2, d0 + wheight T) :: M) ∧
      (wdepths (contractDeep T).1 d0).Perm
        (((contractDeep T).2.1 + (contractDeep T).2.2, d0 + wheight T - 1) :: M) ∧
      (∀ p ∈ M, p.2 ≤ d0 + wheight T) := by
  intro T
  induction T with
  | leaf w => intro h; simp [wheight] at h
  | node l r ihl ihr =>
    intro _ d0
    cases l with
    | leaf x =>
      cases r with
      | leaf y =>
        refine ⟨[], ?_, ?_, by simp⟩
        · simp [wdepths, wheight, contractDeep]
        · simp [wdepths, wheight, contractDeep]
      | node rl rr =>
        obtain ⟨M, h1, h2, h3⟩ := ihr (by simp [wheight]) (d0 + 1)
        have hht : wheight (WTree.node (WTree.leaf x) (WTree.node rl rr)) =
            wheight (WTree.node rl rr) + 1 := by
          simp [wheight]
        have e : d0 + (wheight (WTree.node rl rr) + 1) =
            d0 + 1 + wheight (WTree.node rl rr) := by omega
        refine ⟨(x, d0 + 1) :: M, ?_, ?_, ?_⟩
        · show ((x, d0 + 1) :: wdepths (WTree.node rl rr) (d0 + 1)).Perm _
          simp only [contractDeep, hht, e]
          apply List.Perm.trans (h1.cons (x, d0 + 1))
          apply List.Perm.trans (List.Perm.swap _ _ _)
          exact (List.Perm.swap _ _ _).cons _
        · show ((x, d0 + 1) :: wdepths (contractDeep (WTree.node rl rr)).1 (d0 + 1)).Perm _
          simp only [contractDeep, hht, e]
          apply List.Perm.trans (h2.cons (x, d0 + 1))
          exact List.Perm.swap _ _ _
        · intro p hp
          rw [hht]
          rcases List.mem_cons.1 hp with hp | hp
          · subst hp; simp
          · have := h3 p hp; omega
    | node ll lr =>
      by_cases hh : wheight r ≤ wheight (WTree.node ll lr)
      · have hcd : contractDeep (WTree.node (WTree.node ll lr) r) =
            (WTree.node (contractDeep (WTree.node ll lr)).1 r,
              (contractDeep (WTree.node ll lr)).2) := by
          rw [contractDeep, if_pos hh]
        obtain ⟨M, h1, h2, h3⟩ := ihl (by simp [wheight]) (d0 + 1)
        have hht : wheight (WTree.node (WTree.node ll lr) r) =
            wheight (WTree.node ll lr) + 1 := by
          rw [wheight]
          omega
        have e : d0 + (wheight (WTree.node ll lr) + 1) =
            d0 + 1 + wheight (WTree.node ll lr) := by omega
        refine ⟨M ++ wdepths r (d0 + 1), ?_, ?_, ?_⟩
        · rw [hcd, hht, e]
          show (wdepths (WTree.node ll lr) (d0 + 1) ++ wdepths r (d0 + 1)).Perm _
          exact h1.append_right _
        · rw [hcd, hht, e]
          show (wdepths (contractDeep (WTree.node ll lr)).1 (d0 + 1) ++
            wdepths r (d0 + 1)).Perm _
          exact h2.append_right _
        · intro p hp
          rw [hht]
          rcases List.mem_append.1 hp with hp | hp
          · have := h3 p hp; omega
          · have := wdepths_le r (d0 + 1) p hp
            omega
      · have hcd : contractDeep (WTree.node (WTree.node ll lr) r) =
            (WTree.node (WTree.node ll lr) (contractDeep r).1, (contractDeep r).2) := by
          rw [contractDeep, if_neg hh]
        have hhr : 1 ≤ wheight r := by
          rw [wheight] at hh
          omega
        obtain ⟨M, h1, h2, h3⟩ := ihr hhr (d0 + 1)
        have hht : wheight (WTree.node (WTree.node ll lr) r) = wheight r + 1 := by
          rw [wheight]
          omega
        have e : d0 + (wheight r + 1) = d0 + 1 + wheight r := by omega
        refine ⟨M ++ wdepths (WTree.node ll lr) (d0 + 1), ?_, ?_, ?_⟩
        · rw [hcd, hht, e]
          show (wdepths (WTree.node ll lr) (d0 + 1) ++ wdepths r (d0 + 1)).Perm _
          apply List.Perm.trans (h1.append_left _)
          apply List.Perm.trans (List.perm_middle)
          apply List.Perm.cons
          apply List.Perm.trans (List.perm_middle)
          exact (List.perm_append_comm).cons _
        · rw [hcd, hht, e]
          show (wdepths (WTree.node ll lr) (d0 + 1) ++
            wdepths (contractDeep r).1 (d0 + 1)).Perm _
          apply List.Perm.trans (h2.append_left _)
          apply List.Perm.trans (List.perm_middle)
          exact (List.perm_append_comm).cons _
        · intro p hp
          rw [hht]
          rcases List.mem_append.1 hp with hp | hp
          · have := h3 p hp; omega
          · have := wdepths_le (WTree.node ll lr) (d0 + 1) p hp
            have hh2 : wheight (WTree.node ll lr) < wheight r := by omega
            omega

end Huffman

namespace Huffman

/-- `i` lies in the binary-heap subtree rooted at index `s` (children of
`i` sit at `2 i + 1` and `2 i + 2`). -/
def inSubB (s i : Nat) : Bool :=
  if i = s then true
  else if i ≤ s then false
  else inSubB s ((i - 1) / 2)
termination_by i
decreasing_by omega

/-- Key of the list entry at index `i` (`0` out of bounds). -/
def keyAt {α : Type} (key : α → Nat) (l : List α) (i : Nat) : Nat :=
  match l.get? i with
  | none => 0
  | some a => key a

/-- Heap order on the subtree of indices rooted at `s`. -/
def subHeapInv {α : Type} (key : α → Nat) (l : List α) (s : Nat) : Prop :=
  ∀ i j : Nat, j < l.length → (j = 2 * i + 1 ∨ j = 2 * i + 2) →
    inSubB s i = true → keyAt key l i ≤ keyAt key l j

theorem inSubB_self (s : Nat) : inSubB s s = true := by
  rw [inSubB]
  simp

theorem inSubB_le : ∀ i s, inSubB s i = true → s ≤ i := by
  intro i
  induction i using Nat.strong_induction_on with
  | _ i ih =>
    intro s h
    rw [inSubB] at h
    by_cases h1 : i = s
    · omega
    · rw [if_neg h1] at h
      by_cases h2 : i ≤ s
      · rw [if_pos h2] at h
        exact Bool.noConfusion h
      · omega

theorem inSubB_child (s i j : Nat) (hj : j = 2 * i + 1 ∨ j = 2 * i + 2)
    (h : inSubB s i = true) : inSubB s j = true := by
  have hsi := inSubB_le i s h
  have hij : i < j := by omega
  rw [inSubB]
  by_cases h1 : j = s
  · exfalso; omega
  · rw [if_neg h1, if_neg (by omega)]
    have he : (j - 1) / 2 = i := by omega
    rw [he]
    exact h

theorem inSubB_parent (s i : Nat) (h : inSubB s i = true) (hne : i ≠ s) :
    inSubB s ((i - 1) / 2) = true := by
  have hsi := inSubB_le i s h
  rw [inSubB, if_neg hne, if_neg (by omega)] at h
  exact h

theorem inSubB_zero : ∀ i, inSubB 0 i = true := by
  intro i
  induction i using Nat.strong_induction_on with
  | _ i ih =>
    rw [inSubB]
    by_cases h1 : i = 0
    · simp [h1]
    · rw [if_neg h1, if_neg (by omega)]
      exact ih ((i - 1) / 2) (by omega)

theorem inSubB_trans : ∀ x s j, inSubB s j = true → inSubB j x = true →
    inSubB s x = true := by
  intro x
  induction x using Nat.strong_induction_on with
  | _ x ih =>
    intro s j hsj hjx
    by_cases h1 : x = j
    · rw [h1]; exact hsj
    · have hjxle := inSubB_le x j hjx
      have hpar := inSubB_parent j x hjx h1
      have hrec := ih ((x - 1) / 2) (by omega) s j hsj hpar
      have hsle := inSubB_le _ s hrec
      rw [inSubB]
      by_cases h2 : x = s
      · rw [if_pos h2]
      · rw [if_neg h2, if_neg (by omega)]
        exact hrec

theorem inSubB_total : ∀ x i j, inSubB i x = true → inSubB j x = true →
    inSubB i j = true ∨ inSubB j i = true := by
  intro x
  induction x using Nat.strong_induction_on with
  | _ x ih =>
    intro i j hi hj
    by_cases h1 : x = i
    · subst h1; exact Or.inr hj
    · by_cases h2 : x = j
      · subst h2; exact Or.inl hi
      · have hile := inSubB_le x i hi
        have hpi := inSubB_parent i x hi h1
        have hpj := inSubB_parent j x hj h2
        exact ih ((x - 1) / 2) (by omega) i j hpi hpj

theorem keyAt_set_ne {α : Type} (key : α → Nat) (l : List α) (i j : Nat)
    (v : α) (h : i ≠ j) : keyAt key (l.set i v) j = keyAt key l j := by
  rw [keyAt, keyAt, List.get?_set_ne v l h]

theorem keyAt_set_self {α : Type} (key : α → Nat) (l : List α) (i : Nat)
    (v : α) (h : i < l.length) : keyAt key (l.set i v) i = key v := by
  rw [keyAt, List.get?_set_eq_of_lt v h]

theorem keyAt_getD {α : Type} (key : α → Nat) (l : List α) (i : Nat) (d : α)
    (h : i < l.length) : key (l.getD i d) = keyAt key l i := by
  rw [keyAt, List.getD, List.get?_eq_getElem?, List.getElem?_eq_getElem h]
  rfl

/-- Correctness of the CPython bubble-up (`_siftdown`) loop relative to the
subtree rooted at `s`: starting from a hole at `pos` whose intended content
is `newitem`, if all subtree edges avoiding the hole are heap-ordered, the
hole's children dominate `newitem`, and the hole's parent is below the
hole's children, the loop restores the heap order on the whole subtree and
leaves indices outside the subtree untouched. -/
theorem siftdownLoop_heap {α : Type} (key : α → Nat) (lt : α → α → Bool)
    (hlt : ∀ a b, lt a b = true ↔ key a < key b) :
    ∀ (pos : Nat) (l : List α) (s : Nat) (newitem : α),
      pos < l.length → inSubB s pos = true →
      (∀ i j : Nat, j < l.length → (j = 2 * i + 1 ∨ j = 2 * i + 2) →
        inSubB s i = true → i ≠ pos → j ≠ pos → keyAt key l i ≤ keyAt key l j) →
      (∀ j : Nat, j < l.length → (j = 2 * pos + 1 ∨ j = 2 * pos + 2) →
        key newitem ≤ keyAt key l j) →
      (∀ j : Nat, j < l.length → (j = 2 * pos + 1 ∨ j = 2 * pos + 2) →
        pos ≠ s → keyAt key l ((pos - 1) / 2) ≤ keyAt key l j) →
      subHeapInv key (siftdownLoop lt l s newitem pos) s ∧
      (∀ q : Nat, inSubB s q = false →
        (siftdownLoop lt l s newitem pos).get? q = l.get? q) := by
  intro pos
  induction pos using Nat.strong_induction_on with
  | _ pos ih =>
    intro l s newitem hpos hins hA hB hD
    by_cases hsp : s < pos
    · have hpar : (pos - 1) / 2 < pos := by omega
      have hparlen : (pos - 1) / 2 < l.length := by omega
      have hpns : pos ≠ s := by omega
      by_cases hcomp : lt newitem (l.getD ((pos - 1) / 2) newitem) = true
      · rw [siftdownLoop_swap lt l s newitem pos hsp hcomp]
        have hlts : key newitem < keyAt key l ((pos - 1) / 2) := by
          rw [← keyAt_getD key l ((pos - 1) / 2) newitem hparlen]
          exact (hlt _ _).1 hcomp
        have hinspar : inSubB s ((pos - 1) / 2) = true := inSubB_parent s pos hins hpns
        have hlink : pos = 2 * ((pos - 1) / 2) + 1 ∨ pos = 2 * ((pos - 1) / 2) + 2 := by
          omega
        have hksetpos : keyAt key (l.set pos (l.getD ((pos - 1) / 2) newitem)) pos =
            keyAt key l ((pos - 1) / 2) := by
          rw [keyAt_set_self key l pos _ hpos, keyAt_getD key l _ newitem hparlen]
        have hA' : ∀ i j : Nat, j < (l.set pos (l.getD ((pos - 1) / 2) newitem)).length →
            (j = 2 * i + 1 ∨ j = 2 * i + 2) → inSubB s i = true →
            i ≠ (pos - 1) / 2 → j ≠ (pos - 1) / 2 →
            keyAt key (l.set pos (l.getD ((pos - 1) / 2) newitem)) i ≤
              keyAt key (l.set pos (l.getD ((pos - 1) / 2) newitem)) j := by
          intro i j hj hlk hini hip hjp
          rw [List.length_set] at hj
          by_cases hipos : i = pos
          · rw [hipos] at hlk ⊢
            rw [hksetpos, keyAt_set_ne key l pos j _ (by omega)]
            exact hD j hj hlk hpns
          · by_cases hjpos : j = pos
            · exfalso
              omega
            · rw [keyAt_set_ne key l pos i _ (fun hc => hipos hc.symm),
                keyAt_set_ne key l pos j _ (fun hc => hjpos hc.symm)]
              exact hA i j hj hlk hini hipos hjpos
        have hB' : ∀ j : Nat, j < (l.set pos (l.getD ((pos - 1) / 2) newitem)).length →
            (j = 2 * ((pos - 1) / 2) + 1 ∨ j = 2 * ((pos - 1) / 2) + 2) →
            key newitem ≤ keyAt key (l.set pos (l.getD ((pos - 1) / 2) newitem)) j := by
          intro j hj hlk
          rw [List.length_set] at hj
          by_cases hjpos : j = pos
          · rw [hjpos, hksetpos]
            exact le_of_lt hlts
          · rw [keyAt_set_ne key l pos j _ (fun hc => hjpos hc.symm)]
            have hedge : keyAt key l ((pos - 1) / 2) ≤ keyAt key l j :=
              hA ((pos - 1) / 2) j hj hlk hinspar (by omega) hjpos
            omega
        have hD' : ∀ j : Nat, j < (l.set pos (l.getD ((pos - 1) / 2) newitem)).length →
            (j = 2 * ((pos - 1) / 2) + 1 ∨ j = 2 * ((pos - 1) / 2) + 2) →
            (pos - 1) / 2 ≠ s →
            keyAt key (l.set pos (l.getD ((pos - 1) / 2) newitem)) (((pos - 1) / 2 - 1) / 2) ≤
              keyAt key (l.set pos (l.getD ((pos - 1) / 2) newitem)) j := by
          intro j hj hlk hparns
          rw [List.length_set] at hj
          have hgp : ((pos - 1) / 2 - 1) / 2 ≠ pos := by omega
          have hparge1 : 1 ≤ (pos - 1) / 2 := by
            have := inSubB_le ((pos - 1) / 2) s hinspar
            omega
          have hlkpar : (pos - 1) / 2 = 2 * (((pos - 1) / 2 - 1) / 2) + 1 ∨
              (pos - 1) / 2 = 2 * (((pos - 1) / 2 - 1) / 2) + 2 := by
            omega
          have hgpins : inSubB s (((pos - 1) / 2 - 1) / 2) = true :=
            inSubB_parent s ((pos - 1) / 2) hinspar hparns
          have hggp : keyAt key l (((pos - 1) / 2 - 1) / 2) ≤ keyAt key l ((pos - 1) / 2) :=
            hA _ _ hparlen hlkpar hgpins hgp (by omega)
          rw [keyAt_set_ne key l pos _ _ (fun hc => hgp hc.symm)]
          by_cases hjpos : j = pos
          · rw [hjpos, hksetpos]
            exact hggp
          · rw [keyAt_set_ne key l pos j _ (fun hc => hjpos hc.symm)]
            have hedge : keyAt key l ((pos - 1) / 2) ≤ keyAt key l j :=
              hA ((pos - 1) / 2) j hj hlk hinspar (by omega) hjpos
            omega
        obtain ⟨hsub, hout⟩ := ih ((pos - 1) / 2) hpar
          (l.set pos (l.getD ((pos - 1) / 2) newitem)) s newitem
          (by simpa using hparlen) hinspar hA' hB' hD'
        refine ⟨hsub, ?_⟩
        intro q hq
        rw [hout q hq]
        have hqp : q ≠ pos := by
          intro hc
          rw [hc, hins] at hq
          exact Bool.noConfusion hq
        exact List.get?_set_ne _ l (fun hc => hqp hc.symm)
      · have hcomp' : lt newitem (l.getD ((pos - 1) / 2) newitem) = false :=
          Bool.not_eq_true _ ▸ (by simpa using hcomp)
        rw [siftdownLoop_noswap lt l s newitem pos hsp hcomp']
        have hge : keyAt key l ((pos - 1) / 2) ≤ key newitem := by
          rw [← keyAt_getD key l ((pos - 1) / 2) newitem hparlen]
          have := (hlt newitem (l.getD ((pos - 1) / 2) newitem)).not.1
            (by rw [hcomp']; simp)
          omega
        constructor
        · intro i j hj hlk hini
          rw [List.length_set] at hj
          by_cases hipos : i = pos
          · rw [hipos] at hlk ⊢
            rw [keyAt_set_self key l pos newitem hpos,
              keyAt_set_ne key l pos j _ (by omega)]
            exact hB j hj hlk
          · by_cases hjpos : j = pos
            · rw [hjpos] at hlk ⊢
              have hieq : i = (pos - 1) / 2 := by omega
              subst hieq
              rw [keyAt_set_ne key l pos _ _ (by omega),
                keyAt_set_self key l pos newitem hpos]
              exact hge
            · rw [keyAt_set_ne key l pos i _ (fun hc => hipos hc.symm),
                keyAt_set_ne key l pos j _ (fun hc => hjpos hc.symm)]
              exact hA i j hj hlk hini hipos hjpos
        · intro q hq
          have : q ≠ pos := by
            intro hc
            rw [hc, hins] at hq
            exact Bool.noConfusion hq
          exact List.get?_set_ne newitem l (fun hc => this hc.symm)
    · have hpeq : pos = s := by
        have := inSubB_le pos s hins
        omega
      rw [siftdownLoop_stop lt l s newitem pos (by omega)]
      constructor
      · intro i j hj hlk hini
        rw [List.length_set] at hj
        by_cases hipos : i = pos
        · rw [hipos] at hlk ⊢
          rw [keyAt_set_self key l pos newitem hpos,
            keyAt_set_ne key l pos j _ (by omega)]
          exact hB j hj hlk
        · by_cases hjpos : j = pos
          · exfalso
            have := inSubB_le i s hini
            omega
          · rw [keyAt_set_ne key l pos i _ (fun hc => hipos hc.symm),
              keyAt_set_ne key l pos j _ (fun hc => hjpos hc.symm)]
            exact hA i j hj hlk hini hipos hjpos
      · intro q hq
        have : q ≠ pos := by
          intro hc
          rw [hc, hpeq, inSubB_self] at hq
          exact Bool.noConfusion hq
        exact List.get?_set_ne newitem l (fun hc => this hc.symm)

/-- Correctness of the CPython `_siftup` walk-down loop relative to the
subtree rooted at `s`: the hole at `pos` walks down to a child-less index
along smaller children; all subtree edges avoiding the hole stay
heap-ordered and the hole's parent stays below the hole's children. -/
theorem siftupLoop_heap {α : Type} (key : α → Nat) (lt : α → α → Bool)
    (hlt : ∀ a b, lt a b = true ↔ key a < key b) :
    ∀ (n : Nat) (l : List α) (newitem : α) (pos s : Nat),
      l.length - pos = n → pos < l.length → inSubB s pos = true →
      (∀ i j : Nat, j < l.length → (j = 2 * i + 1 ∨ j = 2 * i + 2) →
        inSubB s i = true → i ≠ pos → j ≠ pos → keyAt key l i ≤ keyAt key l j) →
      (∀ j : Nat, j < l.length → (j = 2 * pos + 1 ∨ j = 2 * pos + 2) →
        pos ≠ s → keyAt key l ((pos - 1) / 2) ≤ keyAt key l j) →
      (siftupLoop lt l newitem pos).1.length = l.length ∧
      (siftupLoop lt l newitem pos).2 < l.length ∧
      inSubB s (siftupLoop lt l newitem pos).2 = true ∧
      ¬ (2 * (siftupLoop lt l newitem pos).2 + 1 < l.length) ∧
      (∀ i j : Nat, j < l.length → (j = 2 * i + 1 ∨ j = 2 * i + 2) →
        inSubB s i = true → i ≠ (siftupLoop lt l newitem pos).2 →
        j ≠ (siftupLoop lt l newitem pos).2 →
        keyAt key (siftupLoop lt l newitem pos).1 i ≤
          keyAt key (siftupLoop lt l newitem pos).1 j) ∧
      (∀ q : Nat, inSubB s q = false →
        (siftupLoop lt l newitem pos).1.get? q = l.get? q) := by
  intro n
  induction n using Nat.strong_induction_on with
  | _ n ih =>
    intro l newitem pos s hn hpos hins hWA hWD
    by_cases hg : 2 * pos + 1 < l.length
    · -- a child exists: pick the smaller child and move the hole there
      by_cases h2 : 2 * pos + 2 < l.length ∧
          lt (l.getD (2 * pos + 1) newitem) (l.getD (2 * pos + 2) newitem) = false
      · rw [siftupLoop_right lt l newitem pos hg h2]
        have hclen : 2 * pos + 2 < l.length := h2.1
        have hchoice : keyAt key l (2 * pos + 2) ≤ keyAt key l (2 * pos + 1) := by
          have := (hlt (l.getD (2 * pos + 1) newitem) (l.getD (2 * pos + 2) newitem)).not.1
            (by rw [h2.2]; simp)
          rw [keyAt_getD key l _ newitem hg, keyAt_getD key l _ newitem hclen] at this
          omega
        have hcins : inSubB s (2 * pos + 2) = true :=
          inSubB_child s pos _ (Or.inr rfl) hins
        have hkset : keyAt key (l.set pos (l.getD (2 * pos + 2) newitem)) pos =
            keyAt key l (2 * pos + 2) := by
          rw [keyAt_set_self key l pos _ hpos, keyAt_getD key l _ newitem hclen]
        have hWA' : ∀ i j : Nat, j < (l.set pos (l.getD (2 * pos + 2) newitem)).length →
            (j = 2 * i + 1 ∨ j = 2 * i + 2) → inSubB s i = true →
            i ≠ 2 * pos + 2 → j ≠ 2 * pos + 2 →
            keyAt key (l.set pos (l.getD (2 * pos + 2) newitem)) i ≤
              keyAt key (l.set pos (l.getD (2 * pos + 2) newitem)) j := by
          intro i j hj hlk hini hic hjc
          rw [List.length_set] at hj
          by_cases hipos : i = pos
          · rw [hipos] at hlk ⊢
            rw [hkset, keyAt_set_ne key l pos j _ (by omega)]
            rcases hlk with hlk | hlk
            · rw [hlk]
              exact hchoice
            · exfalso
              omega
          · by_cases hjpos : j = pos
            · rw [hjpos] at hlk ⊢
              have hieq : i = (pos - 1) / 2 := by omega
              rw [hkset, keyAt_set_ne key l pos i _ (fun hc => hipos hc.symm), hieq]
              have hpns : pos ≠ s := by
                intro hc
                have := inSubB_le i s hini
                omega
              exact hWD (2 * pos + 2) hclen (Or.inr rfl) hpns
            · rw [keyAt_set_ne key l pos i _ (fun hc => hipos hc.symm),
                keyAt_set_ne key l pos j _ (fun hc => hjpos hc.symm)]
              exact hWA i j hj hlk hini hipos hjpos
        have hWD' : ∀ j : Nat, j < (l.set pos (l.getD (2 * pos + 2) newitem)).length →
            (j = 2 * (2 * pos + 2) + 1 ∨ j = 2 * (2 * pos + 2) + 2) →
            2 * pos + 2 ≠ s →
            keyAt key (l.set pos (l.getD (2 * pos + 2) newitem)) ((2 * pos + 2 - 1) / 2) ≤
              keyAt key (l.set pos (l.getD (2 * pos + 2) newitem)) j := by
          intro j hj hlk _hne
          rw [List.length_set] at hj
          have hpe : (2 * pos + 2 - 1) / 2 = pos := by omega
          rw [hpe, hkset, keyAt_set_ne key l pos j _ (by omega)]
          exact hWA (2 * pos + 2) j hj hlk hcins (by omega) (by omega)
        have hrec := ih ((l.set pos (l.getD (2 * pos + 2) newitem)).length - (2 * pos + 2))
          (by simp only [List.length_set]; omega)
          (l.set pos (l.getD (2 * pos + 2) newitem)) newitem (2 * pos + 2) s
          rfl (by simp only [List.length_set]; omega) hcins hWA' hWD'
        simp only [List.length_set] at hrec
        refine ⟨hrec.1, hrec.2.1, hrec.2.2.1, hrec.2.2.2.1, hrec.2.2.2.2.1, ?_⟩
        intro q hq
        rw [hrec.2.2.2.2.2 q hq]
        have hqp : q ≠ pos := by
          intro hc
          rw [hc, hins] at hq
          exact Bool.noConfusion hq
        exact List.get?_set_ne _ l (fun hc => hqp hc.symm)
      · rw [siftupLoop_left lt l newitem pos hg h2]
        have hchoice : 2 * pos + 2 < l.length →
            keyAt key l (2 * pos + 1) ≤ keyAt key l (2 * pos + 2) := by
          intro hclen
          have hne : lt (l.getD (2 * pos + 1) newitem) (l.getD (2 * pos + 2) newitem) ≠ false := by
            intro hc
            exact h2 ⟨hclen, hc⟩
          have htrue : lt (l.getD (2 * pos + 1) newitem) (l.getD (2 * pos + 2) newitem) = true := by
            cases hx : lt (l.getD (2 * pos + 1) newitem) (l.getD (2 * pos + 2) newitem) with
            | false => exact absurd hx hne
            | true => rfl
          have := (hlt _ _).1 htrue
          rw [keyAt_getD key l _ newitem hg, keyAt_getD key l _ newitem hclen] at this
          omega
        have hcins : inSubB s (2 * pos + 1) = true :=
          inSubB_child s pos _ (Or.inl rfl) hins
        have hkset : keyAt key (l.set pos (l.getD (2 * pos + 1) newitem)) pos =
            keyAt key l (2 * pos + 1) := by
          rw [keyAt_set_self key l pos _ hpos, keyAt_getD key l _ newitem hg]
        have hWA' : ∀ i j : Nat, j < (l.set pos (l.getD (2 * pos + 1) newitem)).length →
            (j = 2 * i + 1 ∨ j = 2 * i + 2) → inSubB s i = true →
            i ≠ 2 * pos + 1 → j ≠ 2 * pos + 1 →
            keyAt key (l.set pos (l.getD (2 * pos + 1) newitem)) i ≤
              keyAt key (l.set pos (l.getD (2 * pos + 1) newitem)) j := by
          intro i j hj hlk hini hic hjc
          rw [List.length_set] at hj
          by_cases hipos : i = pos
          · rw [hipos] at hlk ⊢
            rw [hkset, keyAt_set_ne key l pos j _ (by omega)]
            rcases hlk with hlk | hlk
            · exfalso
              omega
            · rw [hlk]
              exact hchoice (by omega)
          · by_cases hjpos : j = pos
            · rw [hjpos] at hlk ⊢
              have hieq : i = (pos - 1) / 2 := by omega
              rw [hkset, keyAt_set_ne key l pos i _ (fun hc => hipos hc.symm), hieq]
              have hpns : pos ≠ s := by
                intro hc
                have := inSubB_le i s hini
                omega
              exact hWD (2 * pos + 1) hg (Or.inl rfl) hpns
            · rw [keyAt_set_ne key l pos i _ (fun hc => hipos hc.symm),
                keyAt_set_ne key l pos j _ (fun hc => hjpos hc.symm)]
              exact hWA i j hj hlk hini hipos hjpos
        have hWD' : ∀ j : Nat, j < (l.set pos (l.getD (2 * pos + 1) newitem)).length →
            (j = 2 * (2 * pos + 1) + 1 ∨ j = 2 * (2 * pos + 1) + 2) →
            2 * pos + 1 ≠ s →
            keyAt key (l.set pos (l.getD (2 * pos + 1) newitem)) ((2 * pos + 1 - 1) / 2) ≤
              keyAt key (l.set pos (l.getD (2 * pos + 1) newitem)) j := by
          intro j hj hlk _hne
          rw [List.length_set] at hj
          have hpe : (2 * pos + 1 - 1) / 2 = pos := by omega
          rw [hpe, hkset, keyAt_set_ne key l pos j _ (by omega)]
          exact hWA (2 * pos + 1) j hj hlk hcins (by omega) (by omega)
        have hrec := ih ((l.set pos (l.getD (2 * pos + 1) newitem)).length - (2 * pos + 1))
          (by simp only [List.length_set]; omega)
          (l.set pos (l.getD (2 * pos + 1) newitem)) newitem (2 * pos + 1) s
          rfl (by simp only [List.length_set]; omega) hcins hWA' hWD'
        simp only [List.length_set] at hrec
        refine ⟨hrec.1, hrec.2.1, hrec.2.2.1, hrec.2.2.2.1, hrec.2.2.2.2.1, ?_⟩
        intro q hq
        rw [hrec.2.2.2.2.2 q hq]
        have hqp : q ≠ pos := by
          intro hc
          rw [hc, hins] at hq
          exact Bool.noConfusion hq
        exact List.get?_set_ne _ l (fun hc => hqp hc.symm)
    · rw [siftupLoop_stop lt l newitem pos hg]
      exact ⟨rfl, hpos, hins, hg, fun i j hj hlk hini hip hjp => hWA i j hj hlk hini hip hjp,
        fun q _ => rfl⟩

/-- Correctness of CPython `_siftup` at a subtree root `pos`: if every
subtree edge below `pos` (not out of `pos` itself) is heap-ordered, the
call restores the heap order on the whole subtree of `pos` and leaves
indices outside it untouched. -/
theorem siftup_heap {α : Type} (key : α → Nat) (lt : α → α → Bool)
    (hlt : ∀ a b, lt a b = true ↔ key a < key b) (l : List α) (pos : Nat)
    (hpos : pos < l.length)
    (hA : ∀ i j : Nat, j < l.length → (j = 2 * i + 1 ∨ j = 2 * i + 2) →
      inSubB pos i = true → i ≠ pos → keyAt key l i ≤ keyAt key l j) :
    subHeapInv key (siftup lt l pos) pos ∧
    (∀ q : Nat, inSubB pos q = false → (siftup lt l pos).get? q = l.get? q) := by
  rw [siftup]
  cases hget : l.get? pos with
  | none =>
    exfalso
    have := List.get?_eq_none.1 hget
    omega
  | some newitem =>
    simp only []
    have hWD0 : ∀ j : Nat, j < l.length → (j = 2 * pos + 1 ∨ j = 2 * pos + 2) →
        pos ≠ pos → keyAt key l ((pos - 1) / 2) ≤ keyAt key l j := by
      intro j _ _ hc
      exact absurd rfl hc
    have hWA0 : ∀ i j : Nat, j < l.length → (j = 2 * i + 1 ∨ j = 2 * i + 2) →
        inSubB pos i = true → i ≠ pos → j ≠ pos → keyAt key l i ≤ keyAt key l j := by
      intro i j hj hlk hini hip _
      exact hA i j hj hlk hini hip
    have hsl := siftupLoop_heap key lt hlt (l.length - pos) l newitem pos pos rfl hpos
      (inSubB_self pos) hWA0 hWD0
    obtain ⟨hlen1, hfp, hfpins, hleaf, hWA1, hout1⟩ := hsl
    rw [siftdown]
    have hfp1 : (siftupLoop lt l newitem pos).2 < (siftupLoop lt l newitem pos).1.length := by
      omega
    rw [List.get?_set_eq_of_lt newitem hfp1]
    have hsetlen : ((siftupLoop lt l newitem pos).1.set
        (siftupLoop lt l newitem pos).2 newitem).length = l.length := by
      rw [List.length_set, hlen1]
    have hA2 : ∀ i j : Nat,
        j < ((siftupLoop lt l newitem pos).1.set
          (siftupLoop lt l newitem pos).2 newitem).length →
        (j = 2 * i + 1 ∨ j = 2 * i + 2) → inSubB pos i = true →
        i ≠ (siftupLoop lt l newitem pos).2 → j ≠ (siftupLoop lt l newitem pos).2 →
        keyAt key ((siftupLoop lt l newitem pos).1.set
          (siftupLoop lt l newitem pos).2 newitem) i ≤
          keyAt key ((siftupLoop lt l newitem pos).1.set
            (siftupLoop lt l newitem pos).2 newitem) j := by
      intro i j hj hlk hini hifp hjfp
      rw [hsetlen] at hj
      rw [keyAt_set_ne key _ _ i _ (fun hc => hifp hc.symm),
        keyAt_set_ne key _ _ j _ (fun hc => hjfp hc.symm)]
      exact hWA1 i j hj hlk hini hifp hjfp
    have hB2 : ∀ j : Nat,
        j < ((siftupLoop lt l newitem pos).1.set
          (siftupLoop lt l newitem pos).2 newitem).length →
        (j = 2 * (siftupLoop lt l newitem pos).2 + 1 ∨
          j = 2 * (siftupLoop lt l newitem pos).2 + 2) →
        key newitem ≤ keyAt key ((siftupLoop lt l newitem pos).1.set
          (siftupLoop lt l newitem pos).2 newitem) j := by
      intro j hj hlk
      rw [hsetlen] at hj
      exfalso
      omega
    have hD2 : ∀ j : Nat,
        j < ((siftupLoop lt l newitem pos).1.set
          (siftupLoop lt l newitem pos).2 newitem).length →
        (j = 2 * (siftupLoop lt l newitem pos).2 + 1 ∨
          j = 2 * (siftupLoop lt l newitem pos).2 + 2) →
        (siftupLoop lt l newitem pos).2 ≠ pos →
        keyAt key ((siftupLoop lt l newitem pos).1.set
          (siftupLoop lt l newitem pos).2 newitem)
          (((siftupLoop lt l newitem pos).2 - 1) / 2) ≤
          keyAt key ((siftupLoop lt l newitem pos).1.set
            (siftupLoop lt l newitem pos).2 newitem) j := by
      intro j hj hlk _
      rw [hsetlen] at hj
      exfalso
      omega
    have hsd := siftdownLoop_heap key lt hlt (siftupLoop lt l newitem pos).2
      ((siftupLoop lt l newitem pos).1.set (siftupLoop lt l newitem pos).2 newitem)
      pos newitem (by omega) hfpins hA2 hB2 hD2
    refine ⟨?_, ?_⟩
    · have := hsd.1
      intro i j hj hlk hini
      apply this i j _ hlk hini
      rw [siftdownLoop_length, hsetlen]
      rw [siftdownLoop_length, hsetlen] at hj
      exact hj
    · intro q hq
      rw [hsd.2 q hq]
      have hqfp : q ≠ (siftupLoop lt l newitem pos).2 := by
        intro hc
        rw [hc, hfpins] at hq
        exact Bool.noConfusion hq
      rw [List.get?_set_ne newitem _ (fun hc => hqfp hc.symm)]
      exact hout1 q hq

theorem subHeapInv_mono {α : Type} (key : α → Nat) (l : List α) (s0 s : Nat)
    (h : subHeapInv key l s0) (hs : inSubB s0 s = true) : subHeapInv key l s := by
  intro i j hj hlk hini
  exact h i j hj hlk (inSubB_trans i s0 s hs hini)

theorem subHeapInv_congr {α : Type} (key : α → Nat) (l l' : List α) (s : Nat)
    (hlen : l'.length = l.length)
    (hval : ∀ q : Nat, inSubB s q = true → l'.get? q = l.get? q)
    (h : subHeapInv key l s) : subHeapInv key l' s := by
  intro i j hj hlk hini
  rw [hlen] at hj
  have hinj : inSubB s j = true := inSubB_child s i j hlk hini
  rw [keyAt, keyAt, hval i hini, hval j hinj, ← keyAt, ← keyAt]
  exact h i j hj hlk hini

theorem inSubB_step : ∀ (x s : Nat), inSubB s x = true → x ≠ s →
    inSubB (2 * s + 1) x = true ∨ inSubB (2 * s + 2) x = true := by
  intro x
  induction x using Nat.strong_induction_on with
  | _ x ih =>
    intro s hx hne
    have hsx := inSubB_le x s hx
    have hpar := inSubB_parent s x hx hne
    by_cases hps : (x - 1) / 2 = s
    · have hlk : x = 2 * s + 1 ∨ x = 2 * s + 2 := by omega
      rcases hlk with hlk | hlk
      · exact Or.inl (by rw [hlk]; exact inSubB_self _)
      · exact Or.inr (by rw [hlk]; exact inSubB_self _)
    · have hx1 : 1 ≤ x := by omega
      have hrec := ih ((x - 1) / 2) (by omega) s hpar hps
      have hlk : x = 2 * ((x - 1) / 2) + 1 ∨ x = 2 * ((x - 1) / 2) + 2 := by omega
      rcases hrec with hrec | hrec
      · exact Or.inl (inSubB_child _ _ _ hlk hrec)
      · exact Or.inr (inSubB_child _ _ _ hlk hrec)

theorem inSubB_disjoint (i s q : Nat) (hlt : i < s) (hns : inSubB i s = false)
    (hq : inSubB s q = true) : inSubB i q = false := by
  by_contra hc
  have hiq : inSubB i q = true := by
    cases hx : inSubB i q with
    | false => exact absurd hx hc
    | true => rfl
  rcases inSubB_total q i s hiq hq with h | h
  · rw [h] at hns
    exact Bool.noConfusion hns
  · have := inSubB_le i s h
    omega

/-- The `heapify` fold: processing indices `k - 1, …, 0` turns a list whose
subtrees rooted at `k, k + 1, …` are already heaps into a heap. -/
theorem heapify_go {α : Type} (key : α → Nat) (lt : α → α → Bool)
    (hlt : ∀ a b, lt a b = true ↔ key a < key b) :
    ∀ (k : Nat) (l : List α), 2 * k ≤ l.length + 1 →
      (∀ s : Nat, k ≤ s → subHeapInv key l s) →
      ((List.range k).reverse.foldl (fun h i => siftup lt h i) l).length = l.length ∧
      ∀ s : Nat, subHeapInv key
        ((List.range k).reverse.foldl (fun h i => siftup lt h i) l) s := by
  intro k
  induction k with
  | zero =>
    intro l _ hbase
    exact ⟨rfl, fun s => hbase s (Nat.zero_le s)⟩
  | succ k ih =>
    intro l hk hbase
    rw [List.range_succ, List.reverse_append, List.reverse_singleton,
      List.singleton_append, List.foldl_cons]
    have hklen : k < l.length := by omega
    have hApre : ∀ i j : Nat, j < l.length → (j = 2 * i + 1 ∨ j = 2 * i + 2) →
        inSubB k i = true → i ≠ k → keyAt key l i ≤ keyAt key l j := by
      intro i j hj hlk hini hik
      rcases inSubB_step i k hini hik with h | h
      · exact hbase (2 * k + 1) (by omega) i j hj hlk h
      · exact hbase (2 * k + 2) (by omega) i j hj hlk h
    obtain ⟨hsubk, hout⟩ := siftup_heap key lt hlt l k hklen hApre
    have hlen2 : (siftup lt l k).length = l.length := siftup_length lt l k
    rw [← hlen2]
    apply ih (siftup lt l k) (by omega)
    intro s hs
    by_cases hks : s = k
    · rw [hks]
      exact hsubk
    · by_cases hin : inSubB k s = true
      · exact subHeapInv_mono key _ k s hsubk hin
      · have hnotin : inSubB k s = false := by
          cases hx : inSubB k s with
          | false => rfl
          | true => exact absurd hx hin
        apply subHeapInv_congr key l (siftup lt l k) s hlen2
          (fun q hq => hout q (inSubB_disjoint k s q (by omega) hnotin hq))
        exact hbase s (by omega)

/-- `heapify` establishes the heap order. -/
theorem heapify_heap {α : Type} (key : α → Nat) (lt : α → α → Bool)
    (hlt : ∀ a b, lt a b = true ↔ key a < key b) (l : List α) :
    subHeapInv key (heapify lt l) 0 := by
  rw [heapify]
  refine (heapify_go key lt hlt (l.length / 2) l (by omega) ?_).2 0
  intro s hs i j hj hlk hini
  exfalso
  have := inSubB_le i s hini
  omega

theorem subHeapInv_root_min {α : Type} (key : α → Nat) (l : List α)
    (h : subHeapInv key l 0) : ∀ j : Nat, j < l.length →
      keyAt key l 0 ≤ keyAt key l j := by
  intro j
  induction j using Nat.strong_induction_on with
  | _ j ih =>
    intro hj
    by_cases hj0 : j = 0
    · rw [hj0]
    · have hlk : j = 2 * ((j - 1) / 2) + 1 ∨ j = 2 * ((j - 1) / 2) + 2 := by omega
      have hpar := ih ((j - 1) / 2) (by omega) (by omega)
      have hedge := h ((j - 1) / 2) j hj hlk (inSubB_zero _)
      omega

theorem heappush_heap {α : Type} (key : α → Nat) (lt : α → α → Bool)
    (hlt : ∀ a b, lt a b = true ↔ key a < key b) (l : List α) (item : α)
    (h : subHeapInv key l 0) : subHeapInv key (heappush lt l item) 0 := by
  rw [heappush, siftdown]
  have hget : (l ++ [item]).get? l.length = some item := by
    rw [List.get?_append_right (le_refl _)]
    simp
  rw [hget]
  have hlen : (l ++ [item]).length = l.length + 1 := by simp
  have hA : ∀ i j : Nat, j < (l ++ [item]).length → (j = 2 * i + 1 ∨ j = 2 * i + 2) →
      inSubB 0 i = true → i ≠ l.length → j ≠ l.length →
      keyAt key (l ++ [item]) i ≤ keyAt key (l ++ [item]) j := by
    intro i j hj hlk _ hine hjne
    rw [hlen] at hj
    have hjl : j < l.length := by omega
    have hil : i < l.length := by omega
    rw [keyAt, keyAt, List.get?_append hil, List.get?_append hjl, ← keyAt, ← keyAt]
    exact h i j hjl hlk (inSubB_zero i)
  have hB : ∀ j : Nat, j < (l ++ [item]).length →
      (j = 2 * l.length + 1 ∨ j = 2 * l.length + 2) →
      key item ≤ keyAt key (l ++ [item]) j := by
    intro j hj hlk
    rw [hlen] at hj
    exfalso
    omega
  have hD : ∀ j : Nat, j < (l ++ [item]).length →
      (j = 2 * l.length + 1 ∨ j = 2 * l.length + 2) → l.length ≠ 0 →
      keyAt key (l ++ [item]) ((l.length - 1) / 2) ≤ keyAt key (l ++ [item]) j := by
    intro j hj hlk _
    rw [hlen] at hj
    exfalso
    omega
  exact (siftdownLoop_heap key lt hlt l.length (l ++ [item]) 0 item
    (by omega) (inSubB_zero _) hA hB hD).1

theorem dropLast_get? {α : Type} (l : List α) (i : Nat) (h : i < l.length - 1) :
    l.dropLast.get? i = l.get? i := by
  rw [List.get?_eq_getElem?, List.get?_eq_getElem?, List.getElem?_dropLast,
    if_pos (by simpa using h)]

theorem heappop_spec
 {α : Type} (key : α → Nat) (lt : α → α → Bool)
    (hlt : ∀ a b, lt a b = true ↔ key a < key b) (l : List α)
    (x : α) (rest : List α)
    (h : subHeapInv key l 0) (hp : heappop lt l = some (x, rest)) :
    (∀ y ∈ l, key x ≤ key y) ∧ subHeapInv key rest 0 := by
  rw [heappop] at hp
  cases hl : l.getLast? with
  | none =>
    rw [hl] at hp
    exact Option.noConfusion hp
  | some lastelt =>
    rw [hl] at hp
    simp only [] at hp
    have hne : l ≠ [] := by
      intro hc
      rw [hc] at hl
      exact Option.noConfusion hl
    have hdl : l.dropLast.length + 1 = l.length := by
      rw [List.length_dropLast]
      have := List.length_pos.2 hne
      omega
    cases hg : l.dropLast.get? 0 with
    | none =>
      rw [hg] at hp
      injection hp with hp'
      injection hp' with hp1 hp2
      have hrest : l.dropLast = [] := by
        cases hx : l.dropLast with
        | nil => rfl
        | cons a t =>
          rw [hx] at hg
          exact Option.noConfusion hg
      have hlone : l = [lastelt] := by
        have hlen1 : l.length = 1 := by
          rw [hrest] at hdl
          simpa using hdl.symm
        obtain ⟨a, ha⟩ := List.length_eq_one.1 hlen1
        rw [ha]
        rw [ha] at hl
        simp [List.getLast?] at hl
        rw [hl]
      constructor
      · intro y hy
        rw [hlone, List.mem_singleton] at hy
        rw [hy, ← hp1]
      · rw [← hp2, hrest]
        intro i j hj _ _
        simp at hj
    | some returnitem =>
      rw [hg] at hp
      injection hp with hp'
      injection hp' with hp1 hp2
      have hg0 : 0 < l.dropLast.length := by
        by_contra hc
        rw [List.get?_eq_none.2 (by omega)] at hg
        exact Option.noConfusion hg
      have hx0 : l.get? 0 = some returnitem := by
        rw [← dropLast_get? l 0 (by omega)]
        exact hg
      constructor
      · intro y hy
        obtain ⟨j, hjy⟩ := List.mem_iff_get?.mp hy
        have hjlen : j < l.length := by
          by_contra hc
          rw [List.get?_eq_none.2 (by omega)] at hjy
          exact Option.noConfusion hjy
        have hroot := subHeapInv_root_min key l h j hjlen
        rw [← hp1]
        have hk0 : keyAt key l 0 = key returnitem := by
          rw [keyAt, hx0]
        have hkj : keyAt key l j = key y := by
          rw [keyAt, hjy]
        omega
      · rw [← hp2]
        have hsetlen : (l.dropLast.set 0 lastelt).length = l.dropLast.length := by
          rw [List.length_set]
        have hApre : ∀ i j : Nat, j < (l.dropLast.set 0 lastelt).length →
            (j = 2 * i + 1 ∨ j = 2 * i + 2) → inSubB 0 i = true → i ≠ 0 →
            keyAt key (l.dropLast.set 0 lastelt) i ≤
              keyAt key (l.dropLast.set 0 lastelt) j := by
          intro i j hj hlk _ hine
          rw [hsetlen] at hj
          have hjne : j ≠ 0 := by omega
          rw [keyAt_set_ne key _ _ i _ (fun hc => hine hc.symm),
            keyAt_set_ne key _ _ j _ (fun hc => hjne hc.symm)]
          have hvi : l.dropLast.get? i = l.get? i := dropLast_get? l i (by omega)
          have hvj : l.dropLast.get? j = l.get? j := dropLast_get? l j (by omega)
          rw [keyAt, keyAt, hvi, hvj, ← keyAt, ← keyAt]
          exact h i j (by omega) hlk (inSubB_zero i)
        have := siftup_heap key lt hlt (l.dropLast.set 0 lastelt) 0
          (by rw [hsetlen]; omega) hApre
        exact this.1

/-- Weighted sum of a (weight, depth) list. -/
def psum (L : List (Nat × Nat)) : Nat := (L.map (fun p => p.1 * p.2)).sum

theorem psum_cons (u v : Nat) (L : List (Nat × Nat)) :
    psum ((u, v) :: L) = u * v + psum L := by
  simp [psum]

theorem psum_append (L1 L2 : List (Nat × Nat)) :
    psum (L1 ++ L2) = psum L1 + psum L2 := by
  simp [psum]

theorem psum_perm (L L' : List (Nat × Nat)) (h : L.Perm L') : psum L = psum L' :=
  (h.map _).sum_eq

theorem psum_wdepths0 (T : WTree) : psum (wdepths T 0) = wcost T := by
  rw [psum, wdepths_cost]
  omega

theorem cross_ineq (a x d D : Nat) (h1 : a ≤ x) (h2 : d ≤ D) :
    a * D + x * d ≤ x * D + a * d := by
  have e1 : a * D = a * d + a * (D - d) := by
    rw [← Nat.mul_add]
    congr 1
    omega
  have e2 : x * D = x * d + x * (D - d) := by
    rw [← Nat.mul_add]
    congr 1
    omega
  have e3 : a * (D - d) ≤ x * (D - d) := Nat.mul_le_mul_right _ h1
  omega

/-- Move a minimal value into the head slot of an assignment of values to
depth slots, without increasing the weighted sum and preserving both the
value multiset and the depth sequence. -/
theorem swap_into_head (w D : Nat) (R : List (Nat × Nat)) (v : Nat)
    (hv : v ∈ w :: R.map Prod.fst)
    (hmin : ∀ z ∈ w :: R.map Prod.fst, v ≤ z)
    (hDb : ∀ p ∈ R, p.2 ≤ D) :
    ∃ R', psum ((v, D) :: R') ≤ psum ((w, D) :: R) ∧
      (v :: R'.map Prod.fst).Perm (w :: R.map Prod.fst) ∧
      R'.map Prod.snd = R.map Prod.snd ∧
      (∀ p ∈ R', p.2 ≤ D) := by
  by_cases hvw : v = w
  · subst hvw
    exact ⟨R, le_refl _, List.Perm.refl _, rfl, hDb⟩
  · have hvR : v ∈ R.map Prod.fst := by
      rcases List.mem_cons.1 hv with h | h
      · exact absurd h hvw
      · exact h
    obtain ⟨p, hpR, hpv⟩ := List.mem_map.1 hvR
    obtain ⟨p1, p2⟩ := p
    simp only at hpv
    rw [hpv] at hpR
    obtain ⟨R1, R2, hsplit⟩ := List.append_of_mem hpR
    refine ⟨R1 ++ (w, p2) :: R2, ?_, ?_, ?_, ?_⟩
    · rw [hsplit, psum_cons, psum_cons, psum_append, psum_append,
        psum_cons, psum_cons]
      have hvle : v ≤ w := hmin w (List.mem_cons_self _ _)
      have hdle : p2 ≤ D := hDb _ hpR
      have := cross_ineq v w p2 D hvle hdle
      omega
    · rw [hsplit]
      simp only [List.map_append, List.map_cons]
      apply List.Perm.trans (List.perm_middle.cons v)
      apply List.Perm.trans (List.Perm.swap _ _ _)
      exact (List.perm_middle.symm).cons w
    · rw [hsplit]
      simp only [List.map_append, List.map_cons]
    · intro q hq
      rw [hsplit] at hDb
      rcases List.mem_append.1 hq with hq | hq
      · exact hDb q (List.mem_append_left _ hq)
      · rcases List.mem_cons.1 hq with hq | hq
        · subst hq
          exact hDb (v, p2) (List.mem_append_right _ (List.mem_cons_self _ _))
        · exact hDb q (List.mem_append_right _ (List.mem_cons_of_mem _ hq))

/-- Any permutation of a depth sequence can be realised by reordering the
pairs of an assignment list. -/
theorem pair_align : ∀ (ds : List Nat) (L : List (Nat × Nat)),
    (L.map Prod.snd).Perm ds →
    ∃ L2 : List (Nat × Nat), L2.Perm L ∧ L2.map Prod.snd = ds := by
  intro ds
  induction ds with
  | nil =>
    intro L h
    have h0 : L.map Prod.snd = [] := h.eq_nil
    have hL : L = [] := List.map_eq_nil.1 h0
    exact ⟨[], by rw [hL], rfl⟩
  | cons d ds ih =>
    intro L h
    have hd : d ∈ L.map Prod.snd := h.mem_iff.2 (List.mem_cons_self d ds)
    obtain ⟨p, hpL, hpd⟩ := List.mem_map.1 hd
    obtain ⟨L1, L2, hsplit⟩ := List.append_of_mem hpL
    have hperm : L.Perm (p :: (L1 ++ L2)) := by
      rw [hsplit]
      exact List.perm_middle
    have htail : ((L1 ++ L2).map Prod.snd).Perm ds := by
      have h2 : (p.2 :: (L1 ++ L2).map Prod.snd).Perm (d :: ds) := by
        have h3 := (hperm.map Prod.snd).symm.trans h
        simpa using h3
      rw [hpd] at h2
      exact h2.cons_inv
    obtain ⟨L3, hL3p, hL3m⟩ := ih (L1 ++ L2) htail
    refine ⟨p :: L3, ?_, ?_⟩
    · exact (hL3p.cons p).trans hperm.symm
    · rw [List.map_cons, hL3m, hpd]

/-- Any list of values of the right length can be assigned to the depth
slots of a merge tree. -/
theorem wtree_reassign : ∀ (T : WTree) (d0 : Nat) (vs : List Nat),
    vs.length = (wdepths T d0).length →
    ∃ T2, wdepths T2 d0 = vs.zip ((wdepths T d0).map Prod.snd) := by
  intro T
  induction T with
  | leaf w =>
    intro d0 vs hlen
    rw [wdepths] at hlen
    simp only [List.length_singleton] at hlen
    obtain ⟨v, hv⟩ := List.length_eq_one.1 hlen
    subst hv
    exact ⟨WTree.leaf v, by simp [wdepths]⟩
  | node l r ihl ihr =>
    intro d0 vs hlen
    rw [wdepths, List.length_append] at hlen
    obtain ⟨T1, h1⟩ := ihl (d0 + 1) (vs.take (wdepths l (d0 + 1)).length) (by
      rw [List.length_take]
      omega)
    obtain ⟨T2, h2⟩ := ihr (d0 + 1) (vs.drop (wdepths l (d0 + 1)).length) (by
      rw [List.length_drop]
      omega)
    refine ⟨WTree.node T1 T2, ?_⟩
    rw [wdepths, wdepths, h1, h2, List.map_append,
      ← List.zip_append (by rw [List.length_take, List.length_map]; omega),
      List.take_append_drop]

/-- Realisation: any assignment list whose depth multiset matches a merge
tree's depth multiset is the depth list of some merge tree, up to
permutation. -/
theorem wtree_realize (T : WTree) (d0 : Nat) (L : List (Nat × Nat))
    (h : (L.map Prod.snd).Perm ((wdepths T d0).map Prod.snd)) :
    ∃ T2, (wdepths T2 d0).Perm L := by
  obtain ⟨L2, hL2p, hL2m⟩ := pair_align ((wdepths T d0).map Prod.snd) L h
  have hlen : (L2.map Prod.fst).length = (wdepths T d0).length := by
    have := congrArg List.length hL2m
    simpa using this
  obtain ⟨T2, hT2⟩ := wtree_reassign T d0 (L2.map Prod.fst) hlen
  have hzip : (L2.map Prod.fst).zip (L2.map Prod.snd) = L2 := by
    simp [List.zip_map']
  refine ⟨T2, ?_⟩
  rw [hT2, ← hL2m, hzip]
  exact hL2p

/-- Exchange argument: merging the two smallest leaf weights of any merge
tree can be realised by some merge tree on the contracted multiset without
increasing total cost (cost decreases by at least the merged weight). -/
theorem wtree_surgery (T : WTree) (hT : 1 ≤ wheight T) (a b : Nat)
    (ha : a ∈ wleaves T) (hb : b ∈ (wleaves T).erase a)
    (hmina : ∀ z ∈ wleaves T, a ≤ z) (hminb : ∀ z ∈ (wleaves T).erase a, b ≤ z) :
    ∃ T2, (wleaves T2).Perm ((a + b) :: ((wleaves T).erase a).erase b) ∧
      wcost T2 + a + b ≤ wcost T := by
  obtain ⟨M, h1, h2, h3⟩ := contractDeep_spec T hT 0
  have hlv : (wleaves T).Perm
      ((contractDeep T).2.1 :: (contractDeep T).2.2 :: M.map Prod.fst) := by
    have hm := h1.map Prod.fst
    rw [wdepths_map_fst] at hm
    simpa using hm
  have hv1 : a ∈ (contractDeep T).2.1 ::
      (((contractDeep T).2.2, 0 + wheight T) :: M).map Prod.fst := by
    have := hlv.mem_iff.1 ha
    simpa using this
  have hmin1 : ∀ z ∈ (contractDeep T).2.1 ::
      (((contractDeep T).2.2, 0 + wheight T) :: M).map Prod.fst, a ≤ z := by
    intro z hz
    apply hmina
    apply hlv.mem_iff.2
    simpa using hz
  have hDb0 : ∀ p ∈ ((contractDeep T).2.2, 0 + wheight T) :: M,
      p.2 ≤ 0 + wheight T := by
    intro p hp
    rcases List.mem_cons.1 hp with hp | hp
    · subst hp; exact le_refl _
    · exact h3 p hp
  obtain ⟨R1, hps1, hpf1, hsnd1, hDb1⟩ := swap_into_head
    (contractDeep T).2.1 (0 + wheight T)
    (((contractDeep T).2.2, 0 + wheight T) :: M) a hv1 hmin1 hDb0
  obtain ⟨p0, M1, hR1⟩ : ∃ p0 M1, R1 = p0 :: M1 := by
    cases R1 with
    | nil =>
      rw [List.map_nil] at hsnd1
      exact absurd hsnd1.symm (by simp)
    | cons p0 M1 => exact ⟨p0, M1, rfl⟩
  obtain ⟨c, dc⟩ := p0
  subst hR1
  have hsnd1' : dc = 0 + wheight T ∧ M1.map Prod.snd = M.map Prod.snd := by
    simp only [List.map_cons] at hsnd1
    exact ⟨by injection hsnd1, by injection hsnd1⟩
  obtain ⟨hdc, hM1snd⟩ := hsnd1'
  subst hdc
  have hlva : ((wleaves T).erase a).Perm (c :: M1.map Prod.fst) := by
    have hlv2 : (wleaves T).Perm (a :: (c :: M1.map Prod.fst)) := by
      apply List.Perm.trans hlv
      have := hpf1.symm
      simpa using this
    have he := hlv2.erase a
    rw [List.erase_cons_head] at he
    exact he
  have hv2 : b ∈ c :: M1.map Prod.fst := hlva.mem_iff.1 hb
  have hmin2 : ∀ z ∈ c :: M1.map Prod.fst, b ≤ z := by
    intro z hz
    exact hminb z (hlva.mem_iff.2 hz)
  have hDb1' : ∀ p ∈ M1, p.2 ≤ 0 + wheight T := by
    intro p hp
    exact hDb1 p (List.mem_cons_of_mem _ hp)
  obtain ⟨M2, hps2, hpf2, hsnd2, hDb2⟩ := swap_into_head
    c (0 + wheight T) M1 b hv2 hmin2 hDb1'
  have hreal : (((a + b, 0 + wheight T - 1) :: M2).map Prod.snd).Perm
      ((wdepths (contractDeep T).1 0).map Prod.snd) := by
    have hr := (h2.map Prod.snd).symm
    simp only [List.map_cons] at hr ⊢
    rw [hsnd2, hM1snd]
    simpa using hr
  obtain ⟨T2, hT2⟩ := wtree_realize (contractDeep T).1 0
    ((a + b, 0 + wheight T - 1) :: M2) hreal
  refine ⟨T2, ?_, ?_⟩
  · have hlT2 : (wleaves T2).Perm ((a + b) :: M2.map Prod.fst) := by
      have hm := hT2.map Prod.fst
      rw [wdepths_map_fst] at hm
      simpa using hm
    apply List.Perm.trans hlT2
    apply List.Perm.cons
    have he := (hlva.erase b).trans ((hpf2.symm).erase b)
    rw [List.erase_cons_head] at he
    exact he.symm
  · have hc1 : wcost T2 = (a + b) * (0 + wheight T - 1) + psum M2 := by
      rw [← psum_wdepths0 T2, psum_perm _ _ hT2, psum_cons]
    have hc2 : psum ((a, 0 + wheight T) ::
        (c, 0 + wheight T) :: M1) ≤ wcost T := by
      apply le_trans hps1
      rw [← psum_wdepths0 T]
      exact (psum_perm _ _ h1).symm.le
    rw [psum_cons, psum_cons] at hc2
    rw [psum_cons, psum_cons] at hps2
    have e1 : (a + b) * (0 + wheight T - 1) + (a + b) =
        a * (0 + wheight T) + b * (0 + wheight T) := by
      rw [← Nat.add_mul]
      have e2 : (a + b) * (0 + wheight T - 1) + (a + b) =
          (a + b) * (0 + wheight T - 1 + 1) := by
        rw [Nat.mul_succ]
      rw [e2]
      congr 1
      omega
    rw [hc1]
    omega

theorem wsum_eq_sum (T : WTree) : wsum T = (wleaves T).sum := by
  induction T with
  | leaf w => rw [wsum, wleaves]; simp
  | node l r ihl ihr => rw [wsum, wleaves, List.sum_append, ihl, ihr]

/-- Optimality of the greedy merge order: the greedy cost is a lower bound
for the cost of every merge tree over the same leaf multiset. -/
theorem hufCost_le_wcost_aux : ∀ (n : Nat) (T : WTree), (wleaves T).length ≤ n →
    hufCost (wleaves T) ≤ wcost T := by
  intro n
  induction n with
  | zero =>
    intro T hl
    have hp := wdepths_length_pos T 0
    have hmf : (wleaves T).length = (wdepths T 0).length := by
      rw [← wdepths_map_fst T 0, List.length_map]
    omega
  | succ n ih =>
    intro T hl
    by_cases h1 : (wleaves T).length ≤ 1
    · rw [hufCost_stop _ h1]
      exact Nat.zero_le _
    · have hT : 1 ≤ wheight T := by
        cases T with
        | leaf w => rw [wleaves] at h1; simp at h1
        | node l r => rw [wheight]; omega
      have hne : wleaves T ≠ [] := by
        intro hc
        rw [hc] at h1
        simp at h1
      obtain ⟨a, hma⟩ : ∃ a, (wleaves T).min? = some a := by
        cases hW : wleaves T with
        | nil => exact absurd hW hne
        | cons u t => exact ⟨_, List.min?_cons'⟩
      have hainfo := (min?_eq_some_iff_nat _ _).1 hma
      have hlenea : ((wleaves T).erase a).length + 1 = (wleaves T).length := by
        rw [List.length_erase_of_mem hainfo.1]
        have := List.length_pos.2 hne
        omega
      have hene : (wleaves T).erase a ≠ [] := by
        intro hc
        rw [hc] at hlenea
        simp at hlenea
        omega
      obtain ⟨b, hmb⟩ : ∃ b, ((wleaves T).erase a).min? = some b := by
        cases hW : (wleaves T).erase a with
        | nil => exact absurd hW hene
        | cons u t => exact ⟨_, List.min?_cons'⟩
      have hbinfo := (min?_eq_some_iff_nat _ _).1 hmb
      obtain ⟨T2, hperm2, hcost2⟩ := wtree_surgery T hT a b
        hainfo.1 hbinfo.1 hainfo.2 hbinfo.2
      have hlen2 : (wleaves T2).length ≤ n := by
        rw [hperm2.length_eq]
        rw [List.length_cons, List.length_erase_of_mem hbinfo.1]
        omega
      have hstep := hufCost_step (wleaves T) h1 a b hma hmb
      have hpermc : hufCost ((a + b) :: ((wleaves T).erase a).erase b) =
          hufCost (wleaves T2) :=
        hufCost_perm ((a + b) :: ((wleaves T).erase a).erase b).length _ _
          (le_refl _) hperm2.symm
      rw [hstep, hpermc]
      have := ih T2 hlen2
      omega

theorem hufCost_le_wcost (T : WTree) : hufCost (wleaves T) ≤ wcost T :=
  hufCost_le_wcost_aux (wleaves T).length T (le_refl _)

/-- A balanced merge tree over any non-empty weight list of length at most
2 ^ m has cost at most m times the total weight. -/
theorem balanced_exists : ∀ (m : Nat) (W : List Nat), W ≠ [] → W.length ≤ 2 ^ m →
    ∃ T, wleaves T = W ∧ wcost T ≤ m * W.sum := by
  intro m
  induction m with
  | zero =>
    intro W hne hlen
    rw [pow_zero] at hlen
    obtain ⟨w, hw⟩ : ∃ w, W = [w] := by
      cases W with
      | nil => exact absurd rfl hne
      | cons u t =>
        cases t with
        | nil => exact ⟨u, rfl⟩
        | cons v t2 => simp at hlen
    subst hw
    exact ⟨WTree.leaf w, rfl, by rw [wcost]; omega⟩
  | succ m ih =>
    intro W hne hlen
    by_cases hsmall : W.length ≤ 2 ^ m
    · obtain ⟨T, hT1, hT2⟩ := ih W hne hsmall
      refine ⟨T, hT1, ?_⟩
      have hmm : m * W.sum ≤ (m + 1) * W.sum := by
        apply Nat.mul_le_mul_right
        omega
      omega
    · have hpow : 0 < 2 ^ m := Nat.pos_pow_of_pos m (by omega)
      have hlt : W.length ≤ 2 ^ m * 2 := by
        rw [← pow_succ]
        exact hlen
      have ht : (W.take (2 ^ m)).length = 2 ^ m := by
        rw [List.length_take]
        omega
      have hd : (W.drop (2 ^ m)).length = W.length - 2 ^ m := List.length_drop _ _
      obtain ⟨T1, hT11, hT12⟩ := ih (W.take (2 ^ m))
        (List.length_pos.1 (by rw [ht]; exact hpow)) (by omega)
      obtain ⟨T2, hT21, hT22⟩ := ih (W.drop (2 ^ m))
        (List.length_pos.1 (by rw [hd]; omega)) (by omega)
      refine ⟨WTree.node T1 T2, ?_, ?_⟩
      · rw [wleaves, hT11, hT21, List.take_append_drop]
      · rw [wcost, wsum_eq_sum, wsum_eq_sum, hT11, hT21]
        have hsplit : W.sum = (W.take (2 ^ m)).sum + (W.drop (2 ^ m)).sum := by
          rw [← List.sum_append, List.take_append_drop]
        rw [hsplit]
        have e1 : (m + 1) * ((W.take (2 ^ m)).sum + (W.drop (2 ^ m)).sum) =
            m * (W.take (2 ^ m)).sum + m * (W.drop (2 ^ m)).sum +
              ((W.take (2 ^ m)).sum + (W.drop (2 ^ m)).sum) := by
          ring
        rw [e1]
        have := hT12
        have := hT22
        omega

/-- Greedy merge cost on at most 2 ^ m weights is at most m times the
total weight. -/
theorem hufCost_le_pow (m : Nat) (W : List Nat) (hne : W ≠ [])
    (hlen : W.length ≤ 2 ^ m) : hufCost W ≤ m * W.sum := by
  obtain ⟨T, hT1, hT2⟩ := balanced_exists m W hne hlen
  calc hufCost W = hufCost (wleaves T) := by rw [hT1]
    _ ≤ wcost T := hufCost_le_wcost T
    _ ≤ m * W.sum := hT2

theorem hnodeLt_key : ∀ a b : HuffmanNode, hnodeLt a b = true ↔ a.freq < b.freq := by
  intro a b
  rw [hnodeLt]
  simp

theorem heappop_some {α : Type} (lt : α → α → Bool) (l : List α) (hne : l ≠ []) :
    ∃ x rest, heappop lt l = some (x, rest) := by
  rw [heappop]
  cases hl : l.getLast? with
  | none =>
    rw [List.getLast?_eq_none_iff] at hl
    exact absurd hl hne
  | some lastelt =>
    simp only []
    cases hg : l.dropLast.get? 0 with
    | none => exact ⟨lastelt, l.dropLast, rfl⟩
    | some returnitem => exact ⟨returnitem, _, rfl⟩

/-- Total merge cost stored in a tree: the sum of the stored weights of all
nodes that have at least one child. -/
def ncost : HuffmanNode → Nat
  | .mk _ _ none none => 0
  | .mk _ f none (some r) => f + ncost r
  | .mk _ f (some l) none => f + ncost l
  | .mk _ f (some l) (some r) => f + ncost l + ncost r

/-- The childless descendants of a tree, left to right. -/
def nleaves : HuffmanNode → List HuffmanNode
  | .mk c f none none => [.mk c f none none]
  | .mk _ _ none (some r) => nleaves r
  | .mk _ _ (some l) none => nleaves l
  | .mk _ _ (some l) (some r) => nleaves l ++ nleaves r

/-- The merge loop over a valid heap realises exactly the greedy
(minimum-pair) merge cost, and preserves the multiset of leaves. -/
theorem buildLoop_hufCost : ∀ (n : Nat) (nodes : List HuffmanNode),
    nodes.length ≤ n → 1 ≤ nodes.length → subHeapInv HuffmanNode.freq nodes 0 →
    ∃ root, buildLoop nodes = [root] ∧
      ncost root = hufCost (nodes.map HuffmanNode.freq) + (nodes.map ncost).sum ∧
      (nleaves root).Perm ((nodes.map nleaves).flatten) := by
  intro n
  induction n with
  | zero =>
    intro nodes hlen hone _
    omega
  | succ n ih =>
    intro nodes hlen hone hinv
    by_cases h1 : nodes.length ≤ 1
    · obtain ⟨root, hroot⟩ : ∃ root, nodes = [root] := by
        cases nodes with
        | nil => simp at hone
        | cons a t =>
          cases t with
          | nil => exact ⟨a, rfl⟩
          | cons b u => simp at h1
      subst hroot
      refine ⟨root, buildLoop_stop _ (by simp), ?_, by simp⟩
      rw [hufCost_stop _ (by simp)]
      simp
    · have hne : nodes ≠ [] := by
        intro hc
        rw [hc] at hone
        simp at hone
      obtain ⟨a, rest1, hp1⟩ := heappop_some hnodeLt nodes hne
      obtain ⟨hmin1, hinv1⟩ := heappop_spec HuffmanNode.freq hnodeLt hnodeLt_key
        nodes a rest1 hinv hp1
      have hperm1 : (a :: rest1).Perm nodes := heappop_perm hnodeLt nodes a rest1 hp1
      have hlen1 : rest1.length + 1 = nodes.length := heappop_length hnodeLt nodes a rest1 hp1
      have hne1 : rest1 ≠ [] := by
        intro hc
        rw [hc] at hlen1
        simp at hlen1
        omega
      obtain ⟨b, rest2, hp2⟩ := heappop_some hnodeLt rest1 hne1
      obtain ⟨hmin2, hinv2⟩ := heappop_spec HuffmanNode.freq hnodeLt hnodeLt_key
        rest1 b rest2 hinv1 hp2
      have hperm2 : (b :: rest2).Perm rest1 := heappop_perm hnodeLt rest1 b rest2 hp2
      have hlen2 : rest2.length + 1 = rest1.length := heappop_length hnodeLt rest1 b rest2 hp2
      have hstep := buildLoop_step nodes (by omega) a b rest1 rest2 hp1 hp2
      have hpushinv := heappush_heap HuffmanNode.freq hnodeLt hnodeLt_key rest2
        (HuffmanNode.mk none (a.freq + b.freq) (some a) (some b)) hinv2
      have hpushperm := heappush_perm hnodeLt rest2
        (HuffmanNode.mk none (a.freq + b.freq) (some a) (some b))
      have hpushlen : (heappush hnodeLt rest2
          (HuffmanNode.mk none (a.freq + b.freq) (some a) (some b))).length =
          rest2.length + 1 := heappush_length hnodeLt rest2 _
      obtain ⟨root, hbl, hcost, hleaf⟩ := ih
        (heappush hnodeLt rest2 (HuffmanNode.mk none (a.freq + b.freq) (some a) (some b)))
        (by omega) (by omega) hpushinv
      refine ⟨root, by rw [hstep]; exact hbl, ?_, ?_⟩
      · have hWperm : (nodes.map HuffmanNode.freq).Perm
            (a.freq :: b.freq :: rest2.map HuffmanNode.freq) := by
          have h1s := (hperm1.map HuffmanNode.freq).symm
          have h2s := (hperm2.map HuffmanNode.freq).symm
          simp only [List.map_cons] at h1s h2s
          exact h1s.trans (h2s.cons a.freq)
        have hWlen : ¬ (nodes.map HuffmanNode.freq).length ≤ 1 := by
          rw [List.length_map]
          omega
        have hma : (nodes.map HuffmanNode.freq).min? = some a.freq := by
          rw [min?_eq_some_iff_nat]
          constructor
          · exact List.mem_map_of_mem HuffmanNode.freq (hperm1.subset (by simp))
          · intro w hw
            obtain ⟨y, hy, hyw⟩ := List.mem_map.1 hw
            rw [← hyw]
            exact hmin1 y hy
        have herase1 : ((nodes.map HuffmanNode.freq).erase a.freq).Perm
            (b.freq :: rest2.map HuffmanNode.freq) := by
          have := hWperm.erase a.freq
          rw [List.erase_cons_head] at this
          exact this
        have hmb : ((nodes.map HuffmanNode.freq).erase a.freq).min? = some b.freq := by
          rw [min?_perm _ _ herase1, min?_eq_some_iff_nat]
          constructor
          · simp
          · intro w hw
            have hw2 : w ∈ rest1.map HuffmanNode.freq := by
              have := (hperm2.map HuffmanNode.freq).mem_iff.1 (by simpa using hw)
              exact this
            obtain ⟨y, hy, hyw⟩ := List.mem_map.1 hw2
            rw [← hyw]
            exact hmin2 y hy
        have herase2 : (((nodes.map HuffmanNode.freq).erase a.freq).erase b.freq).Perm
            (rest2.map HuffmanNode.freq) := by
          have := herase1.erase b.freq
          rw [List.erase_cons_head] at this
          exact this
        have hstepc := hufCost_step (nodes.map HuffmanNode.freq) hWlen a.freq b.freq hma hmb
        have hcperm : hufCost ((a.freq + b.freq) ::
            ((nodes.map HuffmanNode.freq).erase a.freq).erase b.freq) =
            hufCost ((a.freq + b.freq) :: rest2.map HuffmanNode.freq) :=
          hufCost_perm ((a.freq + b.freq) ::
            ((nodes.map HuffmanNode.freq).erase a.freq).erase b.freq).length _ _
            (le_refl _) (herase2.cons _)
        have hpushfreq : hufCost ((heappush hnodeLt rest2
            (HuffmanNode.mk none (a.freq + b.freq) (some a) (some b))).map
              HuffmanNode.freq) =
            hufCost ((a.freq + b.freq) :: rest2.map HuffmanNode.freq) := by
          apply hufCost_perm ((heappush hnodeLt rest2
            (HuffmanNode.mk none (a.freq + b.freq) (some a) (some b))).map
              HuffmanNode.freq).length _ _ (le_refl _)
          have := hpushperm.map HuffmanNode.freq
          simpa [HuffmanNode.freq] using this
        have hsump : ((heappush hnodeLt rest2
            (HuffmanNode.mk none (a.freq + b.freq) (some a) (some b))).map ncost).sum =
            ncost (HuffmanNode.mk none (a.freq + b.freq) (some a) (some b)) +
              (rest2.map ncost).sum := by
          have := (hpushperm.map ncost).sum_eq
          simpa using this
        have hsumnodes : (nodes.map ncost).sum =
            ncost a + (ncost b + (rest2.map ncost).sum) := by
          have h1s := ((hperm1.map ncost).sum_eq).symm
          have h2s := ((hperm2.map ncost).sum_eq).symm
          simp only [List.map_cons, List.sum_cons] at h1s h2s
          omega
        rw [hcost, hpushfreq, hsump, hstepc, hcperm, hsumnodes, ncost]
        omega
      · apply hleaf.trans
        apply List.Perm.trans ((hpushperm.map nleaves).flatten)
        simp only [List.map_cons, List.flatten_cons]
        have hm : nleaves (HuffmanNode.mk none (a.freq + b.freq) (some a) (some b)) =
            nleaves a ++ nleaves b := by
          rw [nleaves]
        rw [hm, List.append_assoc]
        have h2 := (hperm2.map nleaves).flatten
        simp only [List.map_cons, List.flatten_cons] at h2
        have h1 := (hperm1.map nleaves).flatten
        simp only [List.map_cons, List.flatten_cons] at h1
        exact (h2.append_left (nleaves a)).trans h1

/-- Shape invariant of trees produced by the builder: childless nodes carry
a symbol, nodes with children carry two children and no symbol. -/
def nodeWF : HuffmanNode → Prop
  | .mk (some _) _ none none => True
  | .mk (some _) _ none (some _) => False
  | .mk (some _) _ (some _) none => False
  | .mk (some _) _ (some _) (some _) => False
  | .mk none _ none none => False
  | .mk none _ none (some _) => False
  | .mk none _ (some _) none => False
  | .mk none _ (some l) (some r) => nodeWF l ∧ nodeWF r

theorem buildLoop_WF : ∀ (n : Nat) (nodes : List HuffmanNode),
    nodes.length ≤ n → nodes ≠ [] → (∀ x ∈ nodes, nodeWF x) →
    ∃ root, buildLoop nodes = [root] ∧ nodeWF root := by
  intro n
  induction n with
  | zero =>
    intro nodes hlen hne _
    exact absurd (List.length_eq_zero.1 (by omega)) hne
  | succ n ih =>
    intro nodes hlen hne hok
    by_cases h1 : nodes.length ≤ 1
    · obtain ⟨root, hroot⟩ : ∃ root, nodes = [root] := by
        cases nodes with
        | nil => exact absurd rfl hne
        | cons a t =>
          cases t with
          | nil => exact ⟨a, rfl⟩
          | cons b u => simp at h1
      subst hroot
      exact ⟨root, buildLoop_stop _ (by simp), hok root (by simp)⟩
    · obtain ⟨a, rest1, hp1⟩ := heappop_some hnodeLt nodes hne
      have hperm1 : (a :: rest1).Perm nodes := heappop_perm hnodeLt nodes a rest1 hp1
      have hlen1 : rest1.length + 1 = nodes.length := heappop_length hnodeLt nodes a rest1 hp1
      have hne1 : rest1 ≠ [] := by
        intro hc
        rw [hc] at hlen1
        simp at hlen1
        omega
      obtain ⟨b, rest2, hp2⟩ := heappop_some hnodeLt rest1 hne1
      have hperm2 : (b :: rest2).Perm rest1 := heappop_perm hnodeLt rest1 b rest2 hp2
      have hlen2 : rest2.length + 1 = rest1.length := heappop_length hnodeLt rest1 b rest2 hp2
      have hstep := buildLoop_step nodes (by omega) a b rest1 rest2 hp1 hp2
      have hWFm : nodeWF (HuffmanNode.mk none (a.freq + b.freq) (some a) (some b)) := by
        rw [nodeWF]
        constructor
        · exact hok a (hperm1.subset (by simp))
        · exact hok b (hperm1.subset (List.mem_cons_of_mem a (hperm2.subset (by simp))))
      have hpushperm := heappush_perm hnodeLt rest2
        (HuffmanNode.mk none (a.freq + b.freq) (some a) (some b))
      have hpushlen : (heappush hnodeLt rest2
          (HuffmanNode.mk none (a.freq + b.freq) (some a) (some b))).length =
          rest2.length + 1 := heappush_length hnodeLt rest2 _
      obtain ⟨root, hbl, hWF⟩ := ih
        (heappush hnodeLt rest2 (HuffmanNode.mk none (a.freq + b.freq) (some a) (some b)))
        (by omega)
        (by
          intro hc
          rw [hc] at hpushlen
          simp at hpushlen)
        (by
          intro x hx
          rcases (List.Perm.mem_iff hpushperm).1 hx with hx2
          rcases List.mem_cons.1 hx2 with hx2 | hx2
          · rw [hx2]
            exact hWFm
          · exact hok x (hperm1.subset (List.mem_cons_of_mem a (hperm2.subset
              (List.mem_cons_of_mem b hx2)))))
      exact ⟨root, by rw [hstep]; exact hbl, hWF⟩

/-- Leaf records of the code walk: the leaf's symbol and weight with its
path code. -/
def leafEntries : HuffmanNode → List Char → List ((Char × Nat) × List Char)
  | .mk (some c) f _ _, code => [((c, f), code)]
  | .mk none _ none none, _ => []
  | .mk none _ none (some rn), code => leafEntries rn (code ++ ['1'])
  | .mk none _ (some ln) none, code => leafEntries ln (code ++ ['0'])
  | .mk none _ (some ln) (some rn), code =>
    leafEntries ln (code ++ ['0']) ++ leafEntries rn (code ++ ['1'])

theorem leafEntries_cost : ∀ (t : HuffmanNode), nodeWF t → weightOk t →
    ∀ code0 : List Char,
    ((leafEntries t code0).map (fun e => e.1.2 * e.2.length)).sum =
      ncost t + code0.length * t.freq := by
  intro t
  match t with
  | .mk (some c) f none none =>
    intro _ _ code0
    rw [leafEntries, ncost, HuffmanNode.freq]
    simp [Nat.mul_comm]
  | .mk (some c) f none (some r) =>
    intro hWF
    rw [nodeWF] at hWF
    exact hWF.elim
  | .mk (some c) f (some l) none =>
    intro hWF
    rw [nodeWF] at hWF
    exact hWF.elim
  | .mk (some c) f (some l) (some r) =>
    intro hWF
    rw [nodeWF] at hWF
    exact hWF.elim
  | .mk none f none none =>
    intro hWF
    rw [nodeWF] at hWF
    exact hWF.elim
  | .mk none f none (some r) =>
    intro hWF
    rw [nodeWF] at hWF
    exact hWF.elim
  | .mk none f (some l) none =>
    intro hWF
    rw [nodeWF] at hWF
    exact hWF.elim
  | .mk none f (some l) (some r) =>
    intro hWF hwok code0
    rw [nodeWF] at hWF
    have hwl : weightOk l := by
      intro s hs
      exact hwok s (by rw [subtrees]; simp [hs])
    have hwr : weightOk r := by
      intro s hs
      exact hwok s (by rw [subtrees]; simp [hs])
    have ihl := leafEntries_cost l hWF.1 hwl (code0 ++ ['0'])
    have ihr := leafEntries_cost r hWF.2 hwr (code0 ++ ['1'])
    have hfr : f = (leafFreqs l).sum + (leafFreqs r).sum := by
      have := hwok (HuffmanNode.mk none f (some l) (some r))
        (self_mem_subtrees _)
      rw [HuffmanNode.freq, leafFreqs, List.sum_append] at this
      exact this
    have hlf : l.freq = (leafFreqs l).sum := hwl l (self_mem_subtrees l)
    have hrf : r.freq = (leafFreqs r).sum := hwr r (self_mem_subtrees r)
    rw [leafEntries, List.map_append, List.sum_append, ihl, ihr, ncost,
      HuffmanNode.freq]
    simp only [List.length_append, List.length_singleton]
    rw [hlf, hrf, hfr]
    ring

/-- The explicit-stack code walk equals a fold of the recursive leaf
records over the stack. -/
theorem build_codebook_loop_eq : ∀ (n : Nat) (stack : List (HuffmanNode × List Char))
    (cb : List (Char × List Char)), stackWeight stack ≤ n →
    build_codebook_loop stack cb =
      ((stack.map (fun p => leafEntries p.1 p.2)).flatten).foldl
        (fun d e => dictSet d e.1.1 e.2) cb := by
  intro n
  induction n using Nat.strong_induction_on with
  | _ n ih =>
    intro stack cb hw
    match stack with
    | [] =>
      rw [build_codebook_loop]
      rfl
    | (HuffmanNode.mk (some c) f lc rc, code) :: rest =>
      rw [build_codebook_loop]
      have hwlt : stackWeight rest < n := by
        simp only [stackWeight, List.map_cons, List.sum_cons] at hw
        have := HuffmanNode.size_pos (HuffmanNode.mk (some c) f lc rc)
        rw [stackWeight]
        omega
      rw [ih (stackWeight rest) hwlt rest _ (le_refl _)]
      rw [List.map_cons, List.flatten_cons, leafEntries]
      rfl
    | (HuffmanNode.mk none f none none, code) :: rest =>
      rw [build_codebook_loop]
      have hwlt : stackWeight rest < n := by
        simp only [stackWeight, List.map_cons, List.sum_cons] at hw
        have := HuffmanNode.size_pos (HuffmanNode.mk none f none none)
        rw [stackWeight]
        omega
      rw [ih (stackWeight rest) hwlt rest _ (le_refl _)]
      rw [List.map_cons, List.flatten_cons, leafEntries]
      rfl
    | (HuffmanNode.mk none f none (some rn), code) :: rest =>
      rw [build_codebook_loop]
      have hwlt : stackWeight ((rn, code ++ ['1']) :: rest) < n := by
        simp only [stackWeight, List.map_cons, List.sum_cons] at hw ⊢
        simp [HuffmanNode.size] at hw ⊢
        omega
      rw [ih _ hwlt ((rn, code ++ ['1']) :: rest) _ (le_refl _)]
      simp only [List.map_cons, List.flatten_cons, leafEntries]
    | (HuffmanNode.mk none f (some ln) none, code) :: rest =>
      rw [build_codebook_loop]
      have hwlt : stackWeight ((ln, code ++ ['0']) :: rest) < n := by
        simp only [stackWeight, List.map_cons, List.sum_cons] at hw ⊢
        simp [HuffmanNode.size] at hw ⊢
        omega
      rw [ih _ hwlt ((ln, code ++ ['0']) :: rest) _ (le_refl _)]
      simp only [List.map_cons, List.flatten_cons, leafEntries]
    | (HuffmanNode.mk none f (some ln) (some rn), code) :: rest =>
      rw [build_codebook_loop]
      have hwlt : stackWeight ((ln, code ++ ['0']) :: (rn, code ++ ['1']) :: rest) < n := by
        simp only [stackWeight, List.map_cons, List.map_cons, List.sum_cons, List.sum_cons]
        simp only [stackWeight, List.map_cons, List.sum_cons] at hw
        simp [HuffmanNode.size] at hw ⊢
        omega
      rw [ih _ hwlt ((ln, code ++ ['0']) :: (rn, code ++ ['1']) :: rest) _ (le_refl _)]
      simp only [List.map_cons, List.flatten_cons, leafEntries, List.append_assoc]

theorem dictGet_dictSet_self {β : Type} : ∀ (d : List (Char × β)) (c : Char) (v : β),
    dictGet (dictSet d c v) c = some v := by
  intro d
  induction d with
  | nil =>
    intro c v
    rw [dictSet, dictGet, if_pos rfl]
  | cons e rest ih =>
    intro c v
    obtain ⟨k, w⟩ := e
    rw [dictSet]
    by_cases hk : k = c
    · rw [if_pos hk, dictGet, if_pos hk]
    · rw [if_neg hk, dictGet, if_neg hk]
      exact ih c v

theorem dictGet_dictSet_ne {β : Type} : ∀ (d : List (Char × β)) (k c : Char) (v : β),
    k ≠ c → dictGet (dictSet d k v) c = dictGet d c := by
  intro d
  induction d with
  | nil =>
    intro k c v hne
    simp [dictSet, dictGet, hne]
  | cons e rest ih =>
    intro k c v hne
    obtain ⟨k', w⟩ := e
    rw [dictSet]
    by_cases hk : k' = k
    · rw [if_pos hk, dictGet, dictGet]
      rw [hk]
      rw [if_neg hne, if_neg hne]
    · rw [if_neg hk, dictGet, dictGet]
      by_cases hk2 : k' = c
      · rw [if_pos hk2, if_pos hk2]
      · rw [if_neg hk2, if_neg hk2]
        exact ih k c v hne

theorem foldl_dictSet_ne : ∀ (entries : List ((Char × Nat) × List Char))
    (cb : List (Char × List Char)) (c : Char),
    c ∉ entries.map (fun e => e.1.1) →
    dictGet (entries.foldl (fun d e => dictSet d e.1.1 e.2) cb) c = dictGet cb c := by
  intro entries
  induction entries with
  | nil =>
    intro cb c _
    rfl
  | cons e rest ih =>
    intro cb c hnm
    rw [List.foldl_cons]
    rw [List.map_cons] at hnm
    have h1 : e.1.1 ≠ c := by
      intro hc
      exact hnm (by rw [hc]; exact List.mem_cons_self _ _)
    rw [ih _ c (fun hc => hnm (List.mem_cons_of_mem _ hc))]
    exact dictGet_dictSet_ne cb e.1.1 c e.2 h1

theorem foldl_dictSet_get : ∀ (entries : List ((Char × Nat) × List Char))
    (cb : List (Char × List Char)) (c : Char) (fv : Nat) (code : List Char),
    (entries.map (fun e => e.1.1)).Nodup → ((c, fv), code) ∈ entries →
    dictGet (entries.foldl (fun d e => dictSet d e.1.1 e.2) cb) c = some code := by
  intro entries
  induction entries with
  | nil =>
    intro cb c fv code _ hm
    simp at hm
  | cons e rest ih =>
    intro cb c fv code hnd hm
    rw [List.map_cons, List.nodup_cons] at hnd
    rw [List.foldl_cons]
    rcases List.mem_cons.1 hm with hm | hm
    · rw [← hm]
      rw [← hm] at hnd
      rw [foldl_dictSet_ne rest _ c hnd.1]
      exact dictGet_dictSet_self cb c code
    · exact ih _ c fv code hnd.2 hm

theorem dictSet_keys_mem {β : Type} : ∀ (d : List (Char × β)) (k : Char) (v : β),
    k ∈ d.map Prod.fst → (dictSet d k v).map Prod.fst = d.map Prod.fst := by
  intro d
  induction d with
  | nil =>
    intro k v hm
    simp at hm
  | cons e rest ih =>
    intro k v hm
    obtain ⟨k', w⟩ := e
    rw [dictSet]
    by_cases hk : k' = k
    · rw [if_pos hk]
      simp
    · rw [if_neg hk, List.map_cons, List.map_cons]
      rw [List.map_cons] at hm
      rcases List.mem_cons.1 hm with hm | hm
      · exact absurd hm.symm hk
      · rw [ih k v hm]

theorem dictSet_keys_not_mem {β : Type} : ∀ (d : List (Char × β)) (k : Char) (v : β),
    k ∉ d.map Prod.fst → (dictSet d k v).map Prod.fst = d.map Prod.fst ++ [k] := by
  intro d
  induction d with
  | nil =>
    intro k v _
    rfl
  | cons e rest ih =>
    intro k v hm
    obtain ⟨k', w⟩ := e
    rw [dictSet]
    rw [List.map_cons] at hm
    by_cases hk : k' = k
    · exact absurd (by rw [hk]; exact List.mem_cons_self _ _) hm
    · rw [if_neg hk, List.map_cons, List.map_cons, List.cons_append]
      rw [ih k v (fun hc => hm (List.mem_cons_of_mem _ hc))]

theorem dictSet_keys_nodup {β : Type} (d : List (Char × β)) (k : Char) (v : β)
    (hnd : (d.map Prod.fst).Nodup) : ((dictSet d k v).map Prod.fst).Nodup := by
  by_cases hm : k ∈ d.map Prod.fst
  · rw [dictSet_keys_mem d k v hm]
    exact hnd
  · rw [dictSet_keys_not_mem d k v hm]
    rw [List.nodup_append]
    exact ⟨hnd, List.nodup_singleton k, by
      intro a ha hb
      rw [List.mem_singleton] at hb
      rw [hb] at ha
      exact hm ha⟩

theorem freq_fold_keys_nodup : ∀ (data : List Char) (d : List (Char × Nat)),
    (d.map Prod.fst).Nodup →
    ((data.foldl (fun freq c => dictSet freq c ((dictGet freq c).getD 0 + 1)) d).map
      Prod.fst).Nodup := by
  intro data
  induction data with
  | nil =>
    intro d hnd
    exact hnd
  | cons x xs ih =>
    intro d hnd
    rw [List.foldl_cons]
    exact ih _ (dictSet_keys_nodup d x _ hnd)

theorem freq_keys_nodup (data : List Char) :
    ((build_frequency_table data).map Prod.fst).Nodup := by
  rw [build_frequency_table]
  exact freq_fold_keys_nodup data [] (by simp)

theorem freq_fold_keys_from : ∀ (data : List Char) (d : List (Char × Nat)) (c : Char),
    c ∈ ((data.foldl (fun freq c => dictSet freq c ((dictGet freq c).getD 0 + 1)) d).map
      Prod.fst) → c ∈ d.map Prod.fst ∨ c ∈ data := by
  intro data
  induction data with
  | nil =>
    intro d c h
    exact Or.inl h
  | cons x xs ih =>
    intro d c h
    rw [List.foldl_cons] at h
    rcases ih _ c h with h2 | h2
    · by_cases hm : x ∈ d.map Prod.fst
      · rw [dictSet_keys_mem d x _ hm] at h2
        exact Or.inl h2
      · rw [dictSet_keys_not_mem d x _ hm] at h2
        rcases List.mem_append.1 h2 with h3 | h3
        · exact Or.inl h3
        · rw [List.mem_singleton] at h3
          exact Or.inr (by rw [h3]; exact List.mem_cons_self _ _)
    · exact Or.inr (List.mem_cons_of_mem _ h2)

theorem freq_fold_covers : ∀ (data : List Char) (d : List (Char × Nat)) (c : Char),
    (c ∈ data ∨ ∃ f, dictGet d c = some f) →
    ∃ f, dictGet (data.foldl
      (fun freq c => dictSet freq c ((dictGet freq c).getD 0 + 1)) d) c = some f := by
  intro data
  induction data with
  | nil =>
    intro d c h
    rcases h with h | h
    · simp at h
    · exact h
  | cons x xs ih =>
    intro d c h
    rw [List.foldl_cons]
    apply ih
    by_cases hx : x = c
    · refine Or.inr ⟨(dictGet d x).getD 0 + 1, ?_⟩
      rw [← hx]
      exact dictGet_dictSet_self d x _
    · rcases h with h | h
      · rcases List.mem_cons.1 h with h2 | h2
        · exact absurd h2.symm hx
        · exact Or.inl h2
      · refine Or.inr ?_
        rw [dictGet_dictSet_ne d x c _ hx]
        exact h

theorem freq_covers (data : List Char) (c : Char) (h : c ∈ data) :
    ∃ f, dictGet (build_frequency_table data) c = some f := by
  rw [build_frequency_table]
  exact freq_fold_covers data [] c (Or.inl h)

theorem dictGet_mem {β : Type} : ∀ (d : List (Char × β)) (c : Char) (v : β),
    dictGet d c = some v → (c, v) ∈ d := by
  intro d
  induction d with
  | nil =>
    intro c v h
    rw [dictGet] at h
    exact Option.noConfusion h
  | cons e rest ih =>
    intro c v h
    obtain ⟨k, w⟩ := e
    rw [dictGet] at h
    by_cases hk : k = c
    · rw [if_pos hk] at h
      injection h with h
      rw [← hk, ← h]
      exact List.mem_cons_self _ _
    · rw [if_neg hk] at h
      exact List.mem_cons_of_mem _ (ih c v h)

theorem dictInc_sum (g : Char → Nat) : ∀ (d : List (Char × Nat)) (x : Char),
    ((dictSet d x ((dictGet d x).getD 0 + 1)).map (fun cf => cf.2 * g cf.1)).sum =
      (d.map (fun cf => cf.2 * g cf.1)).sum + g x := by
  intro d
  induction d with
  | nil =>
    intro x
    simp [dictSet, dictGet]
  | cons e rest ih =>
    intro x
    obtain ⟨k, v⟩ := e
    rw [dictGet]
    by_cases hk : k = x
    · rw [if_pos hk, dictSet, if_pos hk]
      simp only [List.map_cons, List.sum_cons, Option.getD_some]
      rw [hk]
      ring_nf
      omega
    · rw [if_neg hk, dictSet, if_neg hk]
      simp only [List.map_cons, List.sum_cons]
      rw [ih x]
      omega

theorem freq_fold_sum (g : Char → Nat) : ∀ (data : List Char) (d : List (Char × Nat)),
    ((data.foldl (fun freq c => dictSet freq c ((dictGet freq c).getD 0 + 1)) d).map
      (fun cf => cf.2 * g cf.1)).sum =
      (d.map (fun cf => cf.2 * g cf.1)).sum + (data.map g).sum := by
  intro data
  induction data with
  | nil =>
    intro d
    simp
  | cons x xs ih =>
    intro d
    rw [List.foldl_cons, ih, dictInc_sum g d x, List.map_cons, List.sum_cons]
    omega

/-- Grouping: a per-symbol sum over the text equals the frequency-weighted
sum over the tally table. -/
theorem freq_sum (data : List Char) (g : Char → Nat) :
    ((build_frequency_table data).map (fun cf => cf.2 * g cf.1)).sum =
      (data.map g).sum := by
  rw [build_frequency_table, freq_fold_sum g data []]
  simp

theorem freq_count_total (data : List Char) :
    ((build_frequency_table data).map Prod.snd).sum = data.length := by
  have h1 := freq_sum data (fun _ => 1)
  simp only [Nat.mul_one] at h1
  have he : (build_frequency_table data).map Prod.snd =
      (build_frequency_table data).map (fun cf => cf.2) := rfl
  rw [he, h1]
  simp

theorem leafEntries_chars : ∀ (t : HuffmanNode), nodeWF t → ∀ code : List Char,
    (leafEntries t code).map (fun e => ((some e.1.1 : Option Char), e.1.2)) =
      (nleaves t).map (fun x => (x.char, x.freq)) := by
  intro t
  match t with
  | .mk (some c) f none none =>
    intro _ code
    rw [leafEntries, nleaves]
    simp [HuffmanNode.char, HuffmanNode.freq]
  | .mk (some c) f none (some r) =>
    intro hWF
    rw [nodeWF] at hWF
    exact hWF.elim
  | .mk (some c) f (some l) none =>
    intro hWF
    rw [nodeWF] at hWF
    exact hWF.elim
  | .mk (some c) f (some l) (some r) =>
    intro hWF
    rw [nodeWF] at hWF
    exact hWF.elim
  | .mk none f none none =>
    intro hWF
    rw [nodeWF] at hWF
    exact hWF.elim
  | .mk none f none (some r) =>
    intro hWF
    rw [nodeWF] at hWF
    exact hWF.elim
  | .mk none f (some l) none =>
    intro hWF
    rw [nodeWF] at hWF
    exact hWF.elim
  | .mk none f (some l) (some r) =>
    intro hWF code
    rw [nodeWF] at hWF
    rw [leafEntries, nleaves, List.map_append, List.map_append,
      leafEntries_chars l hWF.1 (code ++ ['0']), leafEntries_chars r hWF.2 (code ++ ['1'])]

theorem codebook_as_fold (root : HuffmanNode) :
    build_codebook (some root) [] =
      (leafEntries root []).foldl (fun d e => dictSet d e.1.1 e.2) [] := by
  rw [build_codebook, build_codebook_loop_eq (stackWeight [(root, [])]) _ _ (le_refl _)]
  simp

theorem cb_lookup (root : HuffmanNode)
    (hnd : ((leafEntries root []).map (fun e => e.1.1)).Nodup) :
    ∀ e ∈ leafEntries root [],
      dictGet (build_codebook (some root) []) e.1.1 = some e.2 := by
  intro e he
  rw [codebook_as_fold]
  obtain ⟨⟨c, fv⟩, code⟩ := e
  exact foldl_dictSet_get (leafEntries root []) [] c fv code hnd he

theorem mapM_some_join_length (cb : List (Char × List Char)) :
    ∀ (data : List Char) (codes : List (List Char)),
      data.mapM (fun c => dictGet cb c) = some codes →
      codes.join.length =
        (data.map (fun c => ((dictGet cb c).getD []).length)).sum := by
  intro data
  induction data with
  | nil =>
    intro codes h
    rw [List.mapM_nil] at h
    injection h with h
    rw [← h]
    simp
  | cons x xs ih =>
    intro codes h
    rw [List.mapM_cons] at h
    cases hx : dictGet cb x with
    | none =>
      rw [hx] at h
      exact Option.noConfusion h
    | some code =>
      rw [hx] at h
      cases hxs : xs.mapM (fun c => dictGet cb c) with
      | none =>
        rw [hxs] at h
        exact Option.noConfusion h
      | some rest =>
        rw [hxs] at h
        simp only [Option.bind_some, Option.some_bind, Option.pure_def] at h
        injection h with h
        rw [← h]
        simp only [List.join, List.flatten_cons, List.length_append, List.map_cons,
          List.sum_cons, hx, Option.getD_some]
        have := ih rest hxs
        simp only [List.join] at this
        omega

theorem leaf_weightOk (c : Char) (f : Nat) :
    weightOk (HuffmanNode.mk (some c) f none none) := by
  intro s hs
  rw [subtrees, List.mem_singleton] at hs
  rw [hs, HuffmanNode.freq, leafFreqs]
  simp

theorem leaf_nodeWF (c : Char) (f : Nat) :
    nodeWF (HuffmanNode.mk (some c) f none none) := by
  rw [nodeWF]
  trivial

theorem flatten_singletons {α β : Type} (g : α → β) :
    ∀ l : List α, ((l.map (fun x => [g x])).flatten) = l.map g := by
  intro l
  induction l with
  | nil => rfl
  | cons x xs ih => simp [ih]

theorem freq_length_eq (data : List Char) :
    (build_frequency_table data).length = data.toFinset.card := by
  have hnd := freq_keys_nodup data
  have hset : ((build_frequency_table data).map Prod.fst).toFinset = data.toFinset := by
    ext c
    simp only [List.mem_toFinset]
    constructor
    · intro h
      rcases freq_fold_keys_from data [] c h with h2 | h2
      · simp at h2
      · exact h2
    · intro h
      obtain ⟨f, hf⟩ := freq_covers data c h
      exact List.mem_map.2 ⟨(c, f), dictGet_mem _ c f hf, rfl⟩
  have hcard := List.toFinset_card_of_nodup hnd
  rw [hset] at hcard
  rw [hcard]
  simp

/-- The encoded bit stream of a non-empty text with at most 256 distinct
symbols is at most 8 bits per input symbol. -/
theorem encode_bits_bound (data : List Char) (hne : data ≠ [])
    (hcard : data.toFinset.card ≤ 256) (bits : List Char)
    (freqtab : List (Char × Nat)) (st : HuffmanCoder)
    (henc : HuffmanCoder.encode initCoder data = some ((bits, freqtab), st)) :
    bits.length ≤ 8 * data.length := by
  rw [HuffmanCoder.encode, if_neg (by simp [hne])] at henc
  simp only [] at henc
  cases hm : data.mapM (fun c => dictGet (build_codebook
      (some (build_huffman_tree (build_frequency_table data))) []) c) with
  | none =>
    rw [hm] at henc
    exact Option.noConfusion henc
  | some codes =>
    rw [hm] at henc
    injection henc with henc'
    injection henc' with hpair hst
    injection hpair with hbits hfreq
    -- stage 1: the frequency table and the leaf nodes are non-empty
    obtain ⟨c0, hc0⟩ := List.exists_mem_of_ne_nil data hne
    obtain ⟨f0, hf0⟩ := freq_covers data c0 hc0
    have hFne : build_frequency_table data ≠ [] :=
      List.ne_nil_of_mem (dictGet_mem _ c0 f0 hf0)
    have hn0ne : (build_frequency_table data).map
        (fun cf => HuffmanNode.mk (some cf.1) cf.2 none none) ≠ [] := by
      simpa using hFne
    -- stage 2: heapify, then run the verified merge loop
    have hHperm := heapify_perm hnodeLt ((build_frequency_table data).map
      (fun cf => HuffmanNode.mk (some cf.1) cf.2 none none))
    have hHlen := heapify_length hnodeLt ((build_frequency_table data).map
      (fun cf => HuffmanNode.mk (some cf.1) cf.2 none none))
    have hHpos : 1 ≤ (heapify hnodeLt ((build_frequency_table data).map
        (fun cf => HuffmanNode.mk (some cf.1) cf.2 none none))).length := by
      rw [hHlen]
      have := List.length_pos.2 hn0ne
      omega
    have hHne : heapify hnodeLt ((build_frequency_table data).map
        (fun cf => HuffmanNode.mk (some cf.1) cf.2 none none)) ≠ [] := by
      apply List.length_pos.1
      omega
    have hHinv := heapify_heap HuffmanNode.freq hnodeLt hnodeLt_key
      ((build_frequency_table data).map
        (fun cf => HuffmanNode.mk (some cf.1) cf.2 none none))
    obtain ⟨root, hbuild, hcost, hleafperm⟩ := buildLoop_hufCost
      (heapify hnodeLt ((build_frequency_table data).map
        (fun cf => HuffmanNode.mk (some cf.1) cf.2 none none))).length _
      (le_refl _) hHpos hHinv
    have htree : build_huffman_tree (build_frequency_table data) = root := by
      show (buildLoop (heapify hnodeLt ((build_frequency_table data).map
        (fun cf => HuffmanNode.mk (some cf.1) cf.2 none none)))).headD
          (HuffmanNode.mk none 0 none none) = root
      rw [hbuild]
      rfl
    -- stage 3: structural invariants of the root
    obtain ⟨root2, hbuild2, hwok, _⟩ := buildLoop_spec
      (heapify hnodeLt ((build_frequency_table data).map
        (fun cf => HuffmanNode.mk (some cf.1) cf.2 none none))).length _
      (le_refl _) hHne
      (by
        intro x hx
        obtain ⟨cf, _, hcf⟩ := List.mem_map.1 (hHperm.subset hx)
        rw [← hcf]
        exact leaf_weightOk cf.1 cf.2)
    rw [hbuild] at hbuild2
    injection hbuild2 with hr2 _
    subst hr2
    obtain ⟨root3, hbuild3, hWF⟩ := buildLoop_WF
      (heapify hnodeLt ((build_frequency_table data).map
        (fun cf => HuffmanNode.mk (some cf.1) cf.2 none none))).length _
      (le_refl _) hHne
      (by
        intro x hx
        obtain ⟨cf, _, hcf⟩ := List.mem_map.1 (hHperm.subset hx)
        rw [← hcf]
        exact leaf_nodeWF cf.1 cf.2)
    rw [hbuild] at hbuild3
    injection hbuild3 with hr3 _
    subst hr3
    -- stage 4: the leaf multiset of the root is the frequency table
    have hlv : (nleaves root).Perm ((build_frequency_table data).map
        (fun cf => HuffmanNode.mk (some cf.1) cf.2 none none)) := by
      apply hleafperm.trans
      apply List.Perm.trans ((hHperm.map nleaves).flatten)
      rw [List.map_map]
      have he : (nleaves ∘ fun cf => HuffmanNode.mk (some cf.1) cf.2 none none) =
          fun cf : Char × Nat => [HuffmanNode.mk (some cf.1) cf.2 none none] := rfl
      rw [he, flatten_singletons]
    have hopt : ((leafEntries root []).map
        (fun e => ((some e.1.1 : Option Char), e.1.2))).Perm
        ((build_frequency_table data).map (fun cf => ((some cf.1 : Option Char), cf.2))) := by
      rw [leafEntries_chars root hWF []]
      apply List.Perm.trans (hlv.map _)
      rw [List.map_map]
      apply List.Perm.of_eq
      rfl
    -- stage 5: codebook keys are the distinct table symbols
    have hkeysome : ((leafEntries root []).map (fun e => (some e.1.1 : Option Char))).Perm
        ((build_frequency_table data).map (fun cf => (some cf.1 : Option Char))) := by
      have := hopt.map Prod.fst
      rw [List.map_map, List.map_map] at this
      exact this
    have hnd : ((leafEntries root []).map (fun e => e.1.1)).Nodup := by
      apply List.Nodup.of_map (fun c => (some c : Option Char))
      rw [List.map_map]
      apply hkeysome.nodup_iff.2
      have he : (build_frequency_table data).map (fun cf => (some cf.1 : Option Char)) =
          ((build_frequency_table data).map Prod.fst).map
            (fun c => (some c : Option Char)) := by
        rw [List.map_map]
        rfl
      rw [he]
      exact List.Nodup.map (Option.some_injective Char) (freq_keys_nodup data)
    have hlook := cb_lookup root hnd
    -- stage 6: sum bookkeeping
    have hS1 : bits.length = (data.map (fun c =>
        ((dictGet (build_codebook (some (build_huffman_tree
          (build_frequency_table data))) []) c).getD []).length)).sum := by
      rw [← hbits]
      exact mapM_some_join_length _ data codes hm
    have hS2 : ((build_frequency_table data).map (fun cf => cf.2 *
        ((dictGet (build_codebook (some (build_huffman_tree
          (build_frequency_table data))) []) cf.1).getD []).length)).sum =
        (data.map (fun c =>
          ((dictGet (build_codebook (some (build_huffman_tree
            (build_frequency_table data))) []) c).getD []).length)).sum :=
      freq_sum data (fun c => ((dictGet (build_codebook (some (build_huffman_tree
        (build_frequency_table data))) []) c).getD []).length)
    have hS3 : ((build_frequency_table data).map (fun cf => cf.2 *
        ((dictGet (build_codebook (some (build_huffman_tree
          (build_frequency_table data))) []) cf.1).getD []).length)).sum =
        ((leafEntries root []).map (fun e => e.1.2 *
          ((dictGet (build_codebook (some (build_huffman_tree
            (build_frequency_table data))) []) e.1.1).getD []).length)).sum := by
      have hps := (hopt.map (fun p : Option Char × Nat => p.2 *
        (match p.1 with
          | some c => ((dictGet (build_codebook (some (build_huffman_tree
              (build_frequency_table data))) []) c).getD []).length
          | none => 0))).sum_eq
      rw [List.map_map, List.map_map] at hps
      have hl : ((fun p : Option Char × Nat => p.2 *
          (match p.1 with
            | some c => ((dictGet (build_codebook (some (build_huffman_tree
                (build_frequency_table data))) []) c).getD []).length
            | none => 0)) ∘ (fun e : (Char × Nat) × List Char =>
              ((some e.1.1 : Option Char), e.1.2))) =
          fun e : (Char × Nat) × List Char => e.1.2 *
            ((dictGet (build_codebook (some (build_huffman_tree
              (build_frequency_table data))) []) e.1.1).getD []).length := rfl
      have hr : ((fun p : Option Char × Nat => p.2 *
          (match p.1 with
            | some c => ((dictGet (build_codebook (some (build_huffman_tree
                (build_frequency_table data))) []) c).getD []).length
            | none => 0)) ∘ (fun cf : Char × Nat => ((some cf.1 : Option Char), cf.2))) =
          fun cf : Char × Nat => cf.2 *
            ((dictGet (build_codebook (some (build_huffman_tree
              (build_frequency_table data))) []) cf.1).getD []).length := rfl
      rw [hl, hr] at hps
      exact hps.symm
    have hS4 : ((leafEntries root []).map (fun e => e.1.2 *
        ((dictGet (build_codebook (some (build_huffman_tree
          (build_frequency_table data))) []) e.1.1).getD []).length)).sum =
        ((leafEntries root []).map (fun e => e.1.2 * e.2.length)).sum := by
      congr 1
      apply List.map_eq_map_iff.mpr
      intro e he
      rw [htree, hlook e he]
      rfl
    have hS5 : ((leafEntries root []).map (fun e => e.1.2 * e.2.length)).sum =
        ncost root := by
      rw [leafEntries_cost root hWF hwok []]
      simp
    -- stage 7: the merge cost equals the greedy optimum
    have hzero : ((heapify hnodeLt ((build_frequency_table data).map
        (fun cf => HuffmanNode.mk (some cf.1) cf.2 none none))).map ncost).sum = 0 := by
      have hp := (hHperm.map ncost).sum_eq
      rw [List.map_map] at hp
      have he : (ncost ∘ fun cf : Char × Nat => HuffmanNode.mk (some cf.1) cf.2 none none) =
          fun _ : Char × Nat => 0 := rfl
      rw [he] at hp
      rw [hp]
      simp
    have hfreqmap : hufCost ((heapify hnodeLt ((build_frequency_table data).map
        (fun cf => HuffmanNode.mk (some cf.1) cf.2 none none))).map HuffmanNode.freq) =
        hufCost ((build_frequency_table data).map Prod.snd) := by
      apply hufCost_perm ((heapify hnodeLt ((build_frequency_table data).map
        (fun cf => HuffmanNode.mk (some cf.1) cf.2 none none))).map HuffmanNode.freq).length
        _ _ (le_refl _)
      apply List.Perm.trans (hHperm.map HuffmanNode.freq)
      rw [List.map_map]
      apply List.Perm.of_eq
      rfl
    have hncost : ncost root = hufCost ((build_frequency_table data).map Prod.snd) := by
      rw [hcost, hzero, hfreqmap]
      omega
    -- stage 8: the greedy optimum is at most 8 bits per symbol
    have hflen : ((build_frequency_table data).map Prod.snd).length ≤ 2 ^ 8 := by
      rw [List.length_map, freq_length_eq]
      norm_num
      omega
    have hfne : (build_frequency_table data).map Prod.snd ≠ [] := by
      simpa using hFne
    have hbound := hufCost_le_pow 8 ((build_frequency_table data).map Prod.snd) hfne hflen
    rw [freq_count_total data] at hbound
    omega

end Huffman

namespace Huffman

/-- C8: for every text with at most 256 distinct symbols (in particular
skewed-frequency inputs such as `"aaaaaaaab"`), the bit stream produced by
`encode` is at most 8 bits per input symbol, the naive fixed-width length.
The Huffman tree is built greedily over a verified binary heap; its cost
equals the greedy optimum, which is bounded by the cost of a balanced
8-level tree over at most 256 = 2 ^ 8 leaves. -/
theorem c8_encoded_length_le_fixed_width (data : List Char)
    (hcard : data.toFinset.card ≤ 256) (bits : List Char)
    (freqtab : List (Char × Nat)) (st : HuffmanCoder)
    (henc : HuffmanCoder.encode initCoder data = some ((bits, freqtab), st)) :
    bits.length ≤ 8 * data.length := by
  by_cases hne : data = []
  · subst hne
    rw [HuffmanCoder.encode, if_pos (by simp)] at henc
    injection henc with henc'
    injection henc' with hpair _
    injection hpair with hbits _
    rw [← hbits]
    simp
  · exact encode_bits_bound data hne hcard bits freqtab st henc

/-- C8 witness: on the concrete text `"ab"` the encoded stream `"10"` has
2 bits, at most 8 bits per input symbol. -/
theorem c8_encoded_length_le_fixed_width_witness :
    ("ab".toList).toFinset.card ≤ 256 ∧
      (HuffmanCoder.encode initCoder ("ab".toList) =
        some (((['1', '0'] : List Char), [('a', 1), ('b', 1)]),
          ⟨[('b', ['0']), ('a', ['1'])],
            some (HuffmanNode.mk none 2 (some (HuffmanNode.mk (some 'b') 1 none none))
              (some (HuffmanNode.mk (some 'a') 1 none none)))⟩)) ∧
      (['1', '0'] : List Char).length ≤ 8 * ("ab".toList).length :=
  ⟨by decide, encode_ab,
    c8_encoded_length_le_fixed_width ("ab".toList) (by decide) ['1', '0']
      [('a', 1), ('b', 1)]
      ⟨[('b', ['0']), ('a', ['1'])],
        some (HuffmanNode.mk none 2 (some (HuffmanNode.mk (some 'b') 1 none none))
          (some (HuffmanNode.mk (some 'a') 1 none none)))⟩ encode_ab⟩

end Huffman
